import Mathlib

/-!
# Verification of the pfSense provisioning layer

A shallow embedding of `cloudinit/distros/pfsense_utils.py` (a path-addressed
XML document store built on `lxml.etree`) and `cloudinit/distros/pfsense.py`
(the user/group provisioner built on top of it), together with theorems about
the documented properties of that code.

Modelling conventions:

* An lxml `Element` is modelled by `Node` (tag, attributes, optional text,
  ordered children).  A Python value flowing through the dict-conversion layer
  is modelled by `Val` (Python `None`, `str`, `list`, `dict`; dict insertion
  order is significant, as in Python 3.7+).
* The backing file `/cf/conf/config.xml` is modelled by passing the parsed
  document (a `Node`) in and out of every operation: each store operation in
  the source is a complete parse → mutate → write transaction, so a function
  `Node → Except PyErr Node` is exact: an exception means the file is left
  unchanged (the write happens last).
* An xpath such as `"/pfsense/system/user"` is modelled as the list of its
  tags `["pfsense", "system", "user"]`; `rsplit("/", 1)` becomes
  `dropLast` / `getLast?`, and a 1-element path has the empty parent path,
  matching `xpath("")` raising `XPathEvalError`.
* Python exceptions are modelled with `Except PyErr`.
* Machine-missing helpers (`get_config_elements`, `get_config_values`,
  `sync_users_groups`) are not part of the repository sources; they are
  modelled from the specification and marked as such in their doc comments.
-/

set_option maxHeartbeats 1000000
set_option linter.unusedVariables false
set_option linter.unreachableTactic false
set_option linter.unusedTactic false
set_option linter.unnecessarySeqFocus false
set_option linter.unnecessarySimpa false

namespace PfSense

/-- The Python exceptions that the embedded code can raise. -/
inductive PyErr where
  | indexError
  | keyError
  | typeError
  | valueError
  | attributeError
  | xpathEvalError
  deriving DecidableEq, Repr

/-- A Python value as produced/consumed by `_element_to_dict` /
`_dict_to_element`: `None`, a string, a list, or an (insertion-ordered)
dict with string keys. -/
inductive Val where
  | none
  | str (s : String)
  | list (xs : List Val)
  | dict (d : List (String × Val))
  deriving Repr

/-- An lxml element: tag, attributes, optional text, ordered children. -/
inductive Node where
  | mk (tag : String) (attribs : List (String × String)) (text : Option String)
      (children : List Node)
  deriving Repr

def Node.tag : Node → String
  | .mk t _ _ _ => t

def Node.attribs : Node → List (String × String)
  | .mk _ a _ _ => a

def Node.text : Node → Option String
  | .mk _ _ x _ => x

def Node.children : Node → List Node
  | .mk _ _ _ c => c

/-- Replace the child list of a node (used to model in-place child mutation). -/
def Node.withChildren : Node → List Node → Node
  | .mk t a x _, c => .mk t a x c

/-- Replace the text of a node (models `node.text = value`). -/
def Node.withText : Node → Option String → Node
  | .mk t a _ c, x => .mk t a x c

@[simp] theorem Node.tag_mk (t a x c) : (Node.mk t a x c).tag = t := rfl
@[simp] theorem Node.attribs_mk (t a x c) : (Node.mk t a x c).attribs = a := rfl
@[simp] theorem Node.text_mk (t a x c) : (Node.mk t a x c).text = x := rfl
@[simp] theorem Node.children_mk (t a x c) : (Node.mk t a x c).children = c := rfl
@[simp] theorem Node.withChildren_mk (t a x c c') :
    (Node.mk t a x c).withChildren c' = Node.mk t a x c' := rfl
@[simp] theorem Node.withText_mk (t a x c x') :
    (Node.mk t a x c).withText x' = Node.mk t a x' c := rfl

@[simp] theorem Node.tag_withChildren (n : Node) (c) : (n.withChildren c).tag = n.tag := by
  cases n; rfl
@[simp] theorem Node.children_withChildren (n : Node) (c) :
    (n.withChildren c).children = c := by
  cases n; rfl
@[simp] theorem Node.attribs_withChildren (n : Node) (c) :
    (n.withChildren c).attribs = n.attribs := by
  cases n; rfl
@[simp] theorem Node.text_withChildren (n : Node) (c) :
    (n.withChildren c).text = n.text := by
  cases n; rfl
@[simp] theorem Node.tag_withText (n : Node) (x) : (n.withText x).tag = n.tag := by
  cases n; rfl
@[simp] theorem Node.children_withText (n : Node) (x) :
    (n.withText x).children = n.children := by
  cases n; rfl

/-- Structural induction over a node that gives the inductive hypothesis for
every child. -/
theorem Node.inductionOn (P : Node → Prop)
    (h : ∀ t a x c, (∀ m ∈ c, P m) → P (Node.mk t a x c)) : ∀ n, P n := by
  intro n
  match n with
  | .mk t a x c =>
    refine h t a x c ?_
    intro m hm
    have : sizeOf m < sizeOf (Node.mk t a x c) := by
      have := List.sizeOf_lt_of_mem hm
      simp only [Node.mk.sizeOf_spec]
      omega
    exact Node.inductionOn P h m
termination_by n => sizeOf n

/-! ## Python string helpers -/

/-- The character-level part of Python's `str.strip()`. -/
def pyStripAux (l : List Char) : List Char :=
  ((l.dropWhile Char.isWhitespace).reverse.dropWhile Char.isWhitespace).reverse

/-- Python's `str.strip()` (whitespace on both ends). -/
def pyStrip (s : String) : String := ⟨pyStripAux s.data⟩

theorem dropWhile_of_head_false {p : Char → Bool} :
    ∀ l : List Char, (∀ c, l.head? = some c → p c = false) → l.dropWhile p = l := by
  intro l h
  cases l with
  | nil => rfl
  | cons c cs =>
    have := h c rfl
    simp [List.dropWhile, this]

theorem head?_dropWhile_not {p : Char → Bool} (l : List Char) :
    ∀ c, (l.dropWhile p).head? = some c → p c = false := by
  induction l with
  | nil => intro c hc; simp at hc
  | cons a as ih =>
    intro c hc
    by_cases hp : p a
    · rw [List.dropWhile_cons_of_pos hp] at hc
      exact ih c hc
    · rw [List.dropWhile_cons_of_neg hp] at hc
      simp at hc
      subst hc
      simpa using hp

theorem dropWhile_idem {p : Char → Bool} (l : List Char) :
    (l.dropWhile p).dropWhile p = l.dropWhile p :=
  dropWhile_of_head_false _ (head?_dropWhile_not l)

/-- The left-trimmed half of `strip`. -/
def trimLeftWs (l : List Char) : List Char := l.dropWhile Char.isWhitespace

/-- The right-trimmed half of `strip`. -/
def trimRightWs (l : List Char) : List Char :=
  (l.reverse.dropWhile Char.isWhitespace).reverse

theorem pyStripAux_eq_trim (l : List Char) : pyStripAux l = trimRightWs (trimLeftWs l) := rfl

theorem trimRightWs_idem (l : List Char) : trimRightWs (trimRightWs l) = trimRightWs l := by
  unfold trimRightWs
  rw [List.reverse_reverse, dropWhile_idem]

theorem trimRightWs_prefix (l : List Char) : trimRightWs l <+: l := by
  unfold trimRightWs
  have h : l.reverse.dropWhile Char.isWhitespace <:+ l.reverse := List.dropWhile_suffix _
  have := List.reverse_prefix.mpr (by simpa using h)
  simpa using this

theorem head?_trimRightWs (l : List Char) (c : Char)
    (hc : (trimRightWs l).head? = some c) : l.head? = some c := by
  obtain ⟨t, ht⟩ := trimRightWs_prefix l
  cases hl : trimRightWs l with
  | nil => rw [hl] at hc; simp at hc
  | cons a as =>
    rw [hl] at hc ht
    simp at hc
    rw [← ht, ← hc]
    rfl

theorem trimLeftWs_trimRightWs_trimLeftWs (l : List Char) :
    trimLeftWs (trimRightWs (trimLeftWs l)) = trimRightWs (trimLeftWs l) := by
  apply dropWhile_of_head_false
  intro c hc
  exact head?_dropWhile_not l c (head?_trimRightWs _ c hc)

/-- Python's `strip` is idempotent. -/
theorem pyStripAux_idem (l : List Char) : pyStripAux (pyStripAux l) = pyStripAux l := by
  rw [pyStripAux_eq_trim, pyStripAux_eq_trim, trimLeftWs_trimRightWs_trimLeftWs,
    trimRightWs_idem]

theorem pyStrip_idem (s : String) : pyStrip (pyStrip s) = pyStrip s := by
  unfold pyStrip
  exact congrArg String.mk (pyStripAux_idem s.data)

theorem dropWhile_of_all_false {p : Char → Bool} :
    ∀ l : List Char, (∀ c ∈ l, p c = false) → l.dropWhile p = l := by
  intro l h
  cases l with
  | nil => rfl
  | cons c cs => simp [List.dropWhile, h c (by simp)]

/-- A string with no whitespace anywhere strips to itself. -/
theorem pyStripAux_of_all_not (l : List Char) (h : ∀ c ∈ l, c.isWhitespace = false) :
    pyStripAux l = l := by
  unfold pyStripAux
  rw [dropWhile_of_all_false l h,
    dropWhile_of_all_false l.reverse (by intro c hc; exact h c (by simpa using hc)),
    List.reverse_reverse]

/-! ## Python `int` / `str` numeric conversions

`add_user` / `create_group` run the counter text through
`str(int(uid) + 1)`.  We model Python's decimal `str`/`int` pair directly on
character lists so that the round-trip is provable.
-/

/-- The decimal digit character for `d < 10` (junk for other inputs). -/
def digitChar : Nat → Char
  | 0 => '0' | 1 => '1' | 2 => '2' | 3 => '3' | 4 => '4'
  | 5 => '5' | 6 => '6' | 7 => '7' | 8 => '8' | 9 => '9'
  | _ => '*'

/-- Numeric value of a decimal digit character. -/
def digitVal (c : Char) : Option Nat :=
  if '0' ≤ c ∧ c ≤ '9' then some (c.toNat - 48) else Option.none

/-- Decimal digits of `n`, most significant first; `fuel`-driven so that the
definition is structural (callers pass `n + 1` as fuel). -/
def natDigitsCore : Nat → Nat → List Char
  | 0, _ => []
  | fuel + 1, n => if n < 10 then [digitChar n]
      else natDigitsCore fuel (n / 10) ++ [digitChar (n % 10)]

def natDigits (n : Nat) : List Char := natDigitsCore (n + 1) n

/-- Python `str` of a natural number. -/
def pyStrOfNat (n : Nat) : String := ⟨natDigits n⟩

/-- Python `str` of an integer. -/
def pyStrOfInt (i : Int) : String :=
  if i < 0 then ⟨'-' :: natDigits i.natAbs⟩ else ⟨natDigits i.toNat⟩

/-- Accumulating decimal parse; `Option.none` on a non-digit or empty input. -/
def parseDigitsAux (acc : Nat) : List Char → Option Nat
  | [] => some acc
  | c :: cs => match digitVal c with
    | some d => parseDigitsAux (acc * 10 + d) cs
    | Option.none => Option.none

def parseDigits : List Char → Option Nat
  | [] => Option.none
  | l => parseDigitsAux 0 l

/-- Python `int(s)`: strip whitespace, optional sign, decimal digits.
(Underscore separators and non-ASCII digits are not modelled.) -/
def pyIntOfStr (s : String) : Option Int :=
  let l := pyStripAux s.data
  if l.head? = some '-' then (parseDigits l.tail).map (fun n => -(n : Int))
  else if l.head? = some '+' then (parseDigits l.tail).map (fun n => (n : Int))
  else (parseDigits l).map (fun n => (n : Int))

theorem digitVal_digitChar (d : Nat) (hd : d < 10) : digitVal (digitChar d) = some d := by
  interval_cases d <;> decide

theorem parseDigitsAux_append (acc : Nat) (l1 l2 : List Char) :
    parseDigitsAux acc (l1 ++ l2) =
      match parseDigitsAux acc l1 with
      | some a => parseDigitsAux a l2
      | Option.none => Option.none := by
  induction l1 generalizing acc with
  | nil => simp [parseDigitsAux]
  | cons c cs ih =>
    simp only [List.cons_append, parseDigitsAux]
    cases digitVal c with
    | none => rfl
    | some d => exact ih (acc * 10 + d)

theorem parseDigitsAux_natDigitsCore (fuel n : Nat) (hn : n < fuel) :
    ∀ acc, parseDigitsAux acc (natDigitsCore fuel n) =
      some (acc * 10 ^ (natDigitsCore fuel n).length + n) := by
  induction fuel generalizing n with
  | zero => omega
  | succ fuel ih =>
    intro acc
    by_cases h10 : n < 10
    · simp only [natDigitsCore, if_pos h10, parseDigitsAux, digitVal_digitChar n h10]
      simp
    · have hdiv : n / 10 < fuel := by omega
      simp only [natDigitsCore, if_neg h10, parseDigitsAux_append]
      rw [ih (n / 10) hdiv acc]
      have hlt : n % 10 < 10 := Nat.mod_lt _ (by omega)
      simp only [parseDigitsAux, digitVal_digitChar _ hlt]
      simp only [List.length_append, List.length_cons, List.length_nil]
      have : acc * 10 ^ ((natDigitsCore fuel (n / 10)).length + (0 + 1)) =
          acc * 10 ^ (natDigitsCore fuel (n / 10)).length * 10 := by ring
      rw [this]
      congr 1
      omega

theorem natDigitsCore_ne_nil (fuel n : Nat) (hn : n < fuel) : natDigitsCore fuel n ≠ [] := by
  cases fuel with
  | zero => omega
  | succ fuel =>
    by_cases h10 : n < 10 <;> simp [natDigitsCore, h10]

theorem parseDigits_natDigits (n : Nat) : parseDigits (natDigits n) = some n := by
  have hne : natDigits n ≠ [] := natDigitsCore_ne_nil _ _ (Nat.lt_succ_self n)
  unfold parseDigits
  split
  · exact absurd (by assumption) hne
  · have := parseDigitsAux_natDigitsCore (n + 1) n (Nat.lt_succ_self n) 0
    unfold natDigits
    simpa using this

theorem mem_natDigitsCore_digit (fuel n : Nat) (hn : n < fuel) :
    ∀ c ∈ natDigitsCore fuel n, '0' ≤ c ∧ c ≤ '9' := by
  induction fuel generalizing n with
  | zero => omega
  | succ fuel ih =>
    intro c hc
    by_cases h10 : n < 10
    · simp only [natDigitsCore, if_pos h10] at hc
      simp at hc
      subst hc
      interval_cases n <;> decide
    · simp only [natDigitsCore, if_neg h10] at hc
      rw [List.mem_append] at hc
      rcases hc with hc | hc
      · exact ih (n / 10) (by omega) c hc
      · simp at hc
        subst hc
        have hlt : n % 10 < 10 := Nat.mod_lt _ (by omega)
        generalize hg : n % 10 = k at hlt ⊢
        interval_cases k <;> decide

theorem digit_not_ws {c : Char} (h1 : '0' ≤ c) : c.isWhitespace = false := by
  by_cases e1 : c = ' '
  · subst e1; exact absurd h1 (by decide)
  by_cases e2 : c = '\t'
  · subst e2; exact absurd h1 (by decide)
  by_cases e3 : c = '\r'
  · subst e3; exact absurd h1 (by decide)
  by_cases e4 : c = '\n'
  · subst e4; exact absurd h1 (by decide)
  simp [Char.isWhitespace, e1, e2, e3, e4]

theorem natDigits_head_digit (n : Nat) :
    ∀ c ∈ natDigits n, '0' ≤ c ∧ c ≤ '9' :=
  mem_natDigitsCore_digit (n + 1) n (Nat.lt_succ_self n)

theorem pyStripAux_digits (l : List Char) (hdig : ∀ c ∈ l, '0' ≤ c ∧ c ≤ '9') :
    pyStripAux l = l :=
  pyStripAux_of_all_not l (fun c hc => digit_not_ws (hdig c hc).1)

theorem pyIntOfStr_digits (c : Char) (cs : List Char)
    (hdig : ∀ a ∈ c :: cs, '0' ≤ a ∧ a ≤ '9') :
    pyIntOfStr ⟨c :: cs⟩ = (parseDigits (c :: cs)).map (fun n => (n : Int)) := by
  unfold pyIntOfStr
  have hd : pyStripAux (String.mk (c :: cs)).data = c :: cs := pyStripAux_digits _ hdig
  simp only [hd, List.head?_cons]
  have h0 := (hdig c (by simp)).1
  rw [if_neg (by simp; rintro rfl; exact absurd h0 (by decide)),
    if_neg (by simp; rintro rfl; exact absurd h0 (by decide))]

theorem natDigits_cons (n : Nat) : ∃ c cs, natDigits n = c :: cs := by
  cases h : natDigits n with
  | nil => exact absurd h (natDigitsCore_ne_nil _ _ (Nat.lt_succ_self n))
  | cons c cs => exact ⟨c, cs, rfl⟩

/-- Round-trip: Python `int(str(n))` recovers `n` for a natural number. -/
theorem pyIntOfStr_pyStrOfNat (n : Nat) : pyIntOfStr (pyStrOfNat n) = some (n : Int) := by
  obtain ⟨c, cs, h⟩ := natDigits_cons n
  unfold pyStrOfNat
  rw [h, pyIntOfStr_digits c cs (by rw [← h]; exact natDigits_head_digit n), ← h,
    parseDigits_natDigits]
  rfl

/-- Round-trip: Python `int(str(i))` recovers `i` for any integer. -/
theorem pyIntOfStr_pyStrOfInt (i : Int) : pyIntOfStr (pyStrOfInt i) = some i := by
  by_cases hneg : i < 0
  · unfold pyStrOfInt
    rw [if_pos hneg]
    unfold pyIntOfStr
    have hdig := natDigits_head_digit i.natAbs
    have hd : pyStripAux (String.mk ('-' :: natDigits i.natAbs)).data =
        '-' :: natDigits i.natAbs := by
      apply pyStripAux_of_all_not
      intro c hc
      simp at hc
      rcases hc with rfl | hc
      · decide
      · exact digit_not_ws (hdig c hc).1
    simp only [hd, List.head?_cons, List.tail_cons, if_pos, parseDigits_natDigits]
    have h2 : -((i.natAbs : Int)) = i := by omega
    exact congrArg some h2
  · unfold pyStrOfInt
    rw [if_neg hneg]
    have := pyIntOfStr_pyStrOfNat i.toNat
    unfold pyStrOfNat at this
    rw [this]
    congr 1
    omega

/-- `str` is injective on integers (needed for uid uniqueness). -/
theorem pyStrOfInt_injective : Function.Injective pyStrOfInt := by
  intro a b hab
  have ha := pyIntOfStr_pyStrOfInt a
  have hb := pyIntOfStr_pyStrOfInt b
  rw [hab, hb] at ha
  exact (Option.some_injective _ ha).symm

/-! ## Python dict / value helpers -/

/-- First value stored under key `k` (Python dicts have unique keys, so this is
the dict lookup). -/
def dictFind (d : List (String × Val)) (k : String) : Option Val :=
  match d with
  | [] => Option.none
  | (k', v) :: rest => if k' = k then some v else dictFind rest k

/-- Python `d[k] = v`: update in place if the key exists (keeping its
position), else append at the end. -/
def dictSet (d : List (String × Val)) (k : String) (v : Val) : List (String × Val) :=
  match d with
  | [] => [(k, v)]
  | (k', w) :: rest => if k' = k then (k', v) :: rest else (k', w) :: dictSet rest k v

/-- Remove the entry for `k` (first occurrence). -/
def dictErase (d : List (String × Val)) (k : String) : List (String × Val) :=
  match d with
  | [] => []
  | (k', w) :: rest => if k' = k then rest else (k', w) :: dictErase rest k

/-- Python `k in d` for a dict. -/
def dictHasKey (d : List (String × Val)) (k : String) : Bool :=
  (dictFind d k).isSome

theorem dictFind_sizeOf (d : List (String × Val)) (k : String) (w : Val)
    (h : dictFind d k = some w) : sizeOf w < sizeOf d := by
  induction d with
  | nil => simp [dictFind] at h
  | cons p rest ih =>
    obtain ⟨k', v⟩ := p
    unfold dictFind at h
    by_cases hk : k' = k
    · rw [if_pos hk] at h
      cases h
      simp
      omega
    · rw [if_neg hk] at h
      have := ih h
      simp
      omega

mutual

/-- Python `==` between the values this code compares.  `None == None` is
true, strings compare by value, lists compare element-wise, dicts compare by
key set and per-key value (insertion order is irrelevant, as in Python);
values of different types compare unequal. -/
def pyEq : Val → Val → Bool
  | .none, .none => true
  | .str a, .str b => a == b
  | .list a, .list b => pyEqList a b
  | .dict a, .dict b => (a.length == b.length) && pyEqDictLe a b
  | _, _ => false
termination_by a b => sizeOf a + sizeOf b

/-- Element-wise Python `==` on lists. -/
def pyEqList : List Val → List Val → Bool
  | [], [] => true
  | a :: as', b :: bs => pyEq a b && pyEqList as' bs
  | _, _ => false
termination_by a b => sizeOf a + sizeOf b

/-- `∀ (k, v) ∈ a, k ∈ b ∧ b[k] == v` (one inclusion of Python dict `==`). -/
def pyEqDictLe : List (String × Val) → List (String × Val) → Bool
  | [], _ => true
  | (k, v) :: rest, b =>
    (match hf : dictFind b k with
     | some w => pyEq v w
     | Option.none => false) && pyEqDictLe rest b
termination_by a b => sizeOf a + sizeOf b
decreasing_by
  all_goals simp_wf
  all_goals first
    | (have hfs := dictFind_sizeOf b k w hf; omega)
    | omega

end

/-- Python truthiness of the values used here (`not members`). -/
def pyFalsy : Val → Bool
  | .none => true
  | .str s => s == ""
  | .list xs => xs.isEmpty
  | .dict d => d.isEmpty

/-- `if not isinstance(v, list): v = [v]`. -/
def toPyList : Val → List Val
  | .list xs => xs
  | v => [v]

/-- An lxml `element.text` (`None` or a string) as a Python value. -/
def valOfText : Option String → Val
  | Option.none => .none
  | some s => .str s

/-- Python `v[k]` on an arbitrary value: dict lookup (`KeyError` when the key
is missing), `TypeError` on non-dict values (string/int indices on
`None`/`str`/`list` all raise `TypeError` for a string key). -/
def pyGetItem (v : Val) (k : String) : Except PyErr Val :=
  match v with
  | .dict d => match dictFind d k with
    | some w => .ok w
    | Option.none => .error .keyError
  | _ => .error .typeError

/-- Python `v[k] = w` (only dicts support it here). -/
def pySetItem (v : Val) (k : String) (w : Val) : Except PyErr Val :=
  match v with
  | .dict d => .ok (.dict (dictSet d k w))
  | _ => .error .typeError

/-- Python `del v[k]`: `KeyError` when the key is absent. -/
def pyDelItem (v : Val) (k : String) : Except PyErr Val :=
  match v with
  | .dict d => if dictHasKey d k then .ok (.dict (dictErase d k)) else .error .keyError
  | _ => .error .typeError

mutual

/-- Python `repr` for the values above.  (Quote-escaping inside strings and
the single/double quote choice are not modelled; no claim depends on the
rendering of a nested list or dict.) -/
def pyRepr : Val → String
  | .none => "None"
  | .str s => "'" ++ s ++ "'"
  | .list xs => "[" ++ String.intercalate ", " (pyReprList xs) ++ "]"
  | .dict d => "\x7b" ++ String.intercalate ", " (pyReprDict d) ++ "\x7d"
termination_by v => sizeOf v

/-- `repr` of each list element. -/
def pyReprList : List Val → List String
  | [] => []
  | v :: rest => pyRepr v :: pyReprList rest
termination_by xs => sizeOf xs

/-- `repr` of each dict entry. -/
def pyReprDict : List (String × Val) → List String
  | [] => []
  | (k, v) :: rest => ("'" ++ k ++ "': " ++ pyRepr v) :: pyReprDict rest
termination_by d => sizeOf d

end

/-- Python `str(v)`: identity on strings, `"None"` for `None`, `repr`-style
for containers. -/
def pyStr : Val → String
  | .str s => s
  | .none => "None"
  | v => pyRepr v

/-! ## The document codec: `_element_to_dict` and `_dict_to_element` -/

/-- `if not isinstance(obj[tag], list): obj[tag] = [obj[tag]]` followed by
`obj[tag].append(child_obj)`. -/
def promoteVal (w v : Val) : Val :=
  match w with
  | .list xs => .list (xs ++ [v])
  | _ => .list [w, v]

/-- One step of the child-folding loop of `_element_to_dict`:
`if child.tag not in obj: obj[tag] = v` and otherwise promote the existing
entry to a list (in place) and append. -/
def foldChild (obj : List (String × Val)) (t : String) (v : Val) : List (String × Val) :=
  match obj with
  | [] => [(t, v)]
  | (k, w) :: rest =>
    if k = t then (k, promoteVal w v) :: rest
    else (k, w) :: foldChild rest t v

mutual

/-- `_element_to_dict(element)`: a childless element becomes its stripped
text (or `None` when the text is missing/blank); otherwise the attributes
followed by the folded children become a dict. -/
def elementToDict : Node → Val
  | .mk _ attribs text children =>
    match children with
    | [] =>
      match text with
      | Option.none => Val.none
      | some s => if pyStrip s = "" then Val.none else Val.str (pyStrip s)
    | c :: cs =>
      Val.dict (foldInto (attribs.map (fun p => (p.1, Val.str p.2))) (c :: cs))
termination_by n => sizeOf n
decreasing_by
  all_goals simp_wf
  all_goals omega

/-- The `for child in element` loop of `_element_to_dict`. -/
def foldInto (obj : List (String × Val)) : List Node → List (String × Val)
  | [] => obj
  | c :: cs => foldInto (foldChild obj c.tag (elementToDict c)) cs
termination_by cs => sizeOf cs

end

mutual

/-- `_dict_to_element(tag, data)`. -/
def dictToElement (tag : String) : Val → Node
  | .dict data => .mk tag [] Option.none (entriesToChildren data)
  | .none => .mk tag [] (some "") []
  | .str s => .mk tag [] (some s) []
  | .list xs => .mk tag [] (some (pyStr (.list xs))) []
termination_by v => sizeOf v

/-- The `for key, value in data.items()` loop of `_dict_to_element`: a
list-valued entry expands to one child per item, a dict-valued entry to one
container child, and a scalar entry to one leaf child (text `""` for
`None`). -/
def entriesToChildren : List (String × Val) → List Node
  | [] => []
  | (k, .list items) :: rest => itemsToChildren k items ++ entriesToChildren rest
  | (k, .dict d') :: rest => dictToElement k (.dict d') :: entriesToChildren rest
  | (k, .none) :: rest => Node.mk k [] (some "") [] :: entriesToChildren rest
  | (k, .str s) :: rest => Node.mk k [] (some s) [] :: entriesToChildren rest
termination_by d => sizeOf d

/-- `for item in value: element.append(_dict_to_element(key, item))`. -/
def itemsToChildren (k : String) : List Val → List Node
  | [] => []
  | item :: rest => dictToElement k item :: itemsToChildren k rest
termination_by xs => sizeOf xs

end

/-! ## Path resolution (`root.xpath("/a/b/c")`)

A path string `"/t1/.../tn"` is modelled as the tag list `[t1, ..., tn]`.
`root.xpath` on such an absolute tag path returns, in document order, every
node reached by matching the root tag and then descending through children by
tag.  Mutation of nodes found by xpath is modelled by structural walkers that
rebuild the document around the mutated node: `modFirst*` mutates the first
match in document order (the source's `root.xpath(p)[0]`), `modAll*` mutates
every match.
-/

/-- All nodes reached from `n` by descending `path` (document order). -/
def sel (n : Node) : List String → List Node
  | [] => [n]
  | t :: ts => (n.children.filter (fun c => c.tag == t)).flatMap (fun c => sel c ts)

/-- `root.xpath` for an absolute path: the head must match the root tag. -/
def xpathAbs (doc : Node) : List String → List Node
  | [] => []
  | t :: ts => if doc.tag == t then sel doc ts else []

/-- Apply `rec` to the first child with tag `t` under which it succeeds,
keeping everything else; `Option.none` if no child succeeds. -/
def modFirstL (rec : Node → Option Node) (t : String) : List Node → Option (List Node)
  | [] => Option.none
  | c :: cs =>
    if c.tag == t then
      match rec c with
      | some c' => some (c' :: cs)
      | Option.none => (modFirstL rec t cs).map (fun l => c :: l)
    else (modFirstL rec t cs).map (fun l => c :: l)

/-- Generalized first-match walker: apply the partial action `g` to the first
node matched by `path` under which `g` succeeds. -/
def modFirstO (g : Node → Option Node) : List String → Node → Option Node
  | [], n => g n
  | t :: ts, n => (modFirstL (modFirstO g ts) t n.children).map (fun cs' => n.withChildren cs')

/-- Apply `f` to the first node matched by `path` (document order); fails if
the path matches nothing. -/
def modFirst (f : Node → Node) : List String → Node → Option Node :=
  modFirstO (fun m => some (f m))

def modFirstAbs (f : Node → Node) (path : List String) (doc : Node) : Option Node :=
  match path with
  | [] => Option.none
  | t :: ts => if doc.tag == t then modFirst f ts doc else Option.none

/-- Apply `f` to every node matched by `path`. -/
def modAll (f : Node → Node) : List String → Node → Node
  | [], n => f n
  | t :: ts, n =>
    n.withChildren (n.children.map (fun c => if c.tag == t then modAll f ts c else c))

def modAllAbs (f : Node → Node) (path : List String) (doc : Node) : Node :=
  match path with
  | [] => doc
  | t :: ts => if doc.tag == t then modAll f ts doc else doc

/-- Like `modFirst` but the per-node action may raise, and may decline
(`Option.none`) without raising, in which case the scan continues in document
order. -/
def replScanL (rec : Node → Except PyErr (Option Node)) (t : String) :
    List Node → Except PyErr (Option (List Node))
  | [] => .ok Option.none
  | c :: cs =>
    if c.tag == t then
      match rec c with
      | .error e => .error e
      | .ok (some c') => .ok (some (c' :: cs))
      | .ok Option.none => (replScanL rec t cs).map (Option.map (fun l => c :: l))
    else (replScanL rec t cs).map (Option.map (fun l => c :: l))

def replWalk (scan : Node → Except PyErr (Option Node)) :
    List String → Node → Except PyErr (Option Node)
  | [], n => scan n
  | t :: ts, n => (replScanL (replWalk scan ts) t n.children).map (Option.map n.withChildren)

def replWalkAbs (scan : Node → Except PyErr (Option Node)) (path : List String)
    (doc : Node) : Except PyErr (Option Node) :=
  match path with
  | [] => .ok Option.none
  | t :: ts => if doc.tag == t then replWalk scan ts doc else .ok Option.none

/-! ## The document store (`pfsense_utils.py`) -/

/-- `element.find(key)`: first direct child with the given tag. -/
def findChild (n : Node) (k : String) : Option Node :=
  n.children.find? (fun c => c.tag == k)

/-- Python `n.find(key).text == value`: `element.text` is `None` or a string,
`value` is whatever the caller passed; `None == None` is true and values of
different types compare unequal. -/
def pyEqTextVal (text : Option String) (value : Val) : Bool :=
  match text, value with
  | some s, .str v => s == v
  | Option.none, .none => true
  | _, _ => false

/-- The member scan of `replace_config_element` restricted to one parent:
walk the children, and at the first child with the collection tag whose
`key` child's text equals `value`, return the child list with that member
removed.  A member without a `key` child raises `AttributeError`
(`None.text`).  Children with other tags are not members and are skipped. -/
def scanMembersL (key : String) (value : Val) (tag : String) :
    List Node → Except PyErr (Option (List Node))
  | [] => .ok Option.none
  | c :: cs =>
    if c.tag == tag then
      match findChild c key with
      | Option.none => .error .attributeError
      | some kc =>
        if pyEqTextVal kc.text value then .ok (some cs)
        else (scanMembersL key value tag cs).map (Option.map (fun l => c :: l))
    else (scanMembersL key value tag cs).map (Option.map (fun l => c :: l))

/-- Per-parent action of `replace_config_element`: remove the first matching
member and append the new element as the parent's last child. -/
def scanMembers (key : String) (value : Val) (tag : String) (newElem : Node)
    (p : Node) : Except PyErr (Option Node) :=
  (scanMembersL key value tag p.children).map
    (Option.map (fun l => p.withChildren (l ++ [newElem])))

/-- `append_config_element(tree_path, element, fp)`: split the path into
parent and leaf tag, resolve the parent (`root.xpath(parent_path)[0]` raises
`IndexError` on no match, and `xpath("")` raises `XPathEvalError` when the
path has a single tag), append the converted element, write.  The source's
`if parent is None` check is dead code (`xpath(...)[0]` never yields `None`)
and is not modelled. -/
def append_config_element (doc : Node) (tree_path : List String) (element : Val) :
    Except PyErr Node :=
  match tree_path.getLast? with
  | Option.none => .error .indexError
  | some tag =>
    let parent_path := tree_path.dropLast
    if parent_path.isEmpty then .error .xpathEvalError
    else
      match modFirstAbs (fun p => p.withChildren (p.children ++ [dictToElement tag element]))
          parent_path doc with
      | Option.none => .error .indexError
      | some d => .ok d

/-- `replace_config_element(tree_path, key, value, node, fp)`: scan the
members of the collection in document order for the first one whose `key`
child's text equals `value`; if none matches, behave as
`append_config_element`; otherwise remove the matching member from its parent
and append the converted replacement as the parent's last child.  The
source's `if nodes is None` check is dead code and is not modelled.  For a
1-tag path the only possible member is the root, whose `getparent()` is
`None`, so a match raises `AttributeError`. -/
def replace_config_element (doc : Node) (tree_path : List String) (key : String)
    (value : Val) (node : Val) : Except PyErr Node :=
  match tree_path with
  | [] => .error .indexError
  | [t] =>
    if doc.tag == t then
      match findChild doc key with
      | Option.none => .error .attributeError
      | some kc =>
        if pyEqTextVal kc.text value then .error .attributeError
        else append_config_element doc tree_path node
    else append_config_element doc tree_path node
  | t :: ts =>
    let tag := (t :: ts).getLastD ""
    match replWalkAbs (scanMembers key value tag (dictToElement tag node))
        (t :: ts).dropLast doc with
    | .error e => .error e
    | .ok (some d) => .ok d
    | .ok Option.none => append_config_element doc tree_path node

/-- A Python `str` compared with an lxml element (`key == child`) is never
equal: neither type defines a cross-type `__eq__`. -/
def pyStrEqElem (s : String) (c : Node) : Bool := false

/-- Python `key in n` for an element `n` iterates the children and compares
each against the string, which is always false. -/
def pyStrInElem (n : Node) (s : String) : Bool :=
  n.children.any (fun c => pyStrEqElem s c)

/-- `remove_config_element(tree_path, key, value, fp)`: with `key` or `value`
omitted (`None`), every matched node is removed from its parent (removing the
root itself would call `None.remove` and raise `AttributeError`).  With both
supplied, the per-node condition is `key in n and n["key"].text == value`:
`key in n` compares the string against the child elements and is always
false, so no node is ever removed; the `n["key"]` lookup (note the literal
`"key"`) would raise `TypeError` but sits behind the short-circuiting
`and`. -/
def remove_config_element (doc : Node) (tree_path : List String)
    (key : Option String) (value : Option String) : Except PyErr Node :=
  match key, value with
  | some k, some _ =>
    if (xpathAbs doc tree_path).any (fun n => pyStrInElem n k) then .error .typeError
    else .ok doc
  | _, _ =>
    match tree_path with
    | [] => .error .xpathEvalError
    | [t] => if doc.tag == t then .error .attributeError else .ok doc
    | t :: ts =>
      let tag := (t :: ts).getLastD ""
      .ok (modAllAbs (fun p => p.withChildren (p.children.filter (fun c => !(c.tag == tag))))
        (t :: ts).dropLast doc)

/-- `set_config_value(tree_path, value, fp)`: `root.xpath(tree_path)[0]`
raises `IndexError` when the path resolves to nothing (leaving the document
unchanged); otherwise the first matched node's text is overwritten in place
and the document is written back.  The source's `if node is None` fallback
(which would create the missing leaf) is dead code — `xpath(...)[0]` raises
instead of yielding `None` — so the computed `parent_path`/`tag` are unused
and not modelled. -/
def set_config_value (doc : Node) (tree_path : List String) (value : String) :
    Except PyErr Node :=
  match modFirstAbs (fun n => n.withText (some value)) tree_path doc with
  | Option.none => .error .indexError
  | some d => .ok d

/-- Modelled from the spec: `get_config_elements` is called throughout
`pfsense.py` and `net/pfsense.py` but is missing from the repository sources
(`pfsense_utils.py` defines only the singular `get_config_element`).
Following §4.3 `getElement`, it returns the Record view of every node matched
by the path. -/
def get_config_elements (doc : Node) (tree_path : List String) : List Val :=
  (xpathAbs doc tree_path).map elementToDict

/-- Modelled from the spec: `get_config_values` is used as
`get_config_values(path)[0]` but is missing from the repository sources.
Following §4.3 `getValue`, it returns the leaf value (`element.text`) of
every node matched by the path. -/
def get_config_values (doc : Node) (tree_path : List String) : List (Option String) :=
  (xpathAbs doc tree_path).map Node.text

/-- Modelled from the spec: `sync_users_groups` (like `sync_hostname`,
`sync_hosts`, `config_reload`) invokes the appliance reload collaborator,
which §1/§6 place out of scope; it does not modify the configuration
document. -/
def sync_users_groups (doc : Node) : Node := doc

/-! ## The identity provisioner (`pfsense.py`, class `Distro`)

Every method is modelled as a function from the configuration document to
`Except PyErr (Node × Option Bool)`: the written-back document plus the
Python return value (`some b` for a boolean, `Option.none` for Python `None`
when a method has no `return` statement on a path).  The pluggable hashing
capability (`bcrypt.hashpw(str(p).encode()).decode()` with a fresh salt) is a
function parameter `hashFn`.  The `name in [None, ""]` guards are modelled as
`name = ""` (names are `String`s here; Python `None` takes the same branch).
The `sync_*` calls and logging have no effect on the document.
-/

def user_node : List String := ["pfsense", "system", "user"]
def group_node : List String := ["pfsense", "system", "group"]
def next_uid_node : List String := ["pfsense", "system", "nextuid"]
def next_gid_node : List String := ["pfsense", "system", "nextgid"]

/-- `for u in recs: if u["name"] == target: node = u; break` — the scan stops
at the first match; a record that is not a dict or lacks `"name"` raises
before any later record is inspected. -/
def findRecBy (recs : List Val) (target : Val) : Except PyErr (Option Val) :=
  match recs with
  | [] => .ok Option.none
  | u :: rest => do
    let v ← pyGetItem u "name"
    if pyEq v target then pure (some u) else findRecBy rest target

/-- `[u["name"] for u in recs]` — evaluates every record's name, in order. -/
def recNames (recs : List Val) : Except PyErr (List Val) :=
  match recs with
  | [] => .ok []
  | u :: rest => do
    let v ← pyGetItem u "name"
    let vs ← recNames rest
    pure (v :: vs)

/-- `int(text)` on an `element.text`: `TypeError` on `None`, `ValueError` on
a non-numeric string. -/
def pyIntOfText : Option String → Except PyErr Int
  | Option.none => .error .typeError
  | some s =>
    match pyIntOfStr s with
    | some v => .ok v
    | Option.none => .error .valueError

def isLeapYear (y : Nat) : Bool := (y % 4 == 0 && y % 100 != 0) || y % 400 == 0

def daysInMonth (y m : Nat) : Nat :=
  if m == 2 then (if isLeapYear y then 29 else 28)
  else if m == 4 || m == 6 || m == 9 || m == 11 then 30 else 31

def digits2 (a b : Char) : Option Nat := do
  let x ← digitVal a
  let y ← digitVal b
  pure (10 * x + y)

def digits4 (a b c d : Char) : Option Nat := do
  let x ← digits2 a b
  let y ← digits2 c d
  pure (100 * x + y)

/-- `datetime.strptime(val, "%Y-%m-%d")` on the zero-padded ISO form the
docstring documents (`YYYY-MM-DD`), validating the calendar date;
`ValueError` on anything else. -/
def strptimeYmd (s : String) : Except PyErr (Nat × Nat × Nat) :=
  match s.data with
  | [y1, y2, y3, y4, c1, m1, m2, c2, d1, d2] =>
    if c1 == '-' && c2 == '-' then
      match digits4 y1 y2 y3 y4, digits2 m1 m2, digits2 d1 d2 with
      | some y, some m, some d =>
        if 1 ≤ m && m ≤ 12 && 1 ≤ d && d ≤ daysInMonth y m then .ok (y, m, d)
        else .error .valueError
      | _, _, _ => .error .valueError
    else .error .valueError
  | _ => .error .valueError

def pad2 (n : Nat) : String := if n < 10 then ⟨['0', digitChar n]⟩ else pyStrOfNat n

def pad4 (n : Nat) : String :=
  ⟨List.replicate (4 - (natDigits n).length) '0' ++ natDigits n⟩

/-- `date_obj.strftime("%d/%m/%Y")`. -/
def fmt_dmY (y m d : Nat) : String := pad2 d ++ "/" ++ pad2 m ++ "/" ++ pad4 y

/-- `Distro.set_passwd(user, passwd, hashed)`. -/
def set_passwd (hashFn : String → String) (doc : Node) (user : String) (passwd : Val)
    (hashed : Bool) : Except PyErr (Node × Option Bool) := do
  if user = "" then return (doc, some false)
  let users := get_config_elements doc user_node
  let node? ← findRecBy users (.str user)
  match node? with
  | Option.none => return (doc, some false)
  | some node =>
    if hashed then
      match passwd with
      | .str s =>
        if s.startsWith "$2" then do
          let node' ← pySetItem node "bcrypt-hash" (.str s)
          let d1 ← replace_config_element doc user_node "name" (.str user) node'
          return (sync_users_groups d1, some true)
        else return (doc, some false)
      | _ => .error .attributeError
    else do
      let node' ← pySetItem node "bcrypt-hash" (.str (hashFn (pyStr passwd)))
      let d1 ← replace_config_element doc user_node "name" (.str user) node'
      return (sync_users_groups d1, some true)

/-- `Distro.lock_passwd(name)`: set the `disabled` marker (`node["disabled"]
= ""`) and replace the user record. -/
def lock_passwd (doc : Node) (name : String) : Except PyErr (Node × Option Bool) := do
  if name = "" then return (doc, some false)
  let users := get_config_elements doc user_node
  let node? ← findRecBy users (.str name)
  match node? with
  | Option.none => return (doc, some false)
  | some node => do
    let node' ← pySetItem node "disabled" (.str "")
    let d1 ← replace_config_element doc user_node "name" (.str name) node'
    return (sync_users_groups d1, some true)

/-- `Distro.expire_passwd(user)`: calls `lock_passwd` and falls off the end,
returning Python `None`. -/
def expire_passwd (doc : Node) (user : String) : Except PyErr (Node × Option Bool) := do
  let (d, _) ← lock_passwd doc user
  return (d, Option.none)

/-- `Distro.unlock_passwd(name)`: `del node["disabled"]` and replace the
user record. -/
def unlock_passwd (doc : Node) (name : String) : Except PyErr (Node × Option Bool) := do
  if name = "" then return (doc, some false)
  let users := get_config_elements doc user_node
  let node? ← findRecBy users (.str name)
  match node? with
  | Option.none => return (doc, some false)
  | some node => do
    let node' ← pyDelItem node "disabled"
    let d1 ← replace_config_element doc user_node "name" (.str name) node'
    return (sync_users_groups d1, some true)

/-- `Distro._add_user_to_group(user_id, group_name)`. -/
def add_user_to_group (doc : Node) (user_id : Val) (group_name : Val) :
    Except PyErr (Node × Option Bool) := do
  let groups := get_config_elements doc group_node
  let group? ← findRecBy groups group_name
  match group? with
  | Option.none => return (doc, some false)
  | some group => do
    let group ← (match group with
      | .dict d =>
        pure (if dictHasKey d "member" then Val.dict d
              else .dict (dictSet d "member" (.list [])))
      | _ => (.error .typeError : Except PyErr Val))
    let mem ← pyGetItem group "member"
    let memList := toPyList mem
    let group ← pySetItem group "member" (.list memList)
    if memList.any (fun m => pyEq m user_id) then return (doc, some true)
    let group' ← pySetItem group "member" (.list (memList ++ [user_id]))
    let d1 ← replace_config_element doc group_node "name" group_name group'
    return (sync_users_groups d1, some true)

/-- The fused member-resolution scan of `create_group`: `member not in
existing_names`, `existing_names.index(member)` and the `["uid"]` lookup all
scan by `==` over the same lists, so one scan of the zipped
`(name, user)` pairs is equivalent. -/
def memberUid : List (Val × Val) → Val → Except PyErr (Option Val)
  | [], _ => .ok Option.none
  | (nv, u) :: rest, mv =>
    if pyEq nv mv then (pyGetItem u "uid").map some
    else memberUid rest mv

/-- `Distro.create_group(name, members)`.  Note: the method has no `return`
on its success path, so it returns Python `None` after appending the group. -/
def create_group (doc : Node) (name : String) (members : Val) :
    Except PyErr (Node × Option Bool) := do
  if name = "" then return (doc, some false)
  let groups := get_config_elements doc group_node
  let gnames ← recNames groups
  if gnames.any (fun v => pyEq v (.str name)) then return (doc, some false)
  match (get_config_values doc next_gid_node).head? with
  | Option.none => .error .indexError
  | some gid => do
    let group0 := [("name", Val.str name), ("description", Val.str name),
      ("gid", valOfText gid), ("scope", Val.str "system")]
    let g ← pyIntOfText gid
    let d1 ← set_config_value doc next_gid_node (pyStrOfInt (g + 1))
    let memberVals := if pyFalsy members then [] else toPyList members
    let existing_users := get_config_elements d1 user_node
    let existing_names ← recNames existing_users
    let mems ← memberVals.foldlM (fun acc mv => do
        match ← memberUid (existing_names.zip existing_users) mv with
        | Option.none => pure acc
        | some uid => pure (acc ++ [uid])) ([] : List Val)
    let group1 := dictSet group0 "member" (.list mems)
    let d2 ← append_config_element d1 group_node (.dict group1)
    return (sync_users_groups d2, Option.none)

/-- `Distro.add_user(name, **kwargs)`.  `kwargs` is the ordered keyword
dict; recognized keys are `gecos`, `expiredate` (first pass, before the
record is appended) and `groups`, `passwd` (second pass, after). -/
def add_user (hashFn : String → String) (doc : Node) (name : String)
    (kwargs : List (String × Val)) : Except PyErr (Node × Option Bool) := do
  if name = "" then return (doc, some false)
  let users := get_config_elements doc user_node
  let unames ← recNames users
  if unames.any (fun v => pyEq v (.str name)) then return (doc, some false)
  match (get_config_values doc next_uid_node).head? with
  | Option.none => .error .indexError
  | some uid => do
    let user0 := [("name", Val.str name), ("uid", valOfText uid),
      ("scope", Val.str "user")]
    let v ← pyIntOfText uid
    let d1 ← set_config_value doc next_uid_node (pyStrOfInt (v + 1))
    let user ← kwargs.foldlM (fun u kv =>
        if kv.1 = "gecos" then pure (dictSet u "descr" kv.2)
        else if kv.1 = "expiredate" then
          match kv.2 with
          | .str s => do
            let ymd ← strptimeYmd s
            pure (dictSet u "expires" (.str (fmt_dmY ymd.1 ymd.2.1 ymd.2.2)))
          | _ => (.error .typeError : Except PyErr (List (String × Val)))
        else pure u) user0
    let d2 ← append_config_element d1 user_node (.dict user)
    let d3 ← kwargs.foldlM (fun dd kv =>
        if kv.1 = "groups" then
          (toPyList kv.2).foldlM (fun dd2 g => do
            let r ← add_user_to_group dd2 (valOfText uid) g
            pure r.1) dd
        else if kv.1 = "passwd" then do
          let r ← set_passwd hashFn dd name kv.2 true
          pure r.1
        else pure dd) d2
    return (sync_users_groups d3, some true)

/-! ## Well-formedness, normalization, and the codec round-trip (C4) -/

mutual

/-- No attributes anywhere in the node (the claim restricts the round-trip
to nodes built from the fields this system writes, which never include
attributes). -/
def noAttrib : Node → Bool
  | .mk _ a _ c => a.isEmpty && noAttribList c
termination_by n => sizeOf n

def noAttribList : List Node → Bool
  | [] => true
  | c :: cs => noAttrib c && noAttribList cs
termination_by cs => sizeOf cs

end

/-- The keys of a dict are pairwise distinct (true of every real Python
dict). -/
def keysDistinct : List (String × Val) → Bool
  | [] => true
  | (k, _) :: rest => rest.all (fun p => !(p.1 == k)) && keysDistinct rest

mutual

/-- Shape of a value `_dict_to_element` can rebuild: inside a dict, an entry
may be a scalar, a nested (well-shaped, non-empty, distinct-keyed) dict, or a
sequence of at least two non-sequence items — exactly the shapes
`_element_to_dict` produces. -/
def goodEntry : Val → Bool
  | .none => true
  | .str _ => true
  | .dict d => goodDict d
  | .list xs => (2 ≤ xs.length) && goodItems xs
termination_by v => (sizeOf v, 0)

def goodItems : List Val → Bool
  | [] => true
  | x :: rest => goodItem x && goodItems rest
termination_by xs => (sizeOf xs, 0)

def goodItem : Val → Bool
  | .none => true
  | .str _ => true
  | .dict d => goodDict d
  | .list _ => false
termination_by v => (sizeOf v, 0)

def goodDict (d : List (String × Val)) : Bool :=
  !d.isEmpty && keysDistinct d && goodEntries d
termination_by (sizeOf d, 1)

def goodEntries : List (String × Val) → Bool
  | [] => true
  | (_, v) :: rest => goodEntry v && goodEntries rest
termination_by d => (sizeOf d, 0)

end

/-- Shape of a whole record (`_dict_to_element`'s `data` argument): a
top-level list is rendered as repr text, not structure, so it is excluded. -/
def goodTop : Val → Bool
  | .none => true
  | .str _ => true
  | .dict d => goodDict d
  | .list _ => false

mutual

/-- What one `_dict_to_element` / `_element_to_dict` round trip does to a
value: strings are stripped, and blank strings collapse to `None`; structure
is otherwise preserved. -/
def normVal : Val → Val
  | .none => .none
  | .str s => if pyStrip s = "" then .none else .str (pyStrip s)
  | .dict d => .dict (normEntries d)
  | .list xs => .list (normItems xs)
termination_by v => sizeOf v

def normEntries : List (String × Val) → List (String × Val)
  | [] => []
  | (k, v) :: rest => (k, normVal v) :: normEntries rest
termination_by d => sizeOf d

def normItems : List Val → List Val
  | [] => []
  | x :: rest => normVal x :: normItems rest
termination_by xs => sizeOf xs

end

/-- A value is *normal* when a round trip leaves it unchanged. -/
def normalVal (v : Val) : Prop := normVal v = v

theorem foldChild_fresh (obj : List (String × Val)) (t : String) (v : Val)
    (h : ∀ p ∈ obj, p.1 ≠ t) : foldChild obj t v = obj ++ [(t, v)] := by
  induction obj with
  | nil => rfl
  | cons p rest ih =>
    obtain ⟨k, w⟩ := p
    have hk : k ≠ t := h (k, w) (by simp)
    simp only [foldChild, if_neg hk, List.cons_append]
    rw [ih (fun p hp => h p (by simp [hp]))]

theorem foldChild_last (obj : List (String × Val)) (t : String) (w v : Val)
    (h : ∀ p ∈ obj, p.1 ≠ t) :
    foldChild (obj ++ [(t, w)]) t v = obj ++ [(t, promoteVal w v)] := by
  induction obj with
  | nil => simp [foldChild]
  | cons p rest ih =>
    obtain ⟨k, w'⟩ := p
    have hk : k ≠ t := h (k, w') (by simp)
    simp only [List.cons_append, foldChild, if_neg hk, List.append_eq]
    rw [ih (fun p hp => h p (by simp [hp]))]

theorem promoteVal_nonlist (w v : Val) (h : ∀ xs, w ≠ Val.list xs) :
    promoteVal w v = Val.list [w, v] := by
  cases w with
  | list xs => exact absurd rfl (h xs)
  | none => rfl
  | str s => rfl
  | dict d => rfl

theorem normVal_nonlist (v : Val) (h : ∀ xs, v ≠ Val.list xs) :
    ∀ ys, normVal v ≠ Val.list ys := by
  intro ys
  cases v with
  | list xs => exact absurd rfl (h xs)
  | none => simp [normVal]
  | str s =>
    simp only [normVal]
    split <;> simp
  | dict d => simp [normVal]

theorem dictToElement_tag (k : String) (v : Val) : (dictToElement k v).tag = k := by
  cases v <;> simp [dictToElement]

/-- The children `_dict_to_element` generates for one dict entry. -/
def entryChildren (k : String) (v : Val) : List Node :=
  match v with
  | .list items => itemsToChildren k items
  | .dict d => [dictToElement k (.dict d)]
  | .none => [Node.mk k [] (some "") []]
  | .str s => [Node.mk k [] (some s) []]

theorem entriesToChildren_cons (k : String) (v : Val) (rest : List (String × Val)) :
    entriesToChildren ((k, v) :: rest) = entryChildren k v ++ entriesToChildren rest := by
  cases v <;> simp [entriesToChildren, entryChildren]

theorem itemsToChildren_ne_nil (k : String) (x : Val) (xs : List Val) :
    itemsToChildren k (x :: xs) ≠ [] := by
  simp [itemsToChildren]

theorem entryChildren_ne_nil (k : String) (v : Val) (hv : goodEntry v = true) :
    entryChildren k v ≠ [] := by
  cases v with
  | none => simp [entryChildren]
  | str s => simp [entryChildren]
  | dict d => simp [entryChildren]
  | list xs =>
    simp only [goodEntry, Bool.and_eq_true, decide_eq_true_eq] at hv
    cases xs with
    | nil => simp at hv
    | cons x rest => exact itemsToChildren_ne_nil k x rest

theorem goodItem_goodTop (v : Val) (h : goodItem v = true) : goodTop v = true := by
  cases v <;> simpa [goodItem, goodTop] using h

theorem goodItem_nonlist (v : Val) (h : goodItem v = true) : ∀ xs, v ≠ Val.list xs := by
  intro xs
  cases v <;> simp_all [goodItem]

/-- Equation lemmas (the mutual definitions are compiled by well-founded
recursion, so these do not hold by `rfl`). -/
theorem dictToElement_none (t : String) :
    dictToElement t Val.none = Node.mk t [] (some "") [] := by simp [dictToElement]

theorem dictToElement_str (t s : String) :
    dictToElement t (Val.str s) = Node.mk t [] (some s) [] := by simp [dictToElement]

theorem dictToElement_dict (t : String) (d : List (String × Val)) :
    dictToElement t (Val.dict d) = Node.mk t [] Option.none (entriesToChildren d) := by
  simp [dictToElement]

theorem normVal_none : normVal Val.none = Val.none := by simp [normVal]

theorem normVal_str (s : String) :
    normVal (Val.str s) = if pyStrip s = "" then Val.none else Val.str (pyStrip s) := by
  simp [normVal]

theorem normVal_dict (d : List (String × Val)) :
    normVal (Val.dict d) = Val.dict (normEntries d) := by simp [normVal]

theorem normVal_list (xs : List Val) :
    normVal (Val.list xs) = Val.list (normItems xs) := by simp [normVal]

theorem elementToDict_leafEmpty (k : String) :
    elementToDict (Node.mk k [] (some "") []) = Val.none := by
  simp [elementToDict, pyStrip, pyStripAux]

theorem elementToDict_leafStr (k s : String) :
    elementToDict (Node.mk k [] (some s) []) = normVal (Val.str s) := by
  rw [normVal_str]
  simp [elementToDict]

/-- Scalar round trips, computed directly. -/
theorem roundtrip_scalar_none (t : String) :
    elementToDict (dictToElement t Val.none) = Val.none := by
  rw [dictToElement_none, elementToDict_leafEmpty]

theorem roundtrip_scalar_str (t : String) (s : String) :
    elementToDict (dictToElement t (Val.str s)) = normVal (Val.str s) := by
  rw [dictToElement_str, elementToDict_leafStr]

theorem goodItems_mem (xs : List Val) (h : goodItems xs = true) :
    ∀ x ∈ xs, goodItem x = true := by
  induction xs with
  | nil => simp
  | cons y ys ih =>
    simp only [goodItems, Bool.and_eq_true] at h
    intro x hx
    rcases List.mem_cons.mp hx with hx | hx
    · exact hx ▸ h.1
    · exact ih h.2 x hx

theorem goodEntries_mem (d : List (String × Val)) (h : goodEntries d = true) :
    ∀ p ∈ d, goodEntry p.2 = true := by
  induction d with
  | nil => simp
  | cons q rest ih =>
    obtain ⟨k, v⟩ := q
    simp only [goodEntries, Bool.and_eq_true] at h
    intro p hp
    rcases List.mem_cons.mp hp with hp | hp
    · exact hp ▸ h.1
    · exact ih h.2 p hp

/-- Equation lemmas for the folding loop. -/
theorem foldInto_nil (obj : List (String × Val)) : foldInto obj [] = obj := by
  simp [foldInto]

theorem foldInto_cons (obj : List (String × Val)) (c : Node) (cs : List Node) :
    foldInto obj (c :: cs) = foldInto (foldChild obj c.tag (elementToDict c)) cs := by
  simp [foldInto]

theorem itemsToChildren_cons (k : String) (x : Val) (xs : List Val) :
    itemsToChildren k (x :: xs) = dictToElement k x :: itemsToChildren k xs := by
  simp [itemsToChildren]

/-- Folding a run of items that all share tag `k` into a trailing list
entry. -/
theorem foldInto_items (k : String) (obj : List (String × Val))
    (hfresh : ∀ p ∈ obj, p.1 ≠ k) :
    ∀ (xs : List Val) (acc : List Val) (rest : List Node),
      (∀ x ∈ xs, elementToDict (dictToElement k x) = normVal x) →
      foldInto (obj ++ [(k, Val.list acc)]) (itemsToChildren k xs ++ rest) =
        foldInto (obj ++ [(k, Val.list (acc ++ normItems xs))]) rest := by
  intro xs
  induction xs with
  | nil =>
    intro acc rest _
    have : normItems ([] : List Val) = [] := by simp [normItems]
    simp [itemsToChildren, this]
  | cons x xs ih =>
    intro acc rest hvals
    rw [itemsToChildren_cons, List.cons_append, foldInto_cons, dictToElement_tag,
      hvals x (by simp), foldChild_last obj k _ _ hfresh,
      show promoteVal (Val.list acc) (normVal x) = Val.list (acc ++ [normVal x]) from rfl,
      ih (acc ++ [normVal x]) rest (fun y hy => hvals y (by simp [hy]))]
    have : normItems (x :: xs) = normVal x :: normItems xs := by simp [normItems]
    simp [this]

/-- Folding the children generated by one good dict entry appends exactly one
normalized entry. -/
theorem foldInto_entry (k : String) (v : Val) (obj : List (String × Val))
    (rest : List Node) (hfresh : ∀ p ∈ obj, p.1 ≠ k) (hgood : goodEntry v = true)
    (hrec : ∀ w, sizeOf w ≤ sizeOf v → goodTop w = true →
      ∀ t', elementToDict (dictToElement t' w) = normVal w) :
    foldInto obj (entryChildren k v ++ rest) =
      foldInto (obj ++ [(k, normVal v)]) rest := by
  cases v with
  | none =>
    show foldInto obj ((Node.mk k [] (some "") [] :: []) ++ rest) = _
    rw [List.cons_append, List.nil_append, foldInto_cons, Node.tag_mk,
      elementToDict_leafEmpty, foldChild_fresh obj k _ hfresh, normVal_none]
  | str s =>
    show foldInto obj ((Node.mk k [] (some s) [] :: []) ++ rest) = _
    rw [List.cons_append, List.nil_append, foldInto_cons, Node.tag_mk,
      elementToDict_leafStr, foldChild_fresh obj k _ hfresh]
  | dict d =>
    show foldInto obj ((dictToElement k (.dict d) :: []) ++ rest) = _
    rw [List.cons_append, List.nil_append, foldInto_cons, dictToElement_tag,
      hrec (Val.dict d) (le_refl _) (by simpa [goodTop, goodEntry] using hgood) k,
      foldChild_fresh obj k _ hfresh]
  | list xs =>
    simp only [goodEntry, Bool.and_eq_true, decide_eq_true_eq] at hgood
    obtain ⟨hlen, hitems⟩ := hgood
    have hgi := goodItems_mem xs hitems
    have hvals : ∀ x ∈ xs, elementToDict (dictToElement k x) = normVal x := by
      intro x hx
      have hsz : sizeOf x ≤ sizeOf (Val.list xs) := by
        have := List.sizeOf_lt_of_mem hx
        simp only [Val.list.sizeOf_spec]
        omega
      exact hrec x hsz (goodItem_goodTop x (hgi x hx)) k
    obtain ⟨x1, x2, xs2, rfl⟩ : ∃ a b r, xs = a :: b :: r := by
      match xs, hlen with
      | a :: b :: r, _ => exact ⟨a, b, r, rfl⟩
    show foldInto obj (itemsToChildren k (x1 :: x2 :: xs2) ++ rest) = _
    rw [itemsToChildren_cons, itemsToChildren_cons, List.cons_append, List.cons_append,
      foldInto_cons, dictToElement_tag, hvals x1 (by simp),
      foldChild_fresh obj k _ hfresh,
      foldInto_cons, dictToElement_tag, hvals x2 (by simp),
      foldChild_last obj k _ _ hfresh,
      promoteVal_nonlist _ _ (normVal_nonlist x1 (goodItem_nonlist x1 (hgi x1 (by simp)))),
      foldInto_items k obj hfresh xs2 _ rest (fun y hy => hvals y (by simp [hy]))]
    have h1 : normItems (x1 :: x2 :: xs2) = normVal x1 :: normVal x2 :: normItems xs2 := by
      simp [normItems]
    rw [normVal_list, h1, List.cons_append, List.cons_append, List.nil_append]

theorem keysDistinct_cons (k : String) (v : Val) (rest : List (String × Val))
    (h : keysDistinct ((k, v) :: rest) = true) :
    (∀ p ∈ rest, p.1 ≠ k) ∧ keysDistinct rest = true := by
  simp only [keysDistinct, Bool.and_eq_true, List.all_eq_true] at h
  refine ⟨fun p hp => ?_, h.2⟩
  have := h.1 p hp
  simpa using this

/-- Folding every child generated for a good dict appends its normalized
entries. -/
theorem foldInto_entries (d : List (String × Val)) (S : Nat) (hS : sizeOf d ≤ S)
    (hdist : keysDistinct d = true) (hgood : goodEntries d = true)
    (hrec : ∀ w, sizeOf w < S → goodTop w = true →
      ∀ t', elementToDict (dictToElement t' w) = normVal w) :
    ∀ obj, (∀ p ∈ obj, ∀ q ∈ d, p.1 ≠ q.1) →
      foldInto obj (entriesToChildren d) = obj ++ normEntries d := by
  induction d with
  | nil =>
    intro obj _
    have h1 : entriesToChildren [] = [] := by simp [entriesToChildren]
    have h2 : normEntries [] = [] := by simp [normEntries]
    simp [h1, h2, foldInto_nil]
  | cons q rest ih =>
    obtain ⟨k, v⟩ := q
    intro obj hdisj
    obtain ⟨hk, hdist'⟩ := keysDistinct_cons k v rest hdist
    simp only [goodEntries, Bool.and_eq_true] at hgood
    have hvsz : sizeOf v < sizeOf ((k, v) :: rest) := by
      simp only [List.cons.sizeOf_spec, Prod.mk.sizeOf_spec]
      omega
    rw [entriesToChildren_cons,
      foldInto_entry k v obj (entriesToChildren rest)
        (fun p hp => hdisj p hp (k, v) (by simp))
        hgood.1
        (fun w hw hg t' => hrec w (by omega) hg t'),
      ih (by simp only [List.cons.sizeOf_spec] at hS; omega) hdist' hgood.2
        (obj ++ [(k, normVal v)])
        (by
          intro p hp q hq
          rcases List.mem_append.mp hp with hp | hp
          · exact hdisj p hp q (by simp [hq])
          · simp at hp
            subst hp
            exact fun e => hk q hq e.symm)]
    have : normEntries ((k, v) :: rest) = (k, normVal v) :: normEntries rest := by
      simp [normEntries]
    simp [this]

theorem elementToDict_mk_cons (t : String) (a : List (String × String))
    (x : Option String) (c : Node) (cs : List Node) :
    elementToDict (Node.mk t a x (c :: cs)) =
      Val.dict (foldInto (a.map (fun p => (p.1, Val.str p.2))) (c :: cs)) := by
  simp [elementToDict]

theorem elementToDict_leaf_none (t : String) (a : List (String × String)) :
    elementToDict (Node.mk t a Option.none []) = Val.none := by
  simp [elementToDict]

theorem elementToDict_leaf_some (t : String) (a : List (String × String)) (s : String) :
    elementToDict (Node.mk t a (some s) []) =
      if pyStrip s = "" then Val.none else Val.str (pyStrip s) := by
  simp [elementToDict]

theorem entriesToChildren_ne_nil (d : List (String × Val)) (hne : d ≠ [])
    (hgood : goodEntries d = true) : entriesToChildren d ≠ [] := by
  cases d with
  | nil => exact absurd rfl hne
  | cons q rest =>
    obtain ⟨k, v⟩ := q
    rw [entriesToChildren_cons]
    simp only [goodEntries, Bool.and_eq_true] at hgood
    have := entryChildren_ne_nil k v hgood.1
    intro hcontra
    rcases List.append_eq_nil.mp hcontra with ⟨h1, _⟩
    exact this h1

/-- The round trip for any value `_dict_to_element` accepts: converting to an
element and back yields the normalized value. -/
theorem roundtripAux (S : Nat) (v : Val) (hS : sizeOf v < S) (hg : goodTop v = true)
    (t : String) : elementToDict (dictToElement t v) = normVal v := by
  cases v with
  | none => rw [roundtrip_scalar_none, normVal_none]
  | str s => exact roundtrip_scalar_str t s
  | list xs => simp [goodTop] at hg
  | dict d =>
    rw [dictToElement_dict]
    have hgd : goodDict d = true := hg
    have hne : d ≠ [] := by
      intro h
      subst h
      simp [goodDict] at hgd
    have hdist : keysDistinct d = true := by
      simp only [goodDict, Bool.and_eq_true] at hgd
      exact hgd.1.2
    have hentries : goodEntries d = true := by
      simp only [goodDict, Bool.and_eq_true] at hgd
      exact hgd.2
    have hcne := entriesToChildren_ne_nil d hne hentries
    obtain ⟨c, cs, hcs⟩ := List.exists_cons_of_ne_nil hcne
    have hdlt : sizeOf d < S := by
      have : sizeOf d < sizeOf (Val.dict d) := by simp [Val.dict.sizeOf_spec]
      omega
    rw [hcs, elementToDict_mk_cons, List.map_nil, ← hcs]
    rw [foldInto_entries d (sizeOf d) (le_refl _) hdist hentries
        (fun w hw hgw t' => roundtripAux (sizeOf d) w hw hgw t') []
        (fun p hp => absurd hp (List.not_mem_nil p))]
    rw [List.nil_append, normVal_dict]
termination_by S
decreasing_by exact hdlt

theorem goodTop_nonlist (v : Val) (h : goodTop v = true) : ∀ xs, v ≠ Val.list xs := by
  intro xs
  cases v <;> simp_all [goodTop]

theorem goodEntry_of_goodTop (v : Val) (h : goodTop v = true) : goodEntry v = true := by
  cases v <;> simp_all [goodTop, goodEntry]

theorem goodItem_of_goodTop (v : Val) (h : goodTop v = true) : goodItem v = true := by
  cases v <;> simp_all [goodTop, goodItem]

theorem goodItem_of_goodEntry_nonlist (w : Val) (h : goodEntry w = true)
    (hnl : ∀ xs, w ≠ Val.list xs) : goodItem w = true := by
  cases w with
  | list xs => exact absurd rfl (hnl xs)
  | none => simp [goodItem]
  | str s => simp [goodItem]
  | dict d => simpa [goodEntry, goodItem] using h

theorem goodItems_append (xs ys : List Val) :
    goodItems (xs ++ ys) = (goodItems xs && goodItems ys) := by
  induction xs with
  | nil => simp [goodItems]
  | cons x rest ih =>
    rw [List.cons_append]
    simp only [goodItems, ih, Bool.and_assoc]

theorem goodEntry_promoteVal (w v : Val) (hw : goodEntry w = true)
    (hv : goodTop v = true) : goodEntry (promoteVal w v) = true := by
  cases w with
  | list xs =>
    simp only [promoteVal]
    simp only [goodEntry, Bool.and_eq_true, decide_eq_true_eq] at hw ⊢
    refine ⟨by simp; omega, ?_⟩
    rw [goodItems_append]
    simp only [Bool.and_eq_true]
    exact ⟨hw.2, by simp [goodItems, goodItem_of_goodTop v hv]⟩
  | none =>
    simp [promoteVal, goodEntry, goodItems, goodItem, goodItem_of_goodTop v hv]
  | str s =>
    simp [promoteVal, goodEntry, goodItems, goodItem, goodItem_of_goodTop v hv]
  | dict d =>
    have h1 : goodDict d = true := by simpa [goodEntry] using hw
    simp [promoteVal, goodEntry, goodItems, goodItem, h1, goodItem_of_goodTop v hv]

theorem keysDistinct_iff (d : List (String × Val)) :
    keysDistinct d = true ↔ (d.map Prod.fst).Nodup := by
  induction d with
  | nil => simp [keysDistinct]
  | cons p rest ih =>
    obtain ⟨k, v⟩ := p
    simp only [keysDistinct, Bool.and_eq_true, List.all_eq_true, List.map_cons,
      List.nodup_cons, ih]
    constructor
    · rintro ⟨h1, h2⟩
      refine ⟨?_, h2⟩
      intro hk
      obtain ⟨q, hq, hq2⟩ := List.mem_map.mp hk
      have := h1 q hq
      simp only [Bool.not_eq_true', beq_eq_false_iff_ne, ne_eq] at this
      exact this hq2
    · rintro ⟨h1, h2⟩
      refine ⟨?_, h2⟩
      intro q hq
      simp only [Bool.not_eq_true', beq_eq_false_iff_ne, ne_eq]
      intro he
      exact h1 (List.mem_map.mpr ⟨q, hq, he⟩)

theorem foldChild_keys (obj : List (String × Val)) (t : String) (v : Val) :
    (foldChild obj t v).map Prod.fst =
      if t ∈ obj.map Prod.fst then obj.map Prod.fst
      else obj.map Prod.fst ++ [t] := by
  induction obj with
  | nil => simp [foldChild]
  | cons p rest ih =>
    obtain ⟨k, w⟩ := p
    by_cases hk : k = t
    · subst hk
      simp [foldChild]
    · simp only [foldChild, if_neg hk, List.map_cons, ih]
      by_cases hmem : t ∈ rest.map Prod.fst
      · rw [if_pos hmem, if_pos (by simp [hmem])]
      · rw [if_neg hmem, if_neg (by simp [hmem, Ne.symm hk])]
        simp

theorem keysDistinct_foldChild (obj : List (String × Val)) (t : String) (v : Val)
    (h : keysDistinct obj = true) : keysDistinct (foldChild obj t v) = true := by
  rw [keysDistinct_iff] at h ⊢
  rw [foldChild_keys]
  by_cases hmem : t ∈ obj.map Prod.fst
  · rwa [if_pos hmem]
  · rw [if_neg hmem]
    simp [List.nodup_append, h, hmem]

theorem goodEntries_foldChild (obj : List (String × Val)) (t : String) (v : Val)
    (h : goodEntries obj = true) (hv : goodTop v = true) :
    goodEntries (foldChild obj t v) = true := by
  induction obj with
  | nil => simp [foldChild, goodEntries, goodEntry_of_goodTop v hv]
  | cons p rest ih =>
    obtain ⟨k, w⟩ := p
    simp only [goodEntries, Bool.and_eq_true] at h
    by_cases hk : k = t
    · simp only [foldChild, if_pos hk, goodEntries, Bool.and_eq_true]
      exact ⟨goodEntry_promoteVal w v h.1 hv, h.2⟩
    · simp only [foldChild, if_neg hk, goodEntries, Bool.and_eq_true]
      exact ⟨h.1, ih h.2⟩

theorem foldChild_ne_nil (obj : List (String × Val)) (t : String) (v : Val) :
    foldChild obj t v ≠ [] := by
  cases obj with
  | nil => simp [foldChild]
  | cons p rest =>
    obtain ⟨k, w⟩ := p
    by_cases hk : k = t <;> simp [foldChild, hk]

theorem foldInto_good (cs : List Node) :
    ∀ obj, keysDistinct obj = true → goodEntries obj = true →
      (∀ c ∈ cs, goodTop (elementToDict c) = true) →
      keysDistinct (foldInto obj cs) = true ∧ goodEntries (foldInto obj cs) = true ∧
        (obj ≠ [] ∨ cs ≠ [] → foldInto obj cs ≠ []) := by
  induction cs with
  | nil =>
    intro obj h1 h2 _
    rw [foldInto_nil]
    exact ⟨h1, h2, fun h => by
      rcases h with h | h
      · exact h
      · exact absurd rfl h⟩
  | cons c rest ih =>
    intro obj h1 h2 hcs
    rw [foldInto_cons]
    have hv : goodTop (elementToDict c) = true := hcs c (by simp)
    have := ih (foldChild obj c.tag (elementToDict c))
      (keysDistinct_foldChild obj _ _ h1) (goodEntries_foldChild obj _ _ h2 hv)
      (fun c' hc' => hcs c' (by simp [hc']))
    refine ⟨this.1, this.2.1, fun _ => this.2.2 (Or.inl (foldChild_ne_nil obj _ _))⟩

/-- Children of an attribute-free node are attribute-free. -/
theorem noAttribList_mem (c : List Node) (h : noAttribList c = true) :
    ∀ m ∈ c, noAttrib m = true := by
  induction c with
  | nil => simp
  | cons y ys ih =>
    simp only [noAttribList, Bool.and_eq_true] at h
    intro m hm
    rcases List.mem_cons.mp hm with hm | hm
    · exact hm ▸ h.1
    · exact ih h.2 m hm

/-- `_element_to_dict` always yields a good record on attribute-free nodes. -/
theorem goodTop_elementToDict (n : Node) : noAttrib n = true →
    goodTop (elementToDict n) = true := by
  induction n using Node.inductionOn with
  | _ t a x c ih =>
    intro hna
    have hna' : a.isEmpty = true ∧ noAttribList c = true := by
      simpa [noAttrib] using hna
    have ha : a = [] := by simpa [List.isEmpty_iff] using hna'.1
    subst ha
    have hchildren := noAttribList_mem c hna'.2
    cases c with
    | nil =>
      cases x with
      | none =>
        rw [elementToDict_leaf_none]
        rfl
      | some s =>
        rw [elementToDict_leaf_some]
        by_cases hs : pyStrip s = ""
        · simp [hs, goodTop]
        · simp [hs, goodTop]
    | cons c0 cs =>
      rw [elementToDict_mk_cons, List.map_nil]
      have hg := foldInto_good (c0 :: cs) [] rfl (by simp [goodEntries])
        (fun m hm => ih m hm (hchildren m hm))
      have hne := hg.2.2 (Or.inr (by simp))
      simp only [goodTop, goodDict, Bool.and_eq_true]
      refine ⟨⟨?_, hg.1⟩, hg.2.1⟩
      cases hfold : foldInto [] (c0 :: cs) with
      | nil => exact absurd hfold hne
      | cons q qs => simp

theorem normItems_nil : normItems [] = [] := by simp [normItems]

theorem normItems_cons (x : Val) (xs : List Val) :
    normItems (x :: xs) = normVal x :: normItems xs := by simp [normItems]

theorem normEntries_nil : normEntries [] = [] := by simp [normEntries]

theorem normEntries_cons (k : String) (v : Val) (rest : List (String × Val)) :
    normEntries ((k, v) :: rest) = (k, normVal v) :: normEntries rest := by
  simp [normEntries]

theorem normItems_append (xs ys : List Val) :
    normItems (xs ++ ys) = normItems xs ++ normItems ys := by
  induction xs with
  | nil => simp [normItems_nil]
  | cons x rest ih => simp [normItems_cons, ih]

theorem normVal_promoteVal (w v : Val) (hw : normVal w = w) (hv : normVal v = v) :
    normVal (promoteVal w v) = promoteVal w v := by
  cases w with
  | list xs =>
    simp only [promoteVal]
    rw [normVal_list] at hw ⊢
    have hxs : normItems xs = xs := by simpa using hw
    rw [normItems_append, hxs]
    simp [normItems_cons, normItems_nil, hv]
  | none =>
    simp only [promoteVal]
    rw [normVal_list]
    simp [normItems_cons, normItems_nil, hv, normVal_none]
  | str s =>
    simp only [promoteVal]
    rw [normVal_list]
    simp [normItems_cons, normItems_nil, hv, hw]
  | dict d =>
    simp only [promoteVal]
    rw [normVal_list]
    simp [normItems_cons, normItems_nil, hv, hw]

theorem normEntries_foldChild (obj : List (String × Val)) (t : String) (v : Val)
    (hobj : normEntries obj = obj) (hv : normVal v = v) :
    normEntries (foldChild obj t v) = foldChild obj t v := by
  induction obj with
  | nil => simp [foldChild, normEntries_cons, normEntries_nil, hv]
  | cons p rest ih =>
    obtain ⟨k, w⟩ := p
    rw [normEntries_cons] at hobj
    have hw : normVal w = w := by
      have := congrArg (fun l => l.head?) hobj
      simpa using this
    have hrest : normEntries rest = rest := by
      have := congrArg (fun l => l.tail) hobj
      simpa using this
    by_cases hk : k = t
    · simp only [foldChild, if_pos hk, normEntries_cons]
      rw [normVal_promoteVal w v hw hv, hrest]
    · simp only [foldChild, if_neg hk, normEntries_cons]
      rw [hw, ih hrest]

theorem normEntries_foldInto (cs : List Node) :
    ∀ obj, normEntries obj = obj →
      (∀ c ∈ cs, normVal (elementToDict c) = elementToDict c) →
      normEntries (foldInto obj cs) = foldInto obj cs := by
  induction cs with
  | nil =>
    intro obj hobj _
    rwa [foldInto_nil]
  | cons c rest ih =>
    intro obj hobj hcs
    rw [foldInto_cons]
    exact ih _ (normEntries_foldChild obj _ _ hobj (hcs c (by simp)))
      (fun m hm => hcs m (by simp [hm]))

/-- `_element_to_dict` output is already normal on attribute-free nodes. -/
theorem normal_elementToDict (n : Node) : noAttrib n = true →
    normVal (elementToDict n) = elementToDict n := by
  induction n using Node.inductionOn with
  | _ t a x c ih =>
    intro hna
    have hna' : a.isEmpty = true ∧ noAttribList c = true := by
      simpa [noAttrib] using hna
    have ha : a = [] := by simpa [List.isEmpty_iff] using hna'.1
    subst ha
    have hchildren := noAttribList_mem c hna'.2
    cases c with
    | nil =>
      cases x with
      | none =>
        rw [elementToDict_leaf_none]
        exact normVal_none
      | some s =>
        rw [elementToDict_leaf_some]
        by_cases hs : pyStrip s = ""
        · rw [if_pos hs]
          exact normVal_none
        · rw [if_neg hs, normVal_str, pyStrip_idem, if_neg hs]
    | cons c0 cs =>
      rw [elementToDict_mk_cons, List.map_nil, normVal_dict]
      rw [normEntries_foldInto (c0 :: cs) [] normEntries_nil
        (fun m hm => ih m hm (hchildren m hm))]

/-! ## Resolution / mutation walker lemmas -/

theorem sel_nil (n : Node) : sel n [] = [n] := rfl

theorem sel_cons (n : Node) (t : String) (ts : List String) :
    sel n (t :: ts) =
      (n.children.filter (fun c => c.tag == t)).flatMap (fun c => sel c ts) := rfl

theorem sel_append (P : List String) : ∀ (Q : List String) (n : Node),
    sel n (P ++ Q) = (sel n P).flatMap (fun m => sel m Q) := by
  induction P with
  | nil => intro Q n; simp [sel_nil]
  | cons t ts ih =>
    intro Q n
    rw [List.cons_append, sel_cons, sel_cons, List.flatMap_assoc]
    congr 1
    funext c
    exact ih Q c

theorem sel_single (n : Node) (u : String) :
    sel n [u] = n.children.filter (fun c => c.tag == u) := by
  rw [sel_cons]
  simp [sel_nil]

theorem modFirstL_none_iff (rec : Node → Option Node) (t : String) :
    ∀ cs : List Node, modFirstL rec t cs = Option.none ↔
      ∀ c ∈ cs, c.tag = t → rec c = Option.none := by
  intro cs
  induction cs with
  | nil => simp [modFirstL]
  | cons c cs ih =>
    by_cases ht : c.tag == t
    · simp only [modFirstL, if_pos ht]
      cases hr : rec c with
      | some c' =>
        simp only []
        constructor
        · intro h; cases h
        · intro h
          have := h c (by simp) (by simpa using ht)
          rw [this] at hr
          cases hr
      | none =>
        simp only [Option.map_eq_none', ih]
        constructor
        · intro h c' hc' ht'
          rcases List.mem_cons.mp hc' with rfl | hc'
          · exact hr
          · exact h c' hc' ht'
        · intro h c' hc' ht'
          exact h c' (by simp [hc']) ht'
    · simp only [modFirstL, if_neg ht, Option.map_eq_none', ih]
      constructor
      · intro h c' hc' ht'
        rcases List.mem_cons.mp hc' with rfl | hc'
        · exact absurd (by simp [ht']) ht
        · exact h c' hc' ht'
      · intro h c' hc' ht'
        exact h c' (by simp [hc']) ht'

theorem modFirstL_some (rec : Node → Option Node) (t : String) :
    ∀ (cs cs' : List Node), modFirstL rec t cs = some cs' →
      ∃ pre c c' suf, cs = pre ++ c :: suf ∧ cs' = pre ++ c' :: suf ∧
        c.tag = t ∧ rec c = some c' ∧
        (∀ q ∈ pre, q.tag = t → rec q = Option.none) := by
  intro cs
  induction cs with
  | nil => intro cs' h; simp [modFirstL] at h
  | cons c cs ih =>
    intro cs' h
    by_cases ht : c.tag == t
    · rw [modFirstL, if_pos ht] at h
      cases hr : rec c with
      | some c2 =>
        rw [hr] at h
        cases h
        exact ⟨[], c, c2, cs, by simp, by simp, by simpa using ht, hr, by simp⟩
      | none =>
        rw [hr] at h
        cases hm : modFirstL rec t cs with
        | none => rw [hm] at h; cases h
        | some l =>
          rw [hm] at h
          cases h
          obtain ⟨pre, c1, c1', suf, h1, h2, h3, h4, h5⟩ := ih l hm
          refine ⟨c :: pre, c1, c1', suf, by simp [h1], by simp [h2], h3, h4, ?_⟩
          intro q hq htq
          rcases List.mem_cons.mp hq with rfl | hq
          · exact hr
          · exact h5 q hq htq
    · rw [modFirstL, if_neg ht] at h
      cases hm : modFirstL rec t cs with
      | none => rw [hm] at h; cases h
      | some l =>
        rw [hm] at h
        cases h
        obtain ⟨pre, c1, c1', suf, h1, h2, h3, h4, h5⟩ := ih l hm
        refine ⟨c :: pre, c1, c1', suf, by simp [h1], by simp [h2], h3, h4, ?_⟩
        intro q hq htq
        rcases List.mem_cons.mp hq with rfl | hq
        · exact absurd (by simp [htq]) ht
        · exact h5 q hq htq

theorem modFirstO_none_iff (g : Node → Option Node) :
    ∀ (path : List String) (n : Node),
      modFirstO g path n = Option.none ↔ ∀ p ∈ sel n path, g p = Option.none := by
  intro path
  induction path with
  | nil => intro n; simp [modFirstO, sel_nil]
  | cons t ts ih =>
    intro n
    rw [modFirstO, sel_cons]
    simp only [Option.map_eq_none', modFirstL_none_iff]
    constructor
    · intro h p hp
      obtain ⟨c, hc, hpc⟩ := List.mem_flatMap.mp hp
      have hct : c.tag = t := by
        have := List.mem_filter.mp hc
        simpa using this.2
      have := h c (List.mem_filter.mp hc).1 hct
      exact (ih c).mp this p hpc
    · intro h c hc hct
      apply (ih c).mpr
      intro p hp
      exact h p (List.mem_flatMap.mpr ⟨c, List.mem_filter.mpr ⟨hc, by simp [hct]⟩, hp⟩)

theorem modFirstO_tag (g : Node → Option Node)
    (hg : ∀ m m', g m = some m' → m'.tag = m.tag) :
    ∀ (path : List String) (n n' : Node), modFirstO g path n = some n' →
      n'.tag = n.tag := by
  intro path n n' h
  cases path with
  | nil => exact hg n n' h
  | cons t ts =>
    simp only [modFirstO] at h
    cases hm : modFirstL (modFirstO g ts) t n.children with
    | none => rw [hm] at h; cases h
    | some l =>
      rw [hm] at h
      cases h
      simp

/-- The node `modFirstO` rewrites is the first one in document order on which
`g` succeeds; nothing else changes. -/
theorem modFirstO_sel (g : Node → Option Node)
    (hg : ∀ m m', g m = some m' → m'.tag = m.tag) :
    ∀ (path : List String) (n n' : Node), modFirstO g path n = some n' →
      ∃ pre p p' post, sel n path = pre ++ p :: post ∧
        sel n' path = pre ++ p' :: post ∧ g p = some p' ∧
        ∀ q ∈ pre, g q = Option.none := by
  intro path
  induction path with
  | nil =>
    intro n n' h
    exact ⟨[], n, n', [], sel_nil n, sel_nil n', h, by simp⟩
  | cons t ts ih =>
    intro n n' h
    simp only [modFirstO] at h
    cases hm : modFirstL (modFirstO g ts) t n.children with
    | none => rw [hm] at h; cases h
    | some l =>
      rw [hm] at h
      cases h
      obtain ⟨cpre, c, c', csuf, h1, h2, h3, h4, h5⟩ := modFirstL_some _ t _ l hm
      obtain ⟨pre, p, p', post, hsel, hsel', hgp, hpre0⟩ := ih c c' h4
      have hct' : c'.tag = t := by rw [modFirstO_tag g hg ts c c' h4, h3]
      have hprenil : ∀ q ∈ cpre.filter (fun x => x.tag == t), ∀ r ∈ sel q ts,
          g r = Option.none := by
        intro q hq
        have hmem := (List.mem_filter.mp hq).1
        have htag : q.tag = t := by simpa using (List.mem_filter.mp hq).2
        exact (modFirstO_none_iff g ts q).mp (h5 q hmem htag)
      have e1 : n.children.filter (fun x => x.tag == t) =
          cpre.filter (fun x => x.tag == t) ++ c :: csuf.filter (fun x => x.tag == t) := by
        rw [h1, List.filter_append, List.filter_cons]
        simp [h3]
      have e2 : l.filter (fun x => x.tag == t) =
          cpre.filter (fun x => x.tag == t) ++ c' :: csuf.filter (fun x => x.tag == t) := by
        rw [h2, List.filter_append, List.filter_cons]
        simp [hct']
      refine ⟨(cpre.filter (fun x => x.tag == t)).flatMap (fun q => sel q ts) ++ pre,
        p, p', post ++ (csuf.filter (fun x => x.tag == t)).flatMap (fun q => sel q ts),
        ?_, ?_, hgp, ?_⟩
      · rw [sel_cons, e1, List.flatMap_append, List.flatMap_cons, hsel]
        simp
      · show sel (n.withChildren l) (t :: ts) = _
        rw [sel_cons, Node.children_withChildren, e2, List.flatMap_append,
          List.flatMap_cons, hsel']
        simp
      · intro q hq
        rcases List.mem_append.mp hq with hq | hq
        · obtain ⟨w, hw, hqw⟩ := List.mem_flatMap.mp hq
          exact hprenil w hw q hqw
        · exact hpre0 q hq

/-- Splitting a first-match walk over a composite path. -/
theorem modFirstO_append (g : Node → Option Node) :
    ∀ (P Q : List String) (n : Node),
      modFirstO g (P ++ Q) n = modFirstO (modFirstO g Q) P n := by
  intro P
  induction P with
  | nil => intro Q n; rfl
  | cons t ts ih =>
    intro Q n
    rw [List.cons_append]
    show (modFirstL (modFirstO g (ts ++ Q)) t n.children).map _ = _
    have : modFirstO g (ts ++ Q) = modFirstO (modFirstO g Q) ts := by
      funext m
      exact ih Q m
    rw [this]
    rfl

theorem modFirst_none_iff (f : Node → Node) :
    ∀ (path : List String) (n : Node),
      modFirst f path n = Option.none ↔ sel n path = [] := by
  intro path n
  rw [modFirst, modFirstO_none_iff]
  constructor
  · intro h
    cases hs : sel n path with
    | nil => rfl
    | cons p ps => cases h p (by rw [hs]; simp)
  · intro h p hp
    rw [h] at hp
    cases hp

theorem modFirst_sel (f : Node → Node) (hf : ∀ m, (f m).tag = m.tag) :
    ∀ (path : List String) (n n' : Node), modFirst f path n = some n' →
      ∃ hd tl, sel n path = hd :: tl ∧ sel n' path = f hd :: tl := by
  intro path n n' h
  rw [modFirst] at h
  obtain ⟨pre, p, p', post, h1, h2, h3, h4⟩ := modFirstO_sel _
    (fun m m' hm => by cases hm; exact hf m) path n n' h
  cases pre with
  | cons q qs => cases h4 q (by simp)
  | nil =>
    cases h3
    exact ⟨p, post, by simpa using h1, by simpa using h2⟩

theorem modFirst_tag (f : Node → Node) (hf : ∀ m, (f m).tag = m.tag) :
    ∀ (path : List String) (n n' : Node), modFirst f path n = some n' →
      n'.tag = n.tag := by
  intro path n n' h
  rw [modFirst] at h
  exact modFirstO_tag _ (fun m m' hm => by cases hm; exact hf m) path n n' h

theorem modFirstAbs_none_iff (f : Node → Node) (path : List String) (doc : Node) :
    modFirstAbs f path doc = Option.none ↔ xpathAbs doc path = [] := by
  cases path with
  | nil => simp [modFirstAbs, xpathAbs]
  | cons t ts =>
    simp only [modFirstAbs, xpathAbs]
    by_cases h : doc.tag == t
    · rw [if_pos h, if_pos h]
      exact modFirst_none_iff f ts doc
    · rw [if_neg h, if_neg h]
      simp

theorem modFirstAbs_sel (f : Node → Node) (hf : ∀ m, (f m).tag = m.tag)
    (path : List String) (doc d' : Node) (h : modFirstAbs f path doc = some d') :
    ∃ hd tl, xpathAbs doc path = hd :: tl ∧ xpathAbs d' path = f hd :: tl := by
  cases path with
  | nil => simp [modFirstAbs] at h
  | cons t ts =>
    simp only [modFirstAbs] at h
    by_cases htag : doc.tag == t
    · rw [if_pos htag] at h
      obtain ⟨hd, tl, h1, h2⟩ := modFirst_sel f hf ts doc d' h
      refine ⟨hd, tl, ?_, ?_⟩
      · rw [xpathAbs, if_pos htag]; exact h1
      · rw [xpathAbs, if_pos (by rw [modFirst_tag f hf ts doc d' h]; exact htag)]
        exact h2
    · rw [if_neg htag] at h
      cases h

/-! ## Claim C4 — codec round-trip -/

/-- **C4.** Codec round-trip: for every node built only from the fields this
system writes (scalar leaves, nested containers, repeated-tag sequences — no
attributes), converting the node to a record with `_element_to_dict` and back
with `_dict_to_element` under the same tag reproduces the same field set,
sequence ordering and values as the original node: re-reading the rebuilt
node yields exactly the original record. -/
theorem claim_C4_codec_roundtrip (n : Node) (t : String) (h : noAttrib n = true) :
    elementToDict (dictToElement t (elementToDict n)) = elementToDict n := by
  rw [roundtripAux (sizeOf (elementToDict n) + 1) (elementToDict n)
    (Nat.lt_succ_self _) (goodTop_elementToDict n h) t, normal_elementToDict n h]

/-- A sample node with a scalar leaf, a repeated-tag sequence and a nested
container. -/
def sampleNodeC4 : Node :=
  Node.mk "user" [] Option.none
    [Node.mk "name" [] (some "bob") [],
     Node.mk "member" [] (some "2000") [],
     Node.mk "member" [] (some "2001") [],
     Node.mk "opts" [] Option.none [Node.mk "shell" [] (some "/bin/sh") []]]

theorem claim_C4_codec_roundtrip_witness :
    noAttrib sampleNodeC4 = true ∧
    elementToDict (dictToElement "user" (elementToDict sampleNodeC4)) =
      elementToDict sampleNodeC4 :=
  ⟨by simp [sampleNodeC4, noAttrib, noAttribList],
   claim_C4_codec_roundtrip sampleNodeC4 "user"
     (by simp [sampleNodeC4, noAttrib, noAttribList])⟩

/-! ## Claim C7 — strict `set_config_value` -/

/-- **C7.** Strict `setValue`: when the path resolves, `set_config_value`
overwrites the first matched node's text in place (all other matches
untouched); when the leaf does not exist it fails with the not-found-class
`IndexError` (from `root.xpath(path)[0]`) rather than fabricating structure,
and — the failure being raised before any write — the document is left
unchanged. -/
theorem claim_C7_set_value_strict (doc : Node) (path : List String) (value : String) :
    (xpathAbs doc path = [] → set_config_value doc path value = .error .indexError) ∧
    (∀ hd tl, xpathAbs doc path = hd :: tl →
      ∃ d', set_config_value doc path value = .ok d' ∧
        xpathAbs d' path = hd.withText (some value) :: tl) := by
  constructor
  · intro h
    unfold set_config_value
    rw [(modFirstAbs_none_iff _ path doc).mpr h]
  · intro hd tl h
    unfold set_config_value
    cases hm : modFirstAbs (fun n => n.withText (some value)) path doc with
    | none =>
      rw [(modFirstAbs_none_iff _ path doc).mp hm] at h
      cases h
    | some d' =>
      refine ⟨d', rfl, ?_⟩
      obtain ⟨hd2, tl2, h1, h2⟩ := modFirstAbs_sel _ (fun m => Node.tag_withText m _)
        path doc d' hm
      rw [h] at h1
      cases h1
      exact h2

/-- Concrete document for the C7 witness. -/
def sampleDocC7 : Node :=
  Node.mk "pfsense" [] Option.none
    [Node.mk "system" [] Option.none
      [Node.mk "hostname" [] (some "fw1") [], Node.mk "domain" [] (some "lan") []]]

theorem claim_C7_set_value_strict_witness :
    (xpathAbs sampleDocC7 ["pfsense", "system", "nextuid"] = [] ∧
      set_config_value sampleDocC7 ["pfsense", "system", "nextuid"] "5" =
        .error .indexError) ∧
    (∃ d', set_config_value sampleDocC7 ["pfsense", "system", "hostname"] "fw2" = .ok d' ∧
      xpathAbs d' ["pfsense", "system", "hostname"] =
        [Node.mk "hostname" [] (some "fw2") []]) := by
  constructor
  · exact ⟨rfl, (claim_C7_set_value_strict sampleDocC7 _ "5").1 rfl⟩
  · obtain ⟨d', h1, h2⟩ := (claim_C7_set_value_strict sampleDocC7
      ["pfsense", "system", "hostname"] "fw2").2 (Node.mk "hostname" [] (some "fw1") []) [] rfl
    exact ⟨d', h1, h2⟩

/-! ## Replace-walker lemmas -/

theorem replScanL_none_iff (rec : Node → Except PyErr (Option Node)) (t : String) :
    ∀ cs : List Node, replScanL rec t cs = .ok Option.none ↔
      ∀ c ∈ cs, c.tag = t → rec c = .ok Option.none := by
  intro cs
  induction cs with
  | nil => simp [replScanL]
  | cons c cs ih =>
    by_cases ht : c.tag == t
    · simp only [replScanL, if_pos ht]
      cases hr : rec c with
      | error e =>
        constructor
        · intro h; cases h
        · intro h
          have := h c (by simp) (by simpa using ht)
          rw [this] at hr
          cases hr
      | ok o =>
        cases o with
        | some c' =>
          constructor
          · intro h; cases h
          · intro h
            have := h c (by simp) (by simpa using ht)
            rw [this] at hr
            cases hr
        | none =>
          simp only []
          constructor
          · intro h
            intro c' hc' ht'
            rcases List.mem_cons.mp hc' with rfl | hc'
            · exact hr
            · cases hsc : replScanL rec t cs with
              | error e => rw [hsc] at h; cases h
              | ok o =>
                rw [hsc] at h
                cases o with
                | some l => cases h
                | none => exact (ih.mp hsc) c' hc' ht'
          · intro h
            rw [ih.mpr (fun c' hc' ht' => h c' (by simp [hc']) ht')]
            rfl
    · simp only [replScanL, if_neg ht]
      constructor
      · intro h c' hc' ht'
        rcases List.mem_cons.mp hc' with rfl | hc'
        · exact absurd (by simp [ht']) ht
        · cases hsc : replScanL rec t cs with
          | error e => rw [hsc] at h; cases h
          | ok o =>
            rw [hsc] at h
            cases o with
            | some l => cases h
            | none => exact (ih.mp hsc) c' hc' ht'
      · intro h
        rw [ih.mpr (fun c' hc' ht' => h c' (by simp [hc']) ht')]
        rfl

theorem replScanL_some (rec : Node → Except PyErr (Option Node)) (t : String) :
    ∀ (cs : List Node) (cs' : List Node), replScanL rec t cs = .ok (some cs') →
      ∃ pre c c' suf, cs = pre ++ c :: suf ∧ cs' = pre ++ c' :: suf ∧
        c.tag = t ∧ rec c = .ok (some c') ∧
        (∀ q ∈ pre, q.tag = t → rec q = .ok Option.none) := by
  intro cs
  induction cs with
  | nil => intro cs' h; simp [replScanL] at h
  | cons c cs ih =>
    intro cs' h
    by_cases ht : c.tag == t
    · rw [replScanL, if_pos ht] at h
      cases hr : rec c with
      | error e => rw [hr] at h; cases h
      | ok o =>
        rw [hr] at h
        cases o with
        | some c2 =>
          cases h
          exact ⟨[], c, c2, cs, by simp, by simp, by simpa using ht, hr, by simp⟩
        | none =>
          cases hm : replScanL rec t cs with
          | error e => rw [hm] at h; cases h
          | ok o2 =>
            rw [hm] at h
            cases o2 with
            | none => cases h
            | some l =>
              cases h
              obtain ⟨pre, c1, c1', suf, h1, h2, h3, h4, h5⟩ := ih l hm
              refine ⟨c :: pre, c1, c1', suf, by simp [h1], by simp [h2], h3, h4, ?_⟩
              intro q hq htq
              rcases List.mem_cons.mp hq with rfl | hq
              · exact hr
              · exact h5 q hq htq
    · rw [replScanL, if_neg ht] at h
      cases hm : replScanL rec t cs with
      | error e => rw [hm] at h; cases h
      | ok o2 =>
        rw [hm] at h
        cases o2 with
        | none => cases h
        | some l =>
          cases h
          obtain ⟨pre, c1, c1', suf, h1, h2, h3, h4, h5⟩ := ih l hm
          refine ⟨c :: pre, c1, c1', suf, by simp [h1], by simp [h2], h3, h4, ?_⟩
          intro q hq htq
          rcases List.mem_cons.mp hq with rfl | hq
          · exact absurd (by simp [htq]) ht
          · exact h5 q hq htq

theorem replWalk_none_iff (scan : Node → Except PyErr (Option Node)) :
    ∀ (path : List String) (n : Node),
      replWalk scan path n = .ok Option.none ↔
        ∀ p ∈ sel n path, scan p = .ok Option.none := by
  intro path
  induction path with
  | nil => intro n; simp [replWalk, sel_nil]
  | cons t ts ih =>
    intro n
    rw [replWalk, sel_cons]
    constructor
    · intro h p hp
      obtain ⟨c, hc, hpc⟩ := List.mem_flatMap.mp hp
      have hct : c.tag = t := by
        have := List.mem_filter.mp hc
        simpa using this.2
      cases hsc : replScanL (replWalk scan ts) t n.children with
      | error e => rw [hsc] at h; cases h
      | ok o =>
        rw [hsc] at h
        cases o with
        | some l => cases h
        | none =>
          have := (replScanL_none_iff _ t n.children).mp hsc c
            (List.mem_filter.mp hc).1 hct
          exact (ih c).mp this p hpc
    · intro h
      rw [(replScanL_none_iff _ t n.children).mpr ?_]
      · rfl
      · intro c hc hct
        apply (ih c).mpr
        intro p hp
        exact h p (List.mem_flatMap.mpr ⟨c, List.mem_filter.mpr ⟨hc, by simp [hct]⟩, hp⟩)

theorem replWalk_tag (scan : Node → Except PyErr (Option Node))
    (hs : ∀ m m', scan m = .ok (some m') → m'.tag = m.tag) :
    ∀ (path : List String) (n n' : Node), replWalk scan path n = .ok (some n') →
      n'.tag = n.tag := by
  intro path n n' h
  cases path with
  | nil => exact hs n n' h
  | cons t ts =>
    simp only [replWalk] at h
    cases hm : replScanL (replWalk scan ts) t n.children with
    | error e => rw [hm] at h; cases h
    | ok o =>
      rw [hm] at h
      cases o with
      | none => cases h
      | some l =>
        cases h
        simp

theorem replWalk_some (scan : Node → Except PyErr (Option Node))
    (hs : ∀ m m', scan m = .ok (some m') → m'.tag = m.tag) :
    ∀ (path : List String) (n n' : Node), replWalk scan path n = .ok (some n') →
      ∃ pre p p' post, sel n path = pre ++ p :: post ∧
        sel n' path = pre ++ p' :: post ∧ scan p = .ok (some p') ∧
        ∀ q ∈ pre, scan q = .ok Option.none := by
  intro path
  induction path with
  | nil =>
    intro n n' h
    exact ⟨[], n, n', [], sel_nil n, sel_nil n', h, by simp⟩
  | cons t ts ih =>
    intro n n' h
    simp only [replWalk] at h
    cases hm : replScanL (replWalk scan ts) t n.children with
    | error e => rw [hm] at h; cases h
    | ok o =>
      rw [hm] at h
      cases o with
      | none => cases h
      | some l =>
        cases h
        obtain ⟨cpre, c, c', csuf, h1, h2, h3, h4, h5⟩ := replScanL_some _ t _ l hm
        obtain ⟨pre, p, p', post, hsel, hsel', hgp, hpre0⟩ := ih c c' h4
        have hct' : c'.tag = t := by rw [replWalk_tag scan hs ts c c' h4, h3]
        have hprenil : ∀ q ∈ cpre.filter (fun x => x.tag == t), ∀ r ∈ sel q ts,
            scan r = .ok Option.none := by
          intro q hq
          have hmem := (List.mem_filter.mp hq).1
          have htag : q.tag = t := by simpa using (List.mem_filter.mp hq).2
          exact (replWalk_none_iff scan ts q).mp (h5 q hmem htag)
        have e1 : n.children.filter (fun x => x.tag == t) =
            cpre.filter (fun x => x.tag == t) ++ c :: csuf.filter (fun x => x.tag == t) := by
          rw [h1, List.filter_append, List.filter_cons]
          simp [h3]
        have e2 : l.filter (fun x => x.tag == t) =
            cpre.filter (fun x => x.tag == t) ++ c' :: csuf.filter (fun x => x.tag == t) := by
          rw [h2, List.filter_append, List.filter_cons]
          simp [hct']
        refine ⟨(cpre.filter (fun x => x.tag == t)).flatMap (fun q => sel q ts) ++ pre,
          p, p', post ++ (csuf.filter (fun x => x.tag == t)).flatMap (fun q => sel q ts),
          ?_, ?_, hgp, ?_⟩
        · rw [sel_cons, e1, List.flatMap_append, List.flatMap_cons, hsel]
          simp
        · show sel (n.withChildren l) (t :: ts) = _
          rw [sel_cons, Node.children_withChildren, e2, List.flatMap_append,
            List.flatMap_cons, hsel']
          simp
        · intro q hq
          rcases List.mem_append.mp hq with hq | hq
          · obtain ⟨w, hw, hqw⟩ := List.mem_flatMap.mp hq
            exact hprenil w hw q hqw
          · exact hpre0 q hq

/-! ## Member-scan and modify-all lemmas -/

theorem scanMembersL_none_iff (key : String) (value : Val) (tag : String) :
    ∀ cs : List Node, scanMembersL key value tag cs = .ok Option.none ↔
      ∀ c ∈ cs, c.tag = tag →
        ∃ kc, findChild c key = some kc ∧ pyEqTextVal kc.text value = false := by
  intro cs
  induction cs with
  | nil => simp [scanMembersL]
  | cons c cs ih =>
    by_cases ht : c.tag == tag
    · cases hf : findChild c key with
      | none =>
        simp only [scanMembersL, if_pos ht, hf]
        constructor
        · intro h; cases h
        · intro h
          obtain ⟨kc, hkc, _⟩ := h c (by simp) (by simpa using ht)
          rw [hkc] at hf
          cases hf
      | some kc =>
        simp only [scanMembersL, if_pos ht, hf]
        by_cases hp : pyEqTextVal kc.text value
        · rw [if_pos hp]
          constructor
          · intro h; cases h
          · intro h
            obtain ⟨kc2, hkc2, hp2⟩ := h c (by simp) (by simpa using ht)
            rw [hf] at hkc2
            cases hkc2
            rw [hp] at hp2
            cases hp2
        · rw [if_neg hp]
          constructor
          · intro h c' hc' ht'
            rcases List.mem_cons.mp hc' with rfl | hc'
            · exact ⟨kc, hf, by simpa using hp⟩
            · cases hsc : scanMembersL key value tag cs with
              | error e => rw [hsc] at h; cases h
              | ok o =>
                rw [hsc] at h
                cases o with
                | some l => cases h
                | none => exact (ih.mp hsc) c' hc' ht'
          · intro h
            rw [ih.mpr (fun c' hc' ht' => h c' (by simp [hc']) ht')]
            rfl
    · simp only [scanMembersL, if_neg ht]
      constructor
      · intro h c' hc' ht'
        rcases List.mem_cons.mp hc' with rfl | hc'
        · exact absurd (by simp [ht']) ht
        · cases hsc : scanMembersL key value tag cs with
          | error e => rw [hsc] at h; cases h
          | ok o =>
            rw [hsc] at h
            cases o with
            | some l => cases h
            | none => exact (ih.mp hsc) c' hc' ht'
      · intro h
        rw [ih.mpr (fun c' hc' ht' => h c' (by simp [hc']) ht')]
        rfl

theorem scanMembersL_found (key : String) (value : Val) (tag : String) :
    ∀ (cpre : List Node) (m : Node) (csuf : List Node) (kc : Node),
      m.tag = tag → findChild m key = some kc → pyEqTextVal kc.text value = true →
      (∀ q ∈ cpre, q.tag = tag →
        ∃ kq, findChild q key = some kq ∧ pyEqTextVal kq.text value = false) →
      scanMembersL key value tag (cpre ++ m :: csuf) = .ok (some (cpre ++ csuf)) := by
  intro cpre
  induction cpre with
  | nil =>
    intro m csuf kc hm hkc hp _
    rw [List.nil_append]
    simp [scanMembersL, hkc, hm, hp]
  | cons q qs ih =>
    intro m csuf kc hm hkc hp hpre
    rw [List.cons_append, List.cons_append]
    by_cases ht : q.tag == tag
    · obtain ⟨kq, hkq, hpq⟩ := hpre q (by simp) (by simpa using ht)
      simp only [scanMembersL, if_pos ht, hkq]
      rw [if_neg (by rw [hpq]; simp)]
      rw [ih m csuf kc hm hkc hp (fun r hr htr => hpre r (by simp [hr]) htr)]
      rfl
    · simp only [scanMembersL, if_neg ht]
      rw [ih m csuf kc hm hkc hp (fun r hr htr => hpre r (by simp [hr]) htr)]
      rfl

theorem scanMembersL_some_inv (key : String) (value : Val) (tag : String) :
    ∀ (cs l : List Node), scanMembersL key value tag cs = .ok (some l) →
      ∃ cpre m csuf, cs = cpre ++ m :: csuf ∧ l = cpre ++ csuf ∧ m.tag = tag := by
  intro cs
  induction cs with
  | nil => intro l h; simp [scanMembersL] at h
  | cons c cs ih =>
    intro l h
    by_cases ht : c.tag == tag
    · cases hf : findChild c key with
      | none =>
        simp only [scanMembersL, if_pos ht, hf] at h
        cases h
      | some kc =>
        simp only [scanMembersL, if_pos ht, hf] at h
        by_cases hp : pyEqTextVal kc.text value
        · rw [if_pos hp] at h
          cases h
          exact ⟨[], c, cs, by simp, by simp, by simpa using ht⟩
        · rw [if_neg hp] at h
          cases hsc : scanMembersL key value tag cs with
          | error e => rw [hsc] at h; cases h
          | ok o =>
            rw [hsc] at h
            cases o with
            | none => cases h
            | some l2 =>
              cases h
              obtain ⟨cpre, m, csuf, h1, h2, h3⟩ := ih l2 hsc
              exact ⟨c :: cpre, m, csuf, by simp [h1], by simp [h2], h3⟩
    · rw [scanMembersL, if_neg ht] at h
      cases hsc : scanMembersL key value tag cs with
      | error e => rw [hsc] at h; cases h
      | ok o =>
        rw [hsc] at h
        cases o with
        | none => cases h
        | some l2 =>
          cases h
          obtain ⟨cpre, m, csuf, h1, h2, h3⟩ := ih l2 hsc
          exact ⟨c :: cpre, m, csuf, by simp [h1], by simp [h2], h3⟩

theorem scanMembers_tag (key : String) (value : Val) (tag : String) (newElem : Node)
    (p p' : Node) (h : scanMembers key value tag newElem p = .ok (some p')) :
    p'.tag = p.tag := by
  unfold scanMembers at h
  cases hs : scanMembersL key value tag p.children with
  | error e => rw [hs] at h; cases h
  | ok o =>
    rw [hs] at h
    cases o with
    | none => cases h
    | some l =>
      cases h
      simp

theorem modAll_tag (f : Node → Node) (hf : ∀ m, (f m).tag = m.tag) :
    ∀ (path : List String) (n : Node), (modAll f path n).tag = n.tag := by
  intro path n
  cases path with
  | nil => exact hf n
  | cons t ts => simp [modAll]

theorem flatMap_congr_mem {α β : Type} (l : List α) (f g : α → List β)
    (h : ∀ x ∈ l, f x = g x) : l.flatMap f = l.flatMap g := by
  induction l with
  | nil => rfl
  | cons x xs ih =>
    rw [List.flatMap_cons, List.flatMap_cons, h x (by simp),
      ih (fun y hy => h y (by simp [hy]))]

theorem modAll_sel (f : Node → Node) (hf : ∀ m, (f m).tag = m.tag) :
    ∀ (path : List String) (n : Node),
      sel (modAll f path n) path = (sel n path).map f := by
  intro path
  induction path with
  | nil => intro n; simp [modAll, sel_nil]
  | cons t ts ih =>
    intro n
    rw [modAll, sel_cons, sel_cons, Node.children_withChildren]
    rw [List.filter_map]
    rw [List.filter_congr (by
      intro c _
      show ((if c.tag == t then modAll f ts c else c).tag == t) = (c.tag == t)
      by_cases hc : c.tag == t
      · rw [if_pos hc, modAll_tag f hf]
      · rw [if_neg hc])]
    rw [List.flatMap_map, List.map_flatMap]
    apply flatMap_congr_mem
    intro c hc
    have hct : (c.tag == t) = true := by
      have := List.mem_filter.mp hc
      exact this.2
    rw [if_pos hct]
    exact ih c

theorem replScanL_error (rec : Node → Except PyErr (Option Node)) (t : String) :
    ∀ (cs : List Node) (e : PyErr), replScanL rec t cs = .error e →
      ∃ c ∈ cs, c.tag = t ∧ rec c = .error e := by
  intro cs
  induction cs with
  | nil => intro e h; simp [replScanL] at h
  | cons c cs ih =>
    intro e h
    by_cases ht : c.tag == t
    · rw [replScanL, if_pos ht] at h
      cases hr : rec c with
      | error e' =>
        rw [hr] at h
        cases h
        exact ⟨c, by simp, by simpa using ht, hr⟩
      | ok o =>
        rw [hr] at h
        cases o with
        | some c' => cases h
        | none =>
          cases hm : replScanL rec t cs with
          | error e' =>
            rw [hm] at h
            cases h
            obtain ⟨c2, hc2, ht2, hr2⟩ := ih e hm
            exact ⟨c2, by simp [hc2], ht2, hr2⟩
          | ok o2 => rw [hm] at h; cases h
    · rw [replScanL, if_neg ht] at h
      cases hm : replScanL rec t cs with
      | error e' =>
        rw [hm] at h
        cases h
        obtain ⟨c2, hc2, ht2, hr2⟩ := ih e hm
        exact ⟨c2, by simp [hc2], ht2, hr2⟩
      | ok o2 => rw [hm] at h; cases h

theorem replWalk_error (scan : Node → Except PyErr (Option Node)) :
    ∀ (path : List String) (n : Node) (e : PyErr),
      replWalk scan path n = .error e → ∃ q ∈ sel n path, scan q = .error e := by
  intro path
  induction path with
  | nil =>
    intro n e h
    exact ⟨n, by simp [sel_nil], h⟩
  | cons t ts ih =>
    intro n e h
    simp only [replWalk] at h
    cases hm : replScanL (replWalk scan ts) t n.children with
    | ok o => rw [hm] at h; cases h
    | error e' =>
      rw [hm] at h
      cases h
      obtain ⟨c, hc, hct, hrc⟩ := replScanL_error _ t n.children e hm
      obtain ⟨q, hq, hsq⟩ := ih c e hrc
      refine ⟨q, ?_, hsq⟩
      rw [sel_cons]
      exact List.mem_flatMap.mpr ⟨c, List.mem_filter.mpr ⟨hc, by simp [hct]⟩, hq⟩

/-- Forward construction: with a single resolved parent on which the scan
succeeds, the walker rewrites exactly that parent. -/
theorem replWalk_single (scan : Node → Except PyErr (Option Node))
    (hs : ∀ m m', scan m = .ok (some m') → m'.tag = m.tag)
    (path : List String) (n p p' : Node) (hsel : sel n path = [p])
    (hp : scan p = .ok (some p')) :
    ∃ n', replWalk scan path n = .ok (some n') ∧ sel n' path = [p'] := by
  cases hw : replWalk scan path n with
  | error e =>
    obtain ⟨q, hq, hsq⟩ := replWalk_error scan path n e hw
    rw [hsel] at hq
    simp at hq
    subst hq
    rw [hp] at hsq
    cases hsq
  | ok o =>
    cases o with
    | none =>
      have := (replWalk_none_iff scan path n).mp hw p (by rw [hsel]; simp)
      rw [hp] at this
      cases this
    | some n' =>
      obtain ⟨pre, q, q', post, h1, h2, h3, h4⟩ := replWalk_some scan hs path n n' hw
      rw [hsel] at h1
      cases pre with
      | cons a as =>
        rw [List.cons_append] at h1
        injection h1 with h1a h1b
        exact absurd h1b.symm (by simp)
      | nil =>
        rw [List.nil_append] at h1
        injection h1 with h1a h1b
        subst h1a
        subst h1b
        rw [hp] at h3
        injection h3 with h3a
        injection h3a with h3b
        subst h3b
        refine ⟨n', rfl, ?_⟩
        simpa using h2

theorem xpathAbs_append (doc : Node) (P Q : List String) (hP : P ≠ []) :
    xpathAbs doc (P ++ Q) = (xpathAbs doc P).flatMap (fun m => sel m Q) := by
  cases P with
  | nil => exact absurd rfl hP
  | cons t ts =>
    rw [List.cons_append, xpathAbs, xpathAbs]
    by_cases ht : doc.tag == t
    · rw [if_pos ht, if_pos ht, sel_append]
    · rw [if_neg ht, if_neg ht]
      rfl

theorem replWalkAbs_none_iff (scan : Node → Except PyErr (Option Node))
    (path : List String) (doc : Node) :
    replWalkAbs scan path doc = .ok Option.none ↔
      ∀ p ∈ xpathAbs doc path, scan p = .ok Option.none := by
  cases path with
  | nil => simp [replWalkAbs, xpathAbs]
  | cons t ts =>
    rw [replWalkAbs, xpathAbs]
    by_cases ht : doc.tag == t
    · rw [if_pos ht, if_pos ht]
      exact replWalk_none_iff scan ts doc
    · rw [if_neg ht, if_neg ht]
      simp

theorem replWalkAbs_single (scan : Node → Except PyErr (Option Node))
    (hs : ∀ m m', scan m = .ok (some m') → m'.tag = m.tag)
    (path : List String) (doc p p' : Node) (hsel : xpathAbs doc path = [p])
    (hp : scan p = .ok (some p')) :
    ∃ d', replWalkAbs scan path doc = .ok (some d') ∧ xpathAbs d' path = [p'] := by
  cases path with
  | nil => simp [xpathAbs] at hsel
  | cons t ts =>
    rw [xpathAbs] at hsel
    by_cases ht : doc.tag == t
    · rw [if_pos ht] at hsel
      obtain ⟨d', h1, h2⟩ := replWalk_single scan hs ts doc p p' hsel hp
      refine ⟨d', ?_, ?_⟩
      · rw [replWalkAbs, if_pos ht]
        exact h1
      · rw [xpathAbs, if_pos ?_]
        · exact h2
        · rw [replWalk_tag scan hs ts doc d' h1]
          exact ht
    · rw [if_neg ht] at hsel
      cases hsel

theorem replWalkAbs_error (scan : Node → Except PyErr (Option Node))
    (path : List String) (doc : Node) (e : PyErr)
    (h : replWalkAbs scan path doc = .error e) :
    ∃ q ∈ xpathAbs doc path, scan q = .error e := by
  cases path with
  | nil => simp [replWalkAbs] at h
  | cons t ts =>
    rw [replWalkAbs] at h
    by_cases ht : doc.tag == t
    · rw [if_pos ht] at h
      obtain ⟨q, hq, hsq⟩ := replWalk_error scan ts doc e h
      refine ⟨q, ?_, hsq⟩
      rw [xpathAbs, if_pos ht]
      exact hq
    · rw [if_neg ht] at h
      cases h

theorem replWalkAbs_some (scan : Node → Except PyErr (Option Node))
    (hs : ∀ m m', scan m = .ok (some m') → m'.tag = m.tag)
    (path : List String) (doc d' : Node)
    (h : replWalkAbs scan path doc = .ok (some d')) :
    ∃ pre p p' post, xpathAbs doc path = pre ++ p :: post ∧
      xpathAbs d' path = pre ++ p' :: post ∧ scan p = .ok (some p') ∧
      ∀ q ∈ pre, scan q = .ok Option.none := by
  cases path with
  | nil => simp [replWalkAbs] at h
  | cons t ts =>
    rw [replWalkAbs] at h
    by_cases ht : doc.tag == t
    · rw [if_pos ht] at h
      obtain ⟨pre, p, p', post, h1, h2, h3, h4⟩ := replWalk_some scan hs ts doc d' h
      refine ⟨pre, p, p', post, ?_, ?_, h3, h4⟩
      · rw [xpathAbs, if_pos ht]; exact h1
      · rw [xpathAbs, if_pos ?_]
        · exact h2
        · rw [replWalk_tag scan hs ts doc d' h]
          exact ht
    · rw [if_neg ht] at h
      cases h

/-! ## Claim C6 — keyed removal (code bug) -/

/-- Concrete document for C6: two users and a counter. -/
def sampleDocC6 : Node :=
  Node.mk "pfsense" [] Option.none
    [Node.mk "system" [] Option.none
      [Node.mk "user" [] Option.none [Node.mk "name" [] (some "alice") []],
       Node.mk "user" [] Option.none [Node.mk "name" [] (some "bob") []],
       Node.mk "nextuid" [] (some "2000") []]]

/-- **C6 (bug evidence).**  With `key`/`value` supplied,
`remove_config_element` removes nothing — here the collection contains a
member whose `name` child is exactly `"alice"`, yet the keyed call returns
the document unchanged, because the membership test `key in n` compares the
string against child *elements* (always false) and the `n["key"]` lookup
behind it indexes with the literal string `"key"`.  The unkeyed form works as
documented: it removes every member (and nothing else). -/
theorem claim_C6_keyed_removal_dead :
    remove_config_element sampleDocC6 user_node (some "name") (some "alice") =
      .ok sampleDocC6 ∧
    ∃ d', remove_config_element sampleDocC6 user_node Option.none Option.none = .ok d' ∧
      xpathAbs d' user_node = [] ∧
      xpathAbs d' next_uid_node = [Node.mk "nextuid" [] (some "2000") []] := by
  refine ⟨rfl, ⟨_, rfl, rfl, rfl⟩⟩

/-! ## Claim C3 — replace-or-insert -/

/-- Concrete document for the C3 counterexample: the single member of the
user collection has no `name` child. -/
def sampleDocC3 : Node :=
  Node.mk "pfsense" [] Option.none
    [Node.mk "system" [] Option.none
      [Node.mk "user" [] Option.none [Node.mk "uid" [] (some "2000") []]]]

def sampleRecC3 : Val :=
  .dict [("name", .str "alice"), ("uid", .str "2001"), ("scope", .str "user")]

/-- **C3 (counterexample).**  The claim says that whenever *no member has the
key field equal to the key value*, `replace_config_element` produces exactly
the same resulting document as `append_config_element`.  Here no member has a
`name` field at all (so none is equal to `"alice"`), yet replace raises
`AttributeError` (`n.find(key)` is `None` and `.text` fails) while append
succeeds — the two are not the same. -/
theorem claim_C3_counterexample :
    replace_config_element sampleDocC3 user_node "name" (.str "alice") sampleRecC3 =
      .error .attributeError ∧
    append_config_element sampleDocC3 user_node sampleRecC3 =
      .ok (Node.mk "pfsense" [] Option.none
        [Node.mk "system" [] Option.none
          [Node.mk "user" [] Option.none [Node.mk "uid" [] (some "2000") []],
           dictToElement "user" sampleRecC3]]) := by
  exact ⟨rfl, rfl⟩

/-- Unfolding of `replace_config_element` on a path of depth at least 2. -/
theorem replace_config_element_deep (doc : Node) (t : String) (ts : List String)
    (tag key : String) (value : Val) (rec : Val) :
    replace_config_element doc ((t :: ts) ++ [tag]) key value rec =
      match replWalkAbs (scanMembers key value tag (dictToElement tag rec))
          (t :: ts) doc with
      | .error e => .error e
      | .ok (some d) => .ok d
      | .ok Option.none => append_config_element doc ((t :: ts) ++ [tag]) rec := by
  obtain ⟨u, us, hus⟩ : ∃ u us, ts ++ [tag] = u :: us := by
    cases h : ts ++ [tag] with
    | nil => simp at h
    | cons u us => exact ⟨u, us, rfl⟩
  have hpath : (t :: ts) ++ [tag] = t :: u :: us := by rw [List.cons_append, hus]
  have h1 : (t :: u :: us).getLastD "" = tag := by
    rw [← hpath]
    exact List.getLastD_concat _ _ _
  have h2 : (t :: u :: us).dropLast = t :: ts := by
    rw [← hpath]
    exact List.dropLast_concat
  rw [hpath]
  show (match replWalkAbs (scanMembers key value ((t :: u :: us).getLastD "")
      (dictToElement ((t :: u :: us).getLastD "") rec)) ((t :: u :: us).dropLast) doc with
    | .error e => (.error e : Except PyErr Node)
    | .ok (some d) => .ok d
    | .ok Option.none => append_config_element doc (t :: u :: us) rec) = _
  rw [h1, h2]

/-- Replace with a match under a single resolved parent: the first matching
member is removed and the converted record appended as the parent's last
child. -/
theorem replace_single_found (doc : Node) (P : List String) (tag key : String)
    (value : Val) (rec : Val) (p : Node) (cpre : List Node) (m : Node)
    (csuf : List Node) (kc : Node)
    (hP : xpathAbs doc P = [p]) (hchild : p.children = cpre ++ m :: csuf)
    (hm : m.tag = tag) (hkc : findChild m key = some kc)
    (htrue : pyEqTextVal kc.text value = true)
    (hpre : ∀ q ∈ cpre, q.tag = tag → ∃ kq, findChild q key = some kq ∧
      pyEqTextVal kq.text value = false) :
    ∃ d', replace_config_element doc (P ++ [tag]) key value rec = .ok d' ∧
      xpathAbs d' P =
        [p.withChildren ((cpre ++ csuf) ++ [dictToElement tag rec])] := by
  cases P with
  | nil => simp [xpathAbs] at hP
  | cons t ts =>
    rw [replace_config_element_deep]
    have hscanp : scanMembers key value tag (dictToElement tag rec) p =
        .ok (some (p.withChildren ((cpre ++ csuf) ++ [dictToElement tag rec]))) := by
      unfold scanMembers
      rw [hchild, scanMembersL_found key value tag cpre m csuf kc hm hkc htrue hpre]
      rfl
    obtain ⟨d', hw, hx⟩ := replWalkAbs_single _
      (fun a b hab => scanMembers_tag _ _ _ _ a b hab) (t :: ts) doc p _ hP hscanp
    rw [hw]
    exact ⟨d', rfl, hx⟩

/-- **C3 (amended).**  Replace-or-insert, provided every member scanned has
the key field: (i) if every member of the resolved collection has a `key`
child and none of their texts equals the value, `replace_config_element`
produces exactly the same result as `append_config_element` (a member
*without* the key field would instead abort the replace with
`AttributeError`, see the counterexample); (ii) if the (single) parent's
children contain a matching member — every earlier member bearing a
non-matching key field — the first matching member is removed and the new
record is appended as the *last child of the parent*, so insertion order is
not preserved across a replace. -/
theorem claim_C3_replace_or_insert (doc : Node) (P : List String) (tag key : String)
    (value : Val) (rec : Val) :
    ((∀ m ∈ xpathAbs doc (P ++ [tag]), ∃ kc, findChild m key = some kc ∧
        pyEqTextVal kc.text value = false) →
      replace_config_element doc (P ++ [tag]) key value rec =
        append_config_element doc (P ++ [tag]) rec) ∧
    (∀ p cpre m csuf kc, xpathAbs doc P = [p] →
      p.children = cpre ++ m :: csuf → m.tag = tag →
      findChild m key = some kc → pyEqTextVal kc.text value = true →
      (∀ q ∈ cpre, q.tag = tag → ∃ kq, findChild q key = some kq ∧
        pyEqTextVal kq.text value = false) →
      ∃ d', replace_config_element doc (P ++ [tag]) key value rec = .ok d' ∧
        xpathAbs d' P =
          [p.withChildren ((cpre ++ csuf) ++ [dictToElement tag rec])]) := by
  constructor
  · intro hall
    cases P with
    | nil =>
      rw [List.nil_append] at hall ⊢
      show replace_config_element doc [tag] key value rec = _
      rw [replace_config_element]
      by_cases ht : doc.tag == tag
      · rw [if_pos ht]
        have hmem : doc ∈ xpathAbs doc [tag] := by
          rw [xpathAbs, if_pos ht, sel_nil]
          simp
        obtain ⟨kc, hkc, hfalse⟩ := hall doc hmem
        simp only [hkc]
        rw [if_neg (by simp [hfalse])]
      · rw [if_neg ht]
    | cons t ts =>
      rw [replace_config_element_deep]
      rw [(replWalkAbs_none_iff _ (t :: ts) doc).mpr ?_]
      · intro p hp
        unfold scanMembers
        rw [(scanMembersL_none_iff key value tag p.children).mpr ?_]
        · rfl
        · intro c hc hct
          apply hall c
          rw [xpathAbs_append doc (t :: ts) [tag] (by simp)]
          exact List.mem_flatMap.mpr ⟨p, hp,
            by rw [sel_single]; exact List.mem_filter.mpr ⟨hc, by simp [hct]⟩⟩
  · intro p cpre m csuf kc hP hchild hm hkc htrue hpre
    exact replace_single_found doc P tag key value rec p cpre m csuf kc hP hchild hm
      hkc htrue hpre

/-- Well-formed document for the C3 witness: one user named bob. -/
def sampleDocC3b : Node :=
  Node.mk "pfsense" [] Option.none
    [Node.mk "system" [] Option.none
      [Node.mk "user" [] Option.none [Node.mk "name" [] (some "bob") []]]]

theorem claim_C3_replace_or_insert_witness :
    (replace_config_element sampleDocC3b (["pfsense", "system"] ++ ["user"]) "name"
        (.str "alice") sampleRecC3 =
      append_config_element sampleDocC3b (["pfsense", "system"] ++ ["user"]) sampleRecC3) ∧
    (∃ d', replace_config_element sampleDocC3b (["pfsense", "system"] ++ ["user"]) "name"
        (.str "bob") sampleRecC3 = .ok d' ∧
      xpathAbs d' ["pfsense", "system"] =
        [(Node.mk "system" [] Option.none
            [Node.mk "user" [] Option.none [Node.mk "name" [] (some "bob") []]]).withChildren
          (([] ++ []) ++ [dictToElement "user" sampleRecC3])]) := by
  constructor
  · apply (claim_C3_replace_or_insert sampleDocC3b ["pfsense", "system"] "user" "name"
      (.str "alice") sampleRecC3).1
    intro m hm
    have hm' : m = Node.mk "user" [] Option.none [Node.mk "name" [] (some "bob") []] := by
      simpa [sampleDocC3b, xpathAbs, sel_cons, sel_nil] using hm
    subst hm'
    exact ⟨Node.mk "name" [] (some "bob") [], rfl, by decide⟩
  · exact (claim_C3_replace_or_insert sampleDocC3b ["pfsense", "system"] "user" "name"
      (.str "bob") sampleRecC3).2
      (Node.mk "system" [] Option.none
        [Node.mk "user" [] Option.none [Node.mk "name" [] (some "bob") []]])
      [] (Node.mk "user" [] Option.none [Node.mk "name" [] (some "bob") []]) []
      (Node.mk "name" [] (some "bob") []) rfl rfl rfl rfl (by decide) (by simp)

/-! ## Dict-update lemmas (shared by the provisioner claims) -/

theorem dictFind_dictSet_self (d : List (String × Val)) (k : String) (v : Val) :
    dictFind (dictSet d k v) k = some v := by
  induction d with
  | nil => simp [dictSet, dictFind]
  | cons p rest ih =>
    obtain ⟨k', w⟩ := p
    by_cases hk : k' = k
    · simp [dictSet, if_pos hk, dictFind, hk]
    · simp [dictSet, if_neg hk, dictFind, if_neg hk, ih]

theorem dictFind_dictSet_ne (d : List (String × Val)) (k k' : String) (v : Val)
    (h : k' ≠ k) : dictFind (dictSet d k v) k' = dictFind d k' := by
  have h' : ¬ k = k' := fun he => h he.symm
  induction d with
  | nil => simp [dictSet, dictFind, h']
  | cons p rest ih =>
    obtain ⟨k'', w⟩ := p
    by_cases hk : k'' = k
    · subst hk
      rw [dictSet, if_pos rfl, dictFind, if_neg h', dictFind, if_neg h']
    · rw [dictSet, if_neg hk, dictFind, dictFind]
      by_cases hk2 : k'' = k'
      · rw [if_pos hk2, if_pos hk2]
      · rw [if_neg hk2, if_neg hk2, ih]

theorem dictHasKey_dictSet (d : List (String × Val)) (k : String) (v : Val) :
    dictHasKey (dictSet d k v) k = true := by
  simp [dictHasKey, dictFind_dictSet_self]

theorem dictErase_dictSet (d : List (String × Val)) (k : String) (v : Val) :
    dictErase (dictSet d k v) k = dictErase d k := by
  induction d with
  | nil => simp [dictSet, dictErase]
  | cons p rest ih =>
    obtain ⟨k', w⟩ := p
    by_cases hk : k' = k
    · simp [dictSet, if_pos hk, dictErase, hk]
    · simp [dictSet, if_neg hk, dictErase, if_neg hk, ih]

theorem keys_dictErase (d : List (String × Val)) (k : String) :
    ∀ p ∈ dictErase d k, ∃ w, (p.1, w) ∈ d := by
  induction d with
  | nil => simp [dictErase]
  | cons q rest ih =>
    obtain ⟨k', w⟩ := q
    intro p hp
    by_cases hk : k' = k
    · rw [dictErase, if_pos hk] at hp
      exact ⟨p.2, by simp [hp]⟩
    · rw [dictErase, if_neg hk] at hp
      rcases List.mem_cons.1 hp with h | h
      · exact ⟨w, by simp [h]⟩
      · obtain ⟨w', hw'⟩ := ih p h
        exact ⟨w', List.mem_cons_of_mem _ hw'⟩

theorem dictFind_dictErase_ne (d : List (String × Val)) (k k' : String)
    (h : k' ≠ k) : dictFind (dictErase d k) k' = dictFind d k' := by
  have h' : ¬ k = k' := fun he => h he.symm
  induction d with
  | nil => rw [dictErase]
  | cons p rest ih =>
    obtain ⟨k'', w⟩ := p
    by_cases hk : k'' = k
    · subst hk
      rw [dictErase, if_pos rfl, dictFind, if_neg h']
    · rw [dictErase, if_neg hk, dictFind, dictFind]
      by_cases hk2 : k'' = k'
      · rw [if_pos hk2, if_pos hk2]
      · rw [if_neg hk2, if_neg hk2, ih]

theorem dictFind_dictErase_self (d : List (String × Val)) (k : String)
    (hd : keysDistinct d = true) : dictFind (dictErase d k) k = Option.none := by
  induction d with
  | nil => simp [dictErase, dictFind]
  | cons p rest ih =>
    obtain ⟨k', w⟩ := p
    simp only [keysDistinct, Bool.and_eq_true, List.all_eq_true] at hd
    by_cases hk : k' = k
    · subst hk
      rw [dictErase, if_pos rfl]
      cases hf : dictFind rest k' with
      | none => rfl
      | some v =>
        exfalso
        have hmem : ∃ q ∈ rest, q.1 = k' := by
          clear hd ih
          induction rest with
          | nil => simp [dictFind] at hf
          | cons q qs ihq =>
            obtain ⟨k2, v2⟩ := q
            rw [dictFind] at hf
            by_cases h2 : k2 = k'
            · exact ⟨(k2, v2), by simp, h2⟩
            · rw [if_neg h2] at hf
              obtain ⟨q0, hq0, hq1⟩ := ihq hf
              exact ⟨q0, List.mem_cons_of_mem _ hq0, hq1⟩
        obtain ⟨q, hq, hqk⟩ := hmem
        have := hd.1 q hq
        simp [hqk] at this
    · rw [dictErase, if_neg hk, dictFind, if_neg hk]
      exact ih hd.2

theorem keysDistinct_dictErase (d : List (String × Val)) (k : String)
    (hd : keysDistinct d = true) : keysDistinct (dictErase d k) = true := by
  induction d with
  | nil => simp [dictErase, keysDistinct]
  | cons p rest ih =>
    obtain ⟨k', w⟩ := p
    simp only [keysDistinct, Bool.and_eq_true, List.all_eq_true] at hd
    by_cases hk : k' = k
    · rw [dictErase, if_pos hk]
      exact hd.2
    · rw [dictErase, if_neg hk]
      simp only [keysDistinct, Bool.and_eq_true, List.all_eq_true]
      refine ⟨?_, ih hd.2⟩
      intro q hq
      obtain ⟨w', hw'⟩ := keys_dictErase rest k q hq
      have := hd.1 (q.1, w') hw'
      simpa using this

theorem goodEntries_dictErase (d : List (String × Val)) (k : String)
    (hd : goodEntries d = true) : goodEntries (dictErase d k) = true := by
  induction d with
  | nil => simp [dictErase, goodEntries]
  | cons p rest ih =>
    obtain ⟨k', w⟩ := p
    rw [goodEntries] at hd
    simp only [Bool.and_eq_true] at hd
    by_cases hk : k' = k
    · rw [dictErase, if_pos hk]
      exact hd.2
    · rw [dictErase, if_neg hk, goodEntries]
      simp only [Bool.and_eq_true]
      exact ⟨hd.1, ih hd.2⟩

theorem normEntries_dictErase (d : List (String × Val)) (k : String) :
    normEntries (dictErase d k) = dictErase (normEntries d) k := by
  induction d with
  | nil => simp [dictErase, normEntries_nil]
  | cons p rest ih =>
    obtain ⟨k', w⟩ := p
    by_cases hk : k' = k
    · rw [dictErase, if_pos hk, normEntries_cons, dictErase, if_pos hk]
    · rw [dictErase, if_neg hk, normEntries_cons, normEntries_cons, dictErase,
        if_neg hk, ih]

theorem dictSet_keys_sub (d : List (String × Val)) (k : String) (v : Val) :
    ∀ p ∈ dictSet d k v, p.1 = k ∨ ∃ w, (p.1, w) ∈ d := by
  induction d with
  | nil =>
    intro p hp
    rw [dictSet] at hp
    rcases List.mem_singleton.1 hp with h
    exact Or.inl (by simp [h])
  | cons q rest ih =>
    obtain ⟨k', w⟩ := q
    intro p hp
    by_cases hk : k' = k
    · rw [dictSet, if_pos hk] at hp
      rcases List.mem_cons.1 hp with h | h
      · exact Or.inl (by simp [h, hk])
      · exact Or.inr ⟨p.2, List.mem_cons_of_mem _ (by simp [h])⟩
    · rw [dictSet, if_neg hk] at hp
      rcases List.mem_cons.1 hp with h | h
      · exact Or.inr ⟨w, by simp [h]⟩
      · rcases ih p h with h2 | ⟨w', hw'⟩
        · exact Or.inl h2
        · exact Or.inr ⟨w', List.mem_cons_of_mem _ hw'⟩

theorem keysDistinct_dictSet (d : List (String × Val)) (k : String) (v : Val)
    (hd : keysDistinct d = true) : keysDistinct (dictSet d k v) = true := by
  induction d with
  | nil => simp [dictSet, keysDistinct]
  | cons q rest ih =>
    obtain ⟨k', w⟩ := q
    simp only [keysDistinct, Bool.and_eq_true, List.all_eq_true] at hd
    by_cases hk : k' = k
    · rw [dictSet, if_pos hk]
      simp only [keysDistinct, Bool.and_eq_true, List.all_eq_true]
      exact ⟨hd.1, hd.2⟩
    · rw [dictSet, if_neg hk]
      simp only [keysDistinct, Bool.and_eq_true, List.all_eq_true]
      refine ⟨?_, ih hd.2⟩
      intro p hp
      rcases dictSet_keys_sub rest k v p hp with h | ⟨w', hw'⟩
      · have hkk : ¬ k = k' := fun he => hk he.symm
        simp [h, hkk]
      · have := hd.1 (p.1, w') hw'
        simpa using this

theorem goodEntries_dictSet (d : List (String × Val)) (k : String) (v : Val)
    (hv : goodEntry v = true) (hd : goodEntries d = true) :
    goodEntries (dictSet d k v) = true := by
  induction d with
  | nil => simp [dictSet, goodEntries, hv]
  | cons q rest ih =>
    obtain ⟨k', w⟩ := q
    rw [goodEntries] at hd
    simp only [Bool.and_eq_true] at hd
    by_cases hk : k' = k
    · rw [dictSet, if_pos hk, goodEntries]
      simp only [Bool.and_eq_true]
      exact ⟨hv, hd.2⟩
    · rw [dictSet, if_neg hk, goodEntries]
      simp only [Bool.and_eq_true]
      exact ⟨hd.1, ih hd.2⟩

theorem dictSet_ne_nil (d : List (String × Val)) (k : String) (v : Val) :
    dictSet d k v ≠ [] := by
  cases d with
  | nil => simp [dictSet]
  | cons q rest =>
    obtain ⟨k', w⟩ := q
    by_cases hk : k' = k
    · rw [dictSet, if_pos hk]; simp
    · rw [dictSet, if_neg hk]; simp

theorem goodDict_dictSet (d : List (String × Val)) (k : String) (v : Val)
    (hv : goodEntry v = true) (hd : goodDict d = true) :
    goodDict (dictSet d k v) = true := by
  simp only [goodDict, Bool.and_eq_true] at hd ⊢
  refine ⟨⟨?_, keysDistinct_dictSet d k v hd.1.2⟩, goodEntries_dictSet d k v hv hd.2⟩
  have := dictSet_ne_nil d k v
  cases hds : dictSet d k v with
  | nil => exact absurd hds this
  | cons p rest => simp

theorem goodDict_dictErase (d : List (String × Val)) (k : String)
    (hd : goodDict d = true) (hne : dictErase d k ≠ []) :
    goodDict (dictErase d k) = true := by
  simp only [goodDict, Bool.and_eq_true] at hd ⊢
  refine ⟨⟨?_, keysDistinct_dictErase d k hd.1.2⟩, goodEntries_dictErase d k hd.2⟩
  cases hds : dictErase d k with
  | nil => exact absurd hds hne
  | cons p rest => simp

theorem normEntries_dictSet (d : List (String × Val)) (k : String) (v : Val) :
    normEntries (dictSet d k v) = dictSet (normEntries d) k (normVal v) := by
  induction d with
  | nil => rw [dictSet, normEntries_cons, normEntries_nil, dictSet]
  | cons q rest ih =>
    obtain ⟨k', w⟩ := q
    by_cases hk : k' = k
    · rw [dictSet, if_pos hk, normEntries_cons, normEntries_cons, dictSet, if_pos hk]
    · rw [dictSet, if_neg hk, normEntries_cons, normEntries_cons, dictSet,
        if_neg hk, ih]

theorem normEntries_fixed_entry (d : List (String × Val)) (k : String) (v : Val)
    (hd : normEntries d = d) (hv : dictFind d k = some v) : normVal v = v := by
  induction d with
  | nil => simp [dictFind] at hv
  | cons q rest ih =>
    obtain ⟨k', w⟩ := q
    rw [normEntries_cons] at hd
    have h1 : normVal w = w := congrArg (fun p => p.2) (List.head_eq_of_cons_eq hd)
    have h2 : normEntries rest = rest := List.tail_eq_of_cons_eq hd
    rw [dictFind] at hv
    by_cases hk : k' = k
    · rw [if_pos hk] at hv
      cases hv
      exact h1
    · rw [if_neg hk] at hv
      exact ih h2 hv

/-! ## Locating a user record by name (shared machinery for C2, C8, C9, C10) -/

theorem pyEqTextVal_str_iff (txt : Option String) (v : String) :
    pyEqTextVal txt (.str v) = true ↔ txt = some v := by
  cases txt with
  | none => simp [pyEqTextVal]
  | some s => simp [pyEqTextVal]

theorem pyEqTextVal_str_ne (txt : Option String) (v : String) (h : txt ≠ some v) :
    pyEqTextVal txt (.str v) = false := by
  cases he : pyEqTextVal txt (.str v) with
  | false => rfl
  | true => exact absurd ((pyEqTextVal_str_iff txt v).1 he) h

theorem exceptBind_ok {α β : Type} (a : α) (f : α → Except PyErr β) :
    (Except.ok a : Except PyErr α) >>= f = f a := rfl

theorem exceptBind_error {α β : Type} (e : PyErr) (f : α → Except PyErr β) :
    (Except.error e : Except PyErr α) >>= f = .error e := rfl

theorem exceptPure {α : Type} (a : α) : (pure a : Except PyErr α) = .ok a := rfl

/-- Every child generated for the dict entry `(k, v)` carries tag `k`. -/
theorem entryChildren_tags (k : String) (v : Val) :
    ∀ c ∈ entryChildren k v, c.tag = k := by
  cases v with
  | none => intro c hc; rw [entryChildren] at hc; simp at hc; simp [hc]
  | str s => intro c hc; rw [entryChildren] at hc; simp at hc; simp [hc]
  | dict d =>
    intro c hc
    rw [entryChildren] at hc
    simp at hc
    rw [hc, dictToElement_tag]
  | list xs =>
    intro c hc
    rw [entryChildren] at hc
    induction xs with
    | nil => rw [itemsToChildren] at hc; simp at hc
    | cons x rest ih =>
      rw [itemsToChildren_cons] at hc
      rcases List.mem_cons.1 hc with h | h
      · rw [h, dictToElement_tag]
      · exact ih h

/-- `element.find(key)` on a rebuilt dict element hits the leaf produced by
the first entry stored under `key`, provided that entry holds a string. -/
theorem findChild_dictToElement_str (t : String) (d : List (String × Val))
    (k s : String) (h : dictFind d k = some (.str s)) :
    findChild (dictToElement t (.dict d)) k = some (Node.mk k [] (some s) []) := by
  rw [dictToElement_dict]
  unfold findChild
  simp only [Node.children_mk]
  induction d with
  | nil => simp [dictFind] at h
  | cons q rest ih =>
    obtain ⟨k', v⟩ := q
    rw [entriesToChildren_cons, List.find?_append]
    rw [dictFind] at h
    by_cases hk : k' = k
    · subst hk
      rw [if_pos rfl] at h
      cases h
      rw [entryChildren]
      simp
    · rw [if_neg hk] at h
      have hnone : (entryChildren k' v).find? (fun c => c.tag == k) = Option.none := by
        rw [List.find?_eq_none]
        intro c hc
        have := entryChildren_tags k' v c hc
        simp [this, hk]
      rw [hnone, Option.none_or]
      exact ih h

/-- Splitting the user collection read around one distinguished user element
under a single resolved `system` parent. -/
theorem get_config_elements_split (doc p : Node) (cpre : List Node) (u : Node)
    (csuf : List Node)
    (hP : xpathAbs doc ["pfsense", "system"] = [p])
    (hchild : p.children = cpre ++ u :: csuf) (hutag : u.tag = "user") :
    get_config_elements doc user_node =
      (cpre.filter (fun c => c.tag == "user")).map elementToDict ++
      elementToDict u ::
      (csuf.filter (fun c => c.tag == "user")).map elementToDict := by
  unfold get_config_elements
  have huser : user_node = ["pfsense", "system"] ++ ["user"] := rfl
  rw [huser, xpathAbs_append doc _ _ (by simp), hP]
  simp only [List.flatMap_cons, List.flatMap_nil, List.append_nil]
  rw [sel_single, hchild, List.filter_append, List.filter_cons,
    if_pos (by simp [hutag])]
  simp

theorem findRecBy_skip (recs rest : List Val) (nm : String)
    (h : ∀ r ∈ recs, ∃ nv, pyGetItem r "name" = .ok nv ∧ pyEq nv (.str nm) = false) :
    findRecBy (recs ++ rest) (.str nm) = findRecBy rest (.str nm) := by
  induction recs with
  | nil => rw [List.nil_append]
  | cons r rs ih =>
    obtain ⟨nv, h1, h2⟩ := h r (by simp)
    rw [List.cons_append, findRecBy, h1, exceptBind_ok, if_neg (by simp [h2])]
    exact ih (fun r2 hr2 => h r2 (List.mem_cons_of_mem _ hr2))

theorem findRecBy_hit (ru : List (String × Val)) (rest : List Val) (nm : String)
    (h : dictFind ru "name" = some (.str nm)) :
    findRecBy (.dict ru :: rest) (.str nm) = .ok (some (.dict ru)) := by
  rw [findRecBy]
  have : pyGetItem (.dict ru) "name" = .ok (.str nm) := by
    rw [pyGetItem, h]
  rw [this, exceptBind_ok, if_pos (by simp [pyEq])]
  rfl

/-- The conditions a *different* user element must satisfy for the scans in
`set_passwd` / `lock_passwd` / `unlock_passwd` to pass over it: its record is
a dict whose `name` value is readable and not `==` the target name, and its
`name` child element exists with text different from the target name. -/
def otherUserOK (nm : String) (w : Node) : Prop :=
  w.tag = "user" →
    (∃ dw nv, elementToDict w = Val.dict dw ∧ dictFind dw "name" = some nv ∧
      pyEq nv (Val.str nm) = false) ∧
    (∃ kw, findChild w "name" = some kw ∧ kw.text ≠ some nm)

theorem findRecBy_users_split (cpre : List Node) (u : Node) (csuf : List Node)
    (ru : List (String × Val)) (nm : String)
    (hrec : elementToDict u = .dict ru)
    (hnm : dictFind ru "name" = some (.str nm))
    (hpre : ∀ w ∈ cpre, otherUserOK nm w) :
    findRecBy ((cpre.filter (fun c => c.tag == "user")).map elementToDict ++
      elementToDict u ::
      (csuf.filter (fun c => c.tag == "user")).map elementToDict)
      (.str nm) = .ok (some (.dict ru)) := by
  rw [findRecBy_skip, hrec, findRecBy_hit ru _ nm hnm]
  intro r hr
  simp only [List.mem_map, List.mem_filter] at hr
  obtain ⟨w, ⟨hw, htag⟩, rfl⟩ := hr
  obtain ⟨⟨dw, nv, h1, h2, h3⟩, _⟩ := hpre w hw (by simpa using htag)
  refine ⟨nv, ?_, h3⟩
  rw [h1, pyGetItem, h2]

/-- Locating a user by name under a single resolved `system` parent: the
record scan returns the user's record, and replacing by name succeeds,
removing the user element and appending the rebuilt record as the last
child of `system`. -/
theorem locate_replace_flow (doc p : Node) (cpre : List Node) (u : Node)
    (csuf : List Node) (ru : List (String × Val)) (nm : String) (nc : Node)
    (rv : Val)
    (hP : xpathAbs doc ["pfsense", "system"] = [p])
    (hchild : p.children = cpre ++ u :: csuf)
    (hutag : u.tag = "user")
    (hrec : elementToDict u = .dict ru)
    (hnm : dictFind ru "name" = some (.str nm))
    (hfc : findChild u "name" = some nc) (hnc : nc.text = some nm)
    (hpre : ∀ w ∈ cpre, otherUserOK nm w) :
    findRecBy (get_config_elements doc user_node) (.str nm) =
      .ok (some (.dict ru)) ∧
    ∃ d', replace_config_element doc user_node "name" (.str nm) rv = .ok d' ∧
      xpathAbs d' ["pfsense", "system"] =
        [p.withChildren ((cpre ++ csuf) ++ [dictToElement "user" rv])] := by
  constructor
  · rw [get_config_elements_split doc p cpre u csuf hP hchild hutag]
    exact findRecBy_users_split cpre u csuf ru nm hrec hnm hpre
  · have huser : user_node = ["pfsense", "system"] ++ ["user"] := rfl
    rw [huser]
    apply replace_single_found doc ["pfsense", "system"] "user" "name" (.str nm)
      rv p cpre u csuf nc hP hchild hutag hfc
    · rw [hnc]
      simp [pyEqTextVal]
    · intro q hq htq
      obtain ⟨_, kq, hkq, hqt⟩ := hpre q hq htq
      exact ⟨kq, hkq, pyEqTextVal_str_ne kq.text nm hqt⟩

/-- `lock_passwd` under a located user: returns success and rewrites the
user record with the `disabled` marker set to the empty string. -/
theorem lock_passwd_ok (doc p : Node) (cpre : List Node) (u : Node)
    (csuf : List Node) (ru : List (String × Val)) (nm : String) (nc : Node)
    (hname : nm ≠ "")
    (hP : xpathAbs doc ["pfsense", "system"] = [p])
    (hchild : p.children = cpre ++ u :: csuf)
    (hutag : u.tag = "user")
    (hrec : elementToDict u = .dict ru)
    (hnm : dictFind ru "name" = some (.str nm))
    (hfc : findChild u "name" = some nc) (hnc : nc.text = some nm)
    (hpre : ∀ w ∈ cpre, otherUserOK nm w) :
    ∃ d', lock_passwd doc nm = .ok (d', some true) ∧
      xpathAbs d' ["pfsense", "system"] =
        [p.withChildren ((cpre ++ csuf) ++
          [dictToElement "user" (.dict (dictSet ru "disabled" (.str "")))])] := by
  obtain ⟨hfind, d', hrep, hx⟩ := locate_replace_flow doc p cpre u csuf ru nm nc
    (.dict (dictSet ru "disabled" (.str ""))) hP hchild hutag hrec hnm hfc hnc hpre
  refine ⟨d', ?_, hx⟩
  simp only [lock_passwd, if_neg hname, hfind, exceptBind_ok, pySetItem, hrep,
    exceptPure, sync_users_groups]

/-- `unlock_passwd` under a located user whose record carries the `disabled`
key: returns success and rewrites the user record with the marker removed. -/
theorem unlock_passwd_ok (doc p : Node) (cpre : List Node) (u : Node)
    (csuf : List Node) (ru : List (String × Val)) (nm : String) (nc : Node)
    (hname : nm ≠ "")
    (hP : xpathAbs doc ["pfsense", "system"] = [p])
    (hchild : p.children = cpre ++ u :: csuf)
    (hutag : u.tag = "user")
    (hrec : elementToDict u = .dict ru)
    (hnm : dictFind ru "name" = some (.str nm))
    (hfc : findChild u "name" = some nc) (hnc : nc.text = some nm)
    (hpre : ∀ w ∈ cpre, otherUserOK nm w)
    (hdis : dictHasKey ru "disabled" = true) :
    ∃ d', unlock_passwd doc nm = .ok (d', some true) ∧
      xpathAbs d' ["pfsense", "system"] =
        [p.withChildren ((cpre ++ csuf) ++
          [dictToElement "user" (.dict (dictErase ru "disabled"))])] := by
  obtain ⟨hfind, d', hrep, hx⟩ := locate_replace_flow doc p cpre u csuf ru nm nc
    (.dict (dictErase ru "disabled")) hP hchild hutag hrec hnm hfc hnc hpre
  refine ⟨d', ?_, hx⟩
  simp only [unlock_passwd, if_neg hname, hfind, exceptBind_ok, pyDelItem,
    hdis, eq_self_iff_true, if_true, exceptBind_ok, hrep, exceptPure,
    sync_users_groups]

/-- `unlock_passwd` under a located user whose record has no `disabled` key:
the `del node["disabled"]` raises `KeyError`. -/
theorem unlock_passwd_keyError (doc p : Node) (cpre : List Node) (u : Node)
    (csuf : List Node) (ru : List (String × Val)) (nm : String) (nc : Node)
    (hname : nm ≠ "")
    (hP : xpathAbs doc ["pfsense", "system"] = [p])
    (hchild : p.children = cpre ++ u :: csuf)
    (hutag : u.tag = "user")
    (hrec : elementToDict u = .dict ru)
    (hnm : dictFind ru "name" = some (.str nm))
    (hfc : findChild u "name" = some nc) (hnc : nc.text = some nm)
    (hpre : ∀ w ∈ cpre, otherUserOK nm w)
    (hdis : dictHasKey ru "disabled" = false) :
    unlock_passwd doc nm = .error .keyError := by
  obtain ⟨hfind, _, _, _⟩ := locate_replace_flow doc p cpre u csuf ru nm nc
    Val.none hP hchild hutag hrec hnm hfc hnc hpre
  simp only [unlock_passwd, if_neg hname, hfind, exceptBind_ok, pyDelItem,
    hdis, Bool.false_eq_true, if_false, exceptPure, exceptBind_ok,
    exceptBind_error]

/-- Re-reading a rebuilt record element gives the normalized entries. -/
theorem elementToDict_userElem (t : String) (d : List (String × Val))
    (hg : goodDict d = true) :
    elementToDict (dictToElement t (.dict d)) = .dict (normEntries d) := by
  rw [roundtripAux (sizeOf (Val.dict d) + 1) (Val.dict d) (by omega) hg t,
    normVal_dict]

/-! ## Claim C10 — unlock on an already-unlocked user raises KeyError -/

/-- A record read back from a real user element is a well-shaped,
normalization-fixed dict. -/
theorem userRecord_good (u : Node) (ru : List (String × Val))
    (hna : noAttrib u = true) (hrec : elementToDict u = .dict ru) :
    goodDict ru = true ∧ normEntries ru = ru := by
  constructor
  · have h := goodTop_elementToDict u hna
    rw [hrec] at h
    exact h
  · have h := normal_elementToDict u hna
    rw [hrec, normVal_dict] at h
    simpa using h

/-- Re-reading the rebuilt record `dictToElement "user" (dictSet ru k (.str s))`
after a marker write gives `dictSet ru k (normVal (.str s))`. -/
theorem elementToDict_userElem_set (ru : List (String × Val)) (k s : String)
    (hgood : goodDict ru = true) (hnorm : normEntries ru = ru) :
    elementToDict (dictToElement "user" (.dict (dictSet ru k (.str s)))) =
      .dict (dictSet ru k (normVal (.str s))) := by
  rw [elementToDict_userElem "user" _ (goodDict_dictSet ru k (.str s)
    (by simp [goodEntry]) hgood), normEntries_dictSet, hnorm]

/-- **C10.**  Implicit edge case: on a document with a single `system`
parent holding a user named `nm` whose record carries no `disabled` marker,
`unlock_passwd nm` raises `KeyError` (the `del node["disabled"]` of an
absent key) instead of returning a result; by contrast, locking is
insensitive to the marker already being present: `lock_passwd` succeeds on
the same document, and succeeds again on its own output (an already-locked
user), so unlocking is not an idempotent no-op while locking is. -/
theorem claim_C10_unlock_keyerror (doc p : Node) (cpre : List Node) (u : Node)
    (csuf : List Node) (ru : List (String × Val)) (nm : String) (nc : Node)
    (hname : nm ≠ "")
    (hP : xpathAbs doc ["pfsense", "system"] = [p])
    (hchild : p.children = cpre ++ u :: csuf)
    (hutag : u.tag = "user")
    (hna : noAttrib u = true)
    (hrec : elementToDict u = .dict ru)
    (hnm : dictFind ru "name" = some (.str nm))
    (hfc : findChild u "name" = some nc) (hnc : nc.text = some nm)
    (hothers : ∀ w ∈ cpre ++ csuf, otherUserOK nm w)
    (hdis : dictHasKey ru "disabled" = false) :
    unlock_passwd doc nm = .error .keyError ∧
    ∃ d1 d2, lock_passwd doc nm = .ok (d1, some true) ∧
      lock_passwd d1 nm = .ok (d2, some true) := by
  have hpre : ∀ w ∈ cpre, otherUserOK nm w := fun w hw => hothers w (by simp [hw])
  obtain ⟨hgood, hnorm⟩ := userRecord_good u ru hna hrec
  constructor
  · exact unlock_passwd_keyError doc p cpre u csuf ru nm nc hname hP hchild
      hutag hrec hnm hfc hnc hpre hdis
  · obtain ⟨d1, h1, hx1⟩ := lock_passwd_ok doc p cpre u csuf ru nm nc hname hP
      hchild hutag hrec hnm hfc hnc hpre
    have hne : ("name" : String) ≠ "disabled" := by decide
    have hrec1 : elementToDict
        (dictToElement "user" (.dict (dictSet ru "disabled" (.str "")))) =
        .dict (dictSet ru "disabled" (normVal (.str ""))) :=
      elementToDict_userElem_set ru "disabled" "" hgood hnorm
    have hnm1 : dictFind (dictSet ru "disabled" (normVal (.str ""))) "name" =
        some (.str nm) := by
      rw [dictFind_dictSet_ne ru "disabled" "name" _ hne]
      exact hnm
    have hfc1 : findChild
        (dictToElement "user" (.dict (dictSet ru "disabled" (.str "")))) "name" =
        some (Node.mk "name" [] (some nm) []) := by
      apply findChild_dictToElement_str
      rw [dictFind_dictSet_ne ru "disabled" "name" _ hne]
      exact hnm
    obtain ⟨d2, h2, _⟩ := lock_passwd_ok d1
      (p.withChildren ((cpre ++ csuf) ++
        [dictToElement "user" (.dict (dictSet ru "disabled" (.str "")))]))
      (cpre ++ csuf)
      (dictToElement "user" (.dict (dictSet ru "disabled" (.str "")))) []
      (dictSet ru "disabled" (normVal (.str ""))) nm
      (Node.mk "name" [] (some nm) []) hname hx1 (by simp)
      (dictToElement_tag "user" _) hrec1 hnm1 hfc1 rfl hothers
    exact ⟨d1, d2, h1, h2⟩

/-- Concrete document for the C10 witness: one user without a `disabled`
marker, plus the uid counter. -/
def sampleDocC10 : Node :=
  Node.mk "pfsense" [] Option.none
    [Node.mk "system" [] Option.none
      [Node.mk "user" [] Option.none
        [Node.mk "name" [] (some "alice") [], Node.mk "uid" [] (some "2000") []],
       Node.mk "nextuid" [] (some "2001") []]]

theorem claim_C10_unlock_keyerror_witness :
    unlock_passwd sampleDocC10 "alice" = .error .keyError ∧
    ∃ d1 d2, lock_passwd sampleDocC10 "alice" = .ok (d1, some true) ∧
      lock_passwd d1 "alice" = .ok (d2, some true) :=
  claim_C10_unlock_keyerror sampleDocC10
    (Node.mk "system" [] Option.none
      [Node.mk "user" [] Option.none
        [Node.mk "name" [] (some "alice") [], Node.mk "uid" [] (some "2000") []],
       Node.mk "nextuid" [] (some "2001") []])
    []
    (Node.mk "user" [] Option.none
      [Node.mk "name" [] (some "alice") [], Node.mk "uid" [] (some "2000") []])
    [Node.mk "nextuid" [] (some "2001") []]
    [("name", Val.str "alice"), ("uid", Val.str "2000")]
    "alice" (Node.mk "name" [] (some "alice") [])
    (by decide) rfl rfl rfl
    (by simp [noAttrib, noAttribList])
    (by simp [elementToDict, foldInto, foldChild, pyStrip, pyStripAux,
      trimLeftWs, trimRightWs])
    (by simp [dictFind]) rfl rfl
    (by
      intro w hw
      simp only [List.nil_append, List.mem_singleton] at hw
      subst hw
      intro htag
      simp at htag)
    (by simp [dictHasKey, dictFind])

/-! ## Claim C9 — lock/unlock frame property -/

theorem withChildren_withChildren (n : Node) (c c' : List Node) :
    (n.withChildren c).withChildren c' = n.withChildren c' := by
  cases n
  rfl

theorem dictFind_ne_nil (d : List (String × Val)) (k : String) (v : Val)
    (h : dictFind d k = some v) : d ≠ [] := by
  intro he
  subst he
  simp [dictFind] at h

/-- **C9.**  Lock/unlock frame: on a document with a single `system` parent
holding a user named `nm` (its record read as `ru`), `lock_passwd nm`
followed by `unlock_passwd nm` both succeed, and the final user collection
consists of the untouched other children (in order) plus one rebuilt record
for `nm` that reads back as `ru` with the `disabled` marker erased: the
final record has no `disabled` key, and every other field — `bcrypt-hash`
included — reads exactly as in `ru`. -/
theorem claim_C9_lock_unlock_frame (doc p : Node) (cpre : List Node) (u : Node)
    (csuf : List Node) (ru : List (String × Val)) (nm : String) (nc : Node)
    (hname : nm ≠ "")
    (hP : xpathAbs doc ["pfsense", "system"] = [p])
    (hchild : p.children = cpre ++ u :: csuf)
    (hutag : u.tag = "user")
    (hna : noAttrib u = true)
    (hrec : elementToDict u = .dict ru)
    (hnm : dictFind ru "name" = some (.str nm))
    (hfc : findChild u "name" = some nc) (hnc : nc.text = some nm)
    (hothers : ∀ w ∈ cpre ++ csuf, otherUserOK nm w) :
    ∃ d1 d2 uF,
      lock_passwd doc nm = .ok (d1, some true) ∧
      unlock_passwd d1 nm = .ok (d2, some true) ∧
      xpathAbs d2 user_node =
        ((cpre ++ csuf).filter (fun c => c.tag == "user")) ++ [uF] ∧
      elementToDict uF = .dict (dictErase ru "disabled") ∧
      dictFind (dictErase ru "disabled") "disabled" = Option.none ∧
      (∀ k, k ≠ "disabled" → dictFind (dictErase ru "disabled") k = dictFind ru k) := by
  have hpre : ∀ w ∈ cpre, otherUserOK nm w := fun w hw => hothers w (by simp [hw])
  obtain ⟨hgood, hnorm⟩ := userRecord_good u ru hna hrec
  have hdistinct : keysDistinct ru = true := by
    simp only [goodDict, Bool.and_eq_true] at hgood
    exact hgood.1.2
  obtain ⟨d1, h1, hx1⟩ := lock_passwd_ok doc p cpre u csuf ru nm nc hname hP
    hchild hutag hrec hnm hfc hnc hpre
  have hne : ("name" : String) ≠ "disabled" := by decide
  have hrec1 : elementToDict
      (dictToElement "user" (.dict (dictSet ru "disabled" (.str "")))) =
      .dict (dictSet ru "disabled" (normVal (.str ""))) :=
    elementToDict_userElem_set ru "disabled" "" hgood hnorm
  have hnm1 : dictFind (dictSet ru "disabled" (normVal (.str ""))) "name" =
      some (.str nm) := by
    rw [dictFind_dictSet_ne ru "disabled" "name" _ hne]
    exact hnm
  have hfc1 : findChild
      (dictToElement "user" (.dict (dictSet ru "disabled" (.str "")))) "name" =
      some (Node.mk "name" [] (some nm) []) := by
    apply findChild_dictToElement_str
    rw [dictFind_dictSet_ne ru "disabled" "name" _ hne]
    exact hnm
  have hdis1 : dictHasKey (dictSet ru "disabled" (normVal (.str ""))) "disabled" =
      true := dictHasKey_dictSet ru "disabled" _
  obtain ⟨d2, h2, hx2⟩ := unlock_passwd_ok d1
    (p.withChildren ((cpre ++ csuf) ++
      [dictToElement "user" (.dict (dictSet ru "disabled" (.str "")))]))
    (cpre ++ csuf)
    (dictToElement "user" (.dict (dictSet ru "disabled" (.str "")))) []
    (dictSet ru "disabled" (normVal (.str ""))) nm
    (Node.mk "name" [] (some nm) []) hname hx1 (by simp)
    (dictToElement_tag "user" _) hrec1 hnm1 hfc1 rfl hothers hdis1
  have herase : dictErase (dictSet ru "disabled" (normVal (.str ""))) "disabled" =
      dictErase ru "disabled" := dictErase_dictSet ru "disabled" _
  rw [herase, withChildren_withChildren, List.append_nil] at hx2
  have heraseNe : dictErase ru "disabled" ≠ [] := by
    apply dictFind_ne_nil _ "name" (.str nm)
    rw [dictFind_dictErase_ne ru "disabled" "name" hne]
    exact hnm
  have hgoodE : goodDict (dictErase ru "disabled") = true :=
    goodDict_dictErase ru "disabled" hgood heraseNe
  refine ⟨d1, d2, dictToElement "user" (.dict (dictErase ru "disabled")),
    h1, h2, ?_, ?_, ?_, ?_⟩
  · have huser : user_node = ["pfsense", "system"] ++ ["user"] := rfl
    rw [huser, xpathAbs_append d2 _ _ (by simp), hx2]
    simp only [List.flatMap_cons, List.flatMap_nil, List.append_nil]
    rw [sel_single]
    simp only [Node.children_withChildren]
    rw [List.filter_append, List.filter_cons,
      if_pos (by simp [dictToElement_tag]), List.filter_nil]
  · rw [elementToDict_userElem "user" _ hgoodE, normEntries_dictErase, hnorm]
  · exact dictFind_dictErase_self ru "disabled" hdistinct
  · intro k hk
    exact dictFind_dictErase_ne ru "disabled" k hk

/-- Concrete document for the C9 witness: user `bob` with a stored hash. -/
def sampleDocC9 : Node :=
  Node.mk "pfsense" [] Option.none
    [Node.mk "system" [] Option.none
      [Node.mk "user" [] Option.none
        [Node.mk "name" [] (some "bob") [],
         Node.mk "bcrypt-hash" [] (some "$2b$12$abc") [],
         Node.mk "uid" [] (some "2001") []],
       Node.mk "nextuid" [] (some "2002") []]]

theorem claim_C9_lock_unlock_frame_witness :
    ∃ d1 d2 uF,
      lock_passwd sampleDocC9 "bob" = .ok (d1, some true) ∧
      unlock_passwd d1 "bob" = .ok (d2, some true) ∧
      xpathAbs d2 user_node =
        (([] ++ [Node.mk "nextuid" [] (some "2002") []]).filter
          (fun c => c.tag == "user")) ++ [uF] ∧
      elementToDict uF = .dict (dictErase [("name", Val.str "bob"),
        ("bcrypt-hash", Val.str "$2b$12$abc"), ("uid", Val.str "2001")]
        "disabled") ∧
      dictFind (dictErase [("name", Val.str "bob"),
        ("bcrypt-hash", Val.str "$2b$12$abc"), ("uid", Val.str "2001")]
        "disabled") "disabled" = Option.none ∧
      (∀ k, k ≠ "disabled" → dictFind (dictErase [("name", Val.str "bob"),
        ("bcrypt-hash", Val.str "$2b$12$abc"), ("uid", Val.str "2001")]
        "disabled") k = dictFind [("name", Val.str "bob"),
        ("bcrypt-hash", Val.str "$2b$12$abc"), ("uid", Val.str "2001")] k) :=
  claim_C9_lock_unlock_frame sampleDocC9
    (Node.mk "system" [] Option.none
      [Node.mk "user" [] Option.none
        [Node.mk "name" [] (some "bob") [],
         Node.mk "bcrypt-hash" [] (some "$2b$12$abc") [],
         Node.mk "uid" [] (some "2001") []],
       Node.mk "nextuid" [] (some "2002") []])
    []
    (Node.mk "user" [] Option.none
      [Node.mk "name" [] (some "bob") [],
       Node.mk "bcrypt-hash" [] (some "$2b$12$abc") [],
       Node.mk "uid" [] (some "2001") []])
    [Node.mk "nextuid" [] (some "2002") []]
    [("name", Val.str "bob"), ("bcrypt-hash", Val.str "$2b$12$abc"),
     ("uid", Val.str "2001")]
    "bob" (Node.mk "name" [] (some "bob") [])
    (by decide) rfl rfl rfl
    (by simp [noAttrib, noAttribList])
    (by simp [elementToDict, foldInto, foldChild, pyStrip, pyStripAux,
      trimLeftWs, trimRightWs])
    (by simp [dictFind]) rfl rfl
    (by
      intro w hw
      simp only [List.nil_append, List.mem_singleton] at hw
      subst hw
      intro htag
      simp at htag)

/-! ## Claim C8 — password hash gate -/

/-- **C8.**  Password-hash gate, on a document with a single `system` parent
holding a user named `nm` with record `ru`: with `hashed=True` the supplied
secret is stored verbatim as the record's `bcrypt-hash` if and only if it
starts with the accepted bcrypt scheme prefix `$2` — otherwise the call
returns failure and the document is returned unchanged; with `hashed=False`
the secret is first run through the hashing capability (`bcrypt.hashpw`,
modelled as the parameter `hashFn`) and the digest is stored instead.  In
the storing cases all other record fields are preserved. -/
theorem claim_C8_password_hash_gate (hashFn : String → String) (doc p : Node)
    (cpre : List Node) (u : Node) (csuf : List Node) (ru : List (String × Val))
    (nm : String) (nc : Node) (s : String)
    (hname : nm ≠ "")
    (hP : xpathAbs doc ["pfsense", "system"] = [p])
    (hchild : p.children = cpre ++ u :: csuf)
    (hutag : u.tag = "user")
    (hrec : elementToDict u = .dict ru)
    (hnm : dictFind ru "name" = some (.str nm))
    (hfc : findChild u "name" = some nc) (hnc : nc.text = some nm)
    (hpre : ∀ w ∈ cpre, otherUserOK nm w) :
    (s.startsWith "$2" = false →
      set_passwd hashFn doc nm (.str s) true = .ok (doc, some false)) ∧
    (s.startsWith "$2" = true →
      ∃ d', set_passwd hashFn doc nm (.str s) true = .ok (d', some true) ∧
        xpathAbs d' ["pfsense", "system"] =
          [p.withChildren ((cpre ++ csuf) ++
            [dictToElement "user" (.dict (dictSet ru "bcrypt-hash" (.str s)))])] ∧
        dictFind (dictSet ru "bcrypt-hash" (.str s)) "bcrypt-hash" =
          some (.str s) ∧
        (∀ k, k ≠ "bcrypt-hash" →
          dictFind (dictSet ru "bcrypt-hash" (.str s)) k = dictFind ru k)) ∧
    (∃ d', set_passwd hashFn doc nm (.str s) false = .ok (d', some true) ∧
      xpathAbs d' ["pfsense", "system"] =
        [p.withChildren ((cpre ++ csuf) ++
          [dictToElement "user"
            (.dict (dictSet ru "bcrypt-hash" (.str (hashFn s))))])] ∧
      dictFind (dictSet ru "bcrypt-hash" (.str (hashFn s))) "bcrypt-hash" =
        some (.str (hashFn s))) := by
  refine ⟨?_, ?_, ?_⟩
  · intro hS
    obtain ⟨hfind, _, _, _⟩ := locate_replace_flow doc p cpre u csuf ru nm nc
      Val.none hP hchild hutag hrec hnm hfc hnc hpre
    simp only [set_passwd, if_neg hname, hfind, exceptBind_ok, hS,
      Bool.false_eq_true, if_false, if_true, exceptPure]
  · intro hS
    obtain ⟨hfind, d', hrep, hx⟩ := locate_replace_flow doc p cpre u csuf ru nm nc
      (.dict (dictSet ru "bcrypt-hash" (.str s))) hP hchild hutag hrec hnm hfc
      hnc hpre
    refine ⟨d', ?_, hx, dictFind_dictSet_self ru "bcrypt-hash" (.str s),
      fun k hk => dictFind_dictSet_ne ru "bcrypt-hash" k (.str s) hk⟩
    simp only [set_passwd, if_neg hname, hfind, exceptBind_ok, hS,
      eq_self_iff_true, if_true, pySetItem, exceptBind_ok, hrep, exceptPure,
      sync_users_groups]
  · obtain ⟨hfind, d', hrep, hx⟩ := locate_replace_flow doc p cpre u csuf ru nm nc
      (.dict (dictSet ru "bcrypt-hash" (.str (hashFn s)))) hP hchild hutag hrec
      hnm hfc hnc hpre
    refine ⟨d', ?_, hx, dictFind_dictSet_self ru "bcrypt-hash" (.str (hashFn s))⟩
    simp only [set_passwd, if_neg hname, hfind, exceptBind_ok, pyStr, pySetItem,
      exceptBind_ok, hrep, exceptPure, sync_users_groups, Bool.false_eq_true,
      if_false]

/-- Concrete document for the C8 witness. -/
def sampleDocC8 : Node :=
  Node.mk "pfsense" [] Option.none
    [Node.mk "system" [] Option.none
      [Node.mk "user" [] Option.none
        [Node.mk "name" [] (some "carol") [],
         Node.mk "uid" [] (some "2002") []],
       Node.mk "nextuid" [] (some "2003") []]]

theorem claim_C8_password_hash_gate_witness :
    (("$2b$12$xyz" : String).startsWith "$2" = false →
      set_passwd (fun s0 => "$2y$" ++ s0) sampleDocC8 "carol"
        (.str "$2b$12$xyz") true = .ok (sampleDocC8, some false)) ∧
    (("$2b$12$xyz" : String).startsWith "$2" = true →
      ∃ d', set_passwd (fun s0 => "$2y$" ++ s0) sampleDocC8 "carol"
          (.str "$2b$12$xyz") true = .ok (d', some true) ∧
        xpathAbs d' ["pfsense", "system"] =
          [(Node.mk "system" [] Option.none
            [Node.mk "user" [] Option.none
              [Node.mk "name" [] (some "carol") [],
               Node.mk "uid" [] (some "2002") []],
             Node.mk "nextuid" [] (some "2003") []]).withChildren
            (([] ++ [Node.mk "nextuid" [] (some "2003") []]) ++
              [dictToElement "user" (.dict (dictSet
                [("name", Val.str "carol"), ("uid", Val.str "2002")]
                "bcrypt-hash" (.str "$2b$12$xyz")))])] ∧
        dictFind (dictSet [("name", Val.str "carol"), ("uid", Val.str "2002")]
          "bcrypt-hash" (.str "$2b$12$xyz")) "bcrypt-hash" =
          some (.str "$2b$12$xyz") ∧
        (∀ k, k ≠ "bcrypt-hash" →
          dictFind (dictSet [("name", Val.str "carol"),
            ("uid", Val.str "2002")] "bcrypt-hash" (.str "$2b$12$xyz")) k =
          dictFind [("name", Val.str "carol"), ("uid", Val.str "2002")] k)) ∧
    (∃ d', set_passwd (fun s0 => "$2y$" ++ s0) sampleDocC8 "carol"
        (.str "$2b$12$xyz") false = .ok (d', some true) ∧
      xpathAbs d' ["pfsense", "system"] =
        [(Node.mk "system" [] Option.none
          [Node.mk "user" [] Option.none
            [Node.mk "name" [] (some "carol") [],
             Node.mk "uid" [] (some "2002") []],
           Node.mk "nextuid" [] (some "2003") []]).withChildren
          (([] ++ [Node.mk "nextuid" [] (some "2003") []]) ++
            [dictToElement "user" (.dict (dictSet
              [("name", Val.str "carol"), ("uid", Val.str "2002")]
              "bcrypt-hash" (.str ("$2y$" ++ "$2b$12$xyz"))))])] ∧
      dictFind (dictSet [("name", Val.str "carol"), ("uid", Val.str "2002")]
        "bcrypt-hash" (.str ("$2y$" ++ "$2b$12$xyz"))) "bcrypt-hash" =
        some (.str ("$2y$" ++ "$2b$12$xyz"))) :=
  claim_C8_password_hash_gate (fun s0 => "$2y$" ++ s0) sampleDocC8
    (Node.mk "system" [] Option.none
      [Node.mk "user" [] Option.none
        [Node.mk "name" [] (some "carol") [],
         Node.mk "uid" [] (some "2002") []],
       Node.mk "nextuid" [] (some "2003") []])
    []
    (Node.mk "user" [] Option.none
      [Node.mk "name" [] (some "carol") [],
       Node.mk "uid" [] (some "2002") []])
    [Node.mk "nextuid" [] (some "2003") []]
    [("name", Val.str "carol"), ("uid", Val.str "2002")]
    "carol" (Node.mk "name" [] (some "carol") []) "$2b$12$xyz"
    (by decide) rfl rfl rfl
    (by simp [elementToDict, foldInto, foldChild, pyStrip, pyStripAux,
      trimLeftWs, trimRightWs])
    (by simp [dictFind]) rfl rfl
    (fun w hw => absurd hw (List.not_mem_nil w))

/-! ## Claim C5 — provisioner call surface (corrected) -/

/-- Concrete document for C5: a `system` with only a gid counter. -/
def sampleDocC5 : Node :=
  Node.mk "pfsense" [] Option.none
    [Node.mk "system" [] Option.none
      [Node.mk "nextgid" [] (some "3000") []]]

/-- **C5 (counterexample).**  The claim says every provisioner operation
returns a boolean success value.  `create_group` has no `return` on its
success path, so a successful creation returns Python `None` (not a
boolean), and `expire_passwd` discards `lock_passwd`'s result and always
returns `None`. -/
theorem claim_C5_counterexample :
    create_group sampleDocC5 "admins" (.list []) =
      .ok (Node.mk "pfsense" [] Option.none
        [Node.mk "system" [] Option.none
          [Node.mk "nextgid" [] (some "3001") [],
           dictToElement "group" (.dict
             [("name", Val.str "admins"), ("description", Val.str "admins"),
              ("gid", Val.str "3000"), ("scope", Val.str "system"),
              ("member", Val.list [])])]], Option.none) ∧
    expire_passwd sampleDocC5 "nobody" = .ok (sampleDocC5, Option.none) := by
  constructor
  · rfl
  · rfl

/-- **C5 (amended).**  Boolean call surface, as far as it actually holds:
for the expected failure conditions — empty name, missing entity, duplicate
name — `add_user`, `set_passwd`, `lock_passwd`, `unlock_passwd`,
`create_group` and `_add_user_to_group` return a boolean failure (`False`)
and raise no exception.  The exceptions to the boolean discipline (proved in
the counterexample) are `create_group`, which returns `None` on success, and
`expire_passwd`, which always returns `None`; `unlock_passwd` can also raise
`KeyError` on a user without the `disabled` marker (claim C10). -/
theorem claim_C5_boolean_surface (hashFn : String → String) (doc : Node)
    (nm : String) (pw : Val) (hashed : Bool) (kwargs : List (String × Val))
    (members gname uid : Val) :
    (add_user hashFn doc "" kwargs = .ok (doc, some false)) ∧
    (set_passwd hashFn doc "" pw hashed = .ok (doc, some false)) ∧
    (lock_passwd doc "" = .ok (doc, some false)) ∧
    (unlock_passwd doc "" = .ok (doc, some false)) ∧
    (create_group doc "" members = .ok (doc, some false)) ∧
    (nm ≠ "" →
      findRecBy (get_config_elements doc user_node) (.str nm) = .ok Option.none →
      set_passwd hashFn doc nm pw hashed = .ok (doc, some false) ∧
      lock_passwd doc nm = .ok (doc, some false) ∧
      unlock_passwd doc nm = .ok (doc, some false)) ∧
    (findRecBy (get_config_elements doc group_node) gname = .ok Option.none →
      add_user_to_group doc uid gname = .ok (doc, some false)) ∧
    (∀ nvs, nm ≠ "" →
      recNames (get_config_elements doc user_node) = .ok nvs →
      nvs.any (fun v => pyEq v (.str nm)) = true →
      add_user hashFn doc nm kwargs = .ok (doc, some false)) ∧
    (∀ gvs, nm ≠ "" →
      recNames (get_config_elements doc group_node) = .ok gvs →
      gvs.any (fun v => pyEq v (.str nm)) = true →
      create_group doc nm members = .ok (doc, some false)) := by
  refine ⟨?_, ?_, ?_, ?_, ?_, ?_, ?_, ?_, ?_⟩
  · simp only [add_user, if_pos rfl, eq_self_iff_true, if_true, exceptPure]
  · simp only [set_passwd, if_pos rfl, eq_self_iff_true, if_true, exceptPure]
  · simp only [lock_passwd, if_pos rfl, eq_self_iff_true, if_true, exceptPure]
  · simp only [unlock_passwd, if_pos rfl, eq_self_iff_true, if_true, exceptPure]
  · simp only [create_group, if_pos rfl, eq_self_iff_true, if_true, exceptPure]
  · intro hnm hfind
    refine ⟨?_, ?_, ?_⟩
    · simp only [set_passwd, if_neg hnm, hfind, exceptBind_ok, exceptPure]
    · simp only [lock_passwd, if_neg hnm, hfind, exceptBind_ok, exceptPure]
    · simp only [unlock_passwd, if_neg hnm, hfind, exceptBind_ok, exceptPure]
  · intro hfind
    simp only [add_user_to_group, hfind, exceptBind_ok, exceptPure]
  · intro nvs hnm hnames hany
    simp only [add_user, if_neg hnm, hnames, exceptBind_ok, hany,
      eq_self_iff_true, if_true, exceptPure]
  · intro gvs hnm hnames hany
    simp only [create_group, if_neg hnm, hnames, exceptBind_ok, hany,
      eq_self_iff_true, if_true, exceptPure]

theorem claim_C5_boolean_surface_witness :
    lock_passwd sampleDocC5 "" = .ok (sampleDocC5, some false) ∧
    lock_passwd sampleDocC5 "ghost" = .ok (sampleDocC5, some false) :=
  ⟨(claim_C5_boolean_surface (fun s0 => s0) sampleDocC5 "ghost" Val.none false
      [] Val.none Val.none Val.none).2.2.1,
   ((claim_C5_boolean_surface (fun s0 => s0) sampleDocC5 "ghost" Val.none false
      [] Val.none Val.none Val.none).2.2.2.2.2.1 (by decide) rfl).2.1⟩

/-! ## Canonical documents for the user-creation claims (C1, C2) -/

/-- A user element as `add_user` stores it. -/
def userElem (d : List (String × Val)) : Node := dictToElement "user" (.dict d)

/-- A canonical configuration document: the uid counter first, then the user
elements, all under a single `system` parent. -/
def sysDoc (t : String) (us : List Node) : Node :=
  Node.mk "pfsense" [] Option.none
    [Node.mk "system" [] Option.none
      (Node.mk "nextuid" [] (some t) [] :: us)]

/-- Does this element's record read back with the given `name`? -/
def userNamed (nm : String) (u : Node) : Bool :=
  match elementToDict u with
  | .dict du =>
    match dictFind du "name" with
    | some (.str s) => s == nm
    | _ => false
  | _ => false

theorem sysDoc_next_uid (t : String) (us : List Node)
    (hus : ∀ u ∈ us, u.tag = "user") :
    get_config_values (sysDoc t us) next_uid_node = [some t] := by
  unfold get_config_values
  rw [show next_uid_node = ["pfsense", "system"] ++ ["nextuid"] from rfl,
    xpathAbs_append _ _ _ (by simp),
    show xpathAbs (sysDoc t us) ["pfsense", "system"] =
      [Node.mk "system" [] Option.none
        (Node.mk "nextuid" [] (some t) [] :: us)] from rfl]
  simp only [List.flatMap_cons, List.flatMap_nil, List.append_nil, sel_single,
    Node.children_mk, List.filter_cons]
  rw [if_pos (by simp)]
  have hf : us.filter (fun c => c.tag == "nextuid") = [] := by
    rw [List.filter_eq_nil_iff]
    intro u hu
    simp [hus u hu]
  rw [hf]
  rfl

theorem sysDoc_users (t : String) (us : List Node)
    (hus : ∀ u ∈ us, u.tag = "user") :
    get_config_elements (sysDoc t us) user_node = us.map elementToDict := by
  unfold get_config_elements
  rw [show user_node = ["pfsense", "system"] ++ ["user"] from rfl,
    xpathAbs_append _ _ _ (by simp),
    show xpathAbs (sysDoc t us) ["pfsense", "system"] =
      [Node.mk "system" [] Option.none
        (Node.mk "nextuid" [] (some t) [] :: us)] from rfl]
  simp only [List.flatMap_cons, List.flatMap_nil, List.append_nil, sel_single,
    Node.children_mk, List.filter_cons]
  rw [if_neg (by simp)]
  have hf : us.filter (fun c => c.tag == "user") = us := by
    rw [List.filter_eq_self]
    intro u hu
    simp [hus u hu]
  rw [hf]

theorem remove_users_canonical (t : String) (us : List Node)
    (hus : ∀ u ∈ us, u.tag = "user") :
    remove_config_element (sysDoc t us) user_node Option.none Option.none =
      .ok (sysDoc t []) := by
  have hf : us.filter (fun c => !(c.tag == "user")) = [] := by
    rw [List.filter_eq_nil_iff]
    intro u hu
    simp [hus u hu]
  have hstep : remove_config_element (sysDoc t us) user_node Option.none
      Option.none =
      .ok (modAllAbs (fun p =>
        p.withChildren (p.children.filter (fun c => !(c.tag == "user"))))
        ["pfsense", "system"] (sysDoc t us)) := rfl
  rw [hstep]
  simp only [modAllAbs, modAll, sysDoc, Node.tag_mk, Node.children_mk,
    List.map_cons, List.map_nil, List.filter_cons]
  rw [if_pos (by simp), if_pos (by simp), if_pos (by simp), hf]
  rfl

/-- The recorded names of canonical users all read back and miss `nm`. -/
theorem recNames_miss (us : List Node) (nm : String)
    (hscan : ∀ u ∈ us, ∃ du nv, elementToDict u = .dict du ∧
      dictFind du "name" = some nv ∧ pyEq nv (.str nm) = false) :
    ∃ nvs, recNames (us.map elementToDict) = .ok nvs ∧
      (nvs.any (fun v => pyEq v (.str nm))) = false := by
  induction us with
  | nil => exact ⟨[], rfl, rfl⟩
  | cons u rest ih =>
    obtain ⟨du, nv, h1, h2, h3⟩ := hscan u (by simp)
    obtain ⟨nvs, hn1, hn2⟩ := ih (fun w hw => hscan w (by simp [hw]))
    refine ⟨nv :: nvs, ?_, by simp [h3, hn2]⟩
    rw [List.map_cons, recNames, h1, pyGetItem, h2, exceptBind_ok, hn1,
      exceptBind_ok]
    rfl

/-- With no recognized keyword, the first `add_user` property pass leaves the
record unchanged. -/
theorem kwargs_pass1_id (kwargs : List (String × Val)) (u0 : List (String × Val))
    (hkw : ∀ kv ∈ kwargs, kv.1 ≠ "gecos" ∧ kv.1 ≠ "expiredate" ∧
      kv.1 ≠ "groups" ∧ kv.1 ≠ "passwd") :
    kwargs.foldlM (fun u kv =>
        if kv.1 = "gecos" then Except.ok (dictSet u "descr" kv.2)
        else if kv.1 = "expiredate" then
          match kv.2 with
          | .str s => do
            let ymd ← strptimeYmd s
            Except.ok (dictSet u "expires" (.str (fmt_dmY ymd.1 ymd.2.1 ymd.2.2)))
          | _ => (Except.error PyErr.typeError : Except PyErr (List (String × Val)))
        else Except.ok u) u0 = .ok u0 := by
  induction kwargs generalizing u0 with
  | nil => rfl
  | cons kv rest ih =>
    obtain ⟨h1, h2, _, _⟩ := hkw kv (by simp)
    rw [List.foldlM_cons, if_neg h1, if_neg h2, exceptBind_ok]
    exact ih u0 (fun kv2 hkv2 => hkw kv2 (by simp [hkv2]))

/-- With no recognized keyword, the second `add_user` property pass leaves
the document unchanged. -/
theorem kwargs_pass2_id (hashFn : String → String) (kwargs : List (String × Val))
    (uidv : Val) (nm : String) (d2 : Node)
    (hkw : ∀ kv ∈ kwargs, kv.1 ≠ "gecos" ∧ kv.1 ≠ "expiredate" ∧
      kv.1 ≠ "groups" ∧ kv.1 ≠ "passwd") :
    kwargs.foldlM (fun dd kv =>
        if kv.1 = "groups" then
          (toPyList kv.2).foldlM (fun dd2 g => do
            let r ← add_user_to_group dd2 uidv g
            Except.ok r.1) dd
        else if kv.1 = "passwd" then do
          let r ← set_passwd hashFn dd nm kv.2 true
          Except.ok r.1
        else Except.ok dd) d2 = .ok d2 := by
  induction kwargs generalizing d2 with
  | nil => rfl
  | cons kv rest ih =>
    obtain ⟨_, _, h3, h4⟩ := hkw kv (by simp)
    rw [List.foldlM_cons, if_neg h3, if_neg h4, exceptBind_ok]
    exact ih d2 (fun kv2 hkv2 => hkw kv2 (by simp [hkv2]))

/-- A successful `add_user` run on a canonical document: the scan misses,
the uid text is consumed, the counter is bumped by one, and the new record
is appended after the existing users. -/
theorem add_user_canonical (hashFn : String → String) (t : String)
    (us : List Node) (nm : String) (kwargs : List (String × Val)) (v : Int)
    (hnm : nm ≠ "")
    (hus : ∀ u ∈ us, u.tag = "user")
    (hscan : ∀ u ∈ us, ∃ du nv, elementToDict u = .dict du ∧
      dictFind du "name" = some nv ∧ pyEq nv (.str nm) = false)
    (ht : pyIntOfStr t = some v)
    (hkw : ∀ kv ∈ kwargs, kv.1 ≠ "gecos" ∧ kv.1 ≠ "expiredate" ∧
      kv.1 ≠ "groups" ∧ kv.1 ≠ "passwd") :
    add_user hashFn (sysDoc t us) nm kwargs =
      .ok (sysDoc (pyStrOfInt (v + 1))
        (us ++ [userElem [("name", Val.str nm), ("uid", Val.str t),
          ("scope", Val.str "user")]]), some true) := by
  obtain ⟨nvs, hnames, hany⟩ := recNames_miss us nm hscan
  have hset : set_config_value (sysDoc t us) next_uid_node
      (pyStrOfInt (v + 1)) = .ok (sysDoc (pyStrOfInt (v + 1)) us) := rfl
  have happ : append_config_element (sysDoc (pyStrOfInt (v + 1)) us) user_node
      (.dict [("name", Val.str nm), ("uid", Val.str t),
        ("scope", Val.str "user")]) =
      .ok (sysDoc (pyStrOfInt (v + 1))
        (us ++ [userElem [("name", Val.str nm), ("uid", Val.str t),
          ("scope", Val.str "user")]])) := rfl
  simp only [add_user, if_neg hnm, sysDoc_users t us hus, hnames, exceptBind_ok,
    hany, Bool.false_eq_true, if_false, sysDoc_next_uid t us hus, List.head?,
    pyIntOfText, ht, exceptBind_ok, hset, exceptBind_ok, valOfText,
    kwargs_pass1_id kwargs _ hkw, exceptBind_ok, happ, exceptBind_ok,
    kwargs_pass2_id hashFn kwargs (Val.str t) nm _ hkw, exceptPure,
    sync_users_groups]

theorem recNames_append (l1 l2 : List Val) (vs1 : List Val)
    (h : recNames l1 = .ok vs1) :
    recNames (l1 ++ l2) = (recNames l2).map (fun vs2 => vs1 ++ vs2) := by
  induction l1 generalizing vs1 with
  | nil =>
    rw [recNames] at h
    cases h
    rw [List.nil_append]
    cases h2 : recNames l2 with
    | error e => rfl
    | ok vs2 => simp [Except.map]
  | cons u rest ih =>
    rw [recNames] at h
    cases hg : pyGetItem u "name" with
    | error e => rw [hg, exceptBind_error] at h; cases h
    | ok nv =>
      rw [hg, exceptBind_ok] at h
      cases hr : recNames rest with
      | error e => rw [hr, exceptBind_error] at h; cases h
      | ok vs =>
        rw [hr, exceptBind_ok] at h
        cases h
        rw [List.cons_append, recNames, hg, exceptBind_ok, ih vs hr]
        cases h2 : recNames l2 with
        | error e => rfl
        | ok vs2 => simp [Except.map]

theorem sysDoc_user_xpath (t : String) (us : List Node)
    (hus : ∀ u ∈ us, u.tag = "user") :
    xpathAbs (sysDoc t us) user_node = us := by
  rw [show user_node = ["pfsense", "system"] ++ ["user"] from rfl,
    xpathAbs_append _ _ _ (by simp),
    show xpathAbs (sysDoc t us) ["pfsense", "system"] =
      [Node.mk "system" [] Option.none
        (Node.mk "nextuid" [] (some t) [] :: us)] from rfl]
  simp only [List.flatMap_cons, List.flatMap_nil, List.append_nil, sel_single,
    Node.children_mk, List.filter_cons]
  rw [if_neg (by simp)]
  have hf : us.filter (fun c => c.tag == "user") = us := by
    rw [List.filter_eq_self]
    intro u hu
    simp [hus u hu]
  rw [hf]

theorem userNamed_false_of_scan (nm : String) (u : Node)
    (h : ∃ du nv, elementToDict u = .dict du ∧
      dictFind du "name" = some nv ∧ pyEq nv (.str nm) = false) :
    userNamed nm u = false := by
  obtain ⟨du, nv, h1, h2, h3⟩ := h
  rw [userNamed, h1]
  show (match dictFind du "name" with
    | some (Val.str s) => s == nm
    | _ => false) = false
  rw [h2]
  cases nv with
  | str s =>
    simp only [pyEq] at h3
    simpa using h3
  | none => rfl
  | list xs => rfl
  | dict d => rfl

/-! ## Claim C2 — idempotent user creation (corrected) -/

/-- **C2 (counterexample).**  The claim quantifies over every non-empty user
name, but a name with surrounding whitespace defeats the duplicate check:
storing strips the stored copy (`text.strip()` on read-back), so the second
`add_user " x"` compares `" x"` against the stored `"x"`, misses, and
creates a second record — it returns success instead of failure, and the
collection ends with two records whose stored name is `"x"`. -/
theorem claim_C2_counterexample :
    ∃ d1 d2,
      add_user (fun s0 => s0) (sysDoc "2000" []) " x" [] = .ok (d1, some true) ∧
      add_user (fun s0 => s0) d1 " x" [] = .ok (d2, some true) ∧
      ((xpathAbs d2 user_node).filter (userNamed "x")).length = 2 := by
  have hu1 : elementToDict (userElem [("name", Val.str " x"),
      ("uid", Val.str "2000"), ("scope", Val.str "user")]) =
      .dict [("name", Val.str "x"), ("uid", Val.str "2000"),
        ("scope", Val.str "user")] := by
    simp [userElem, dictToElement, entriesToChildren, itemsToChildren,
      elementToDict, foldInto, foldChild, pyStrip, pyStripAux, trimLeftWs,
      trimRightWs]
  have h2 := add_user_canonical (fun s0 => s0) "2001"
    [userElem [("name", Val.str " x"), ("uid", Val.str "2000"),
      ("scope", Val.str "user")]] " x" [] 2001
    (by decide)
    (by intro u hu; simp only [List.mem_singleton] at hu; subst hu
        simp [userElem, dictToElement_tag])
    (by intro u hu; simp only [List.mem_singleton] at hu; subst hu
        exact ⟨_, Val.str "x", hu1, by simp [dictFind], by simp [pyEq]⟩)
    rfl
    (fun kv hkv => absurd hkv (List.not_mem_nil kv))
  refine ⟨_, _, rfl, h2, ?_⟩
  have hu2 : elementToDict (userElem [("name", Val.str " x"),
      ("uid", Val.str "2001"), ("scope", Val.str "user")]) =
      .dict [("name", Val.str "x"), ("uid", Val.str "2001"),
        ("scope", Val.str "user")] := by
    simp [userElem, dictToElement, entriesToChildren, itemsToChildren,
      elementToDict, foldInto, foldChild, pyStrip, pyStripAux, trimLeftWs,
      trimRightWs]
  rw [sysDoc_user_xpath]
  · rw [List.filter_append, List.filter_cons, List.filter_nil,
      List.filter_cons, List.filter_nil]
    rw [if_pos (by rw [userNamed, hu1]; simp [dictFind]),
      if_pos (by rw [userNamed, hu2]; simp [dictFind])]
    rfl
  · intro u hu
    simp only [List.mem_append, List.mem_singleton] at hu
    rcases hu with h | h <;> (subst h; simp [userElem, dictToElement_tag])

/-- **C2 (amended).**  Idempotent user creation for strip-invariant names:
on a canonical document (uid counter plus user elements under one `system`
parent) whose existing records read back with names distinct from `nm`, if
`nm` is non-empty and free of surrounding whitespace (`strip`-invariant —
the read-back strips stored text, so only such names survive a round trip
verbatim), then the first `add_user` succeeds, a second identical call
returns failure (`False`, no exception) leaving the document unchanged, and
the user collection holds exactly one record named `nm`. -/
theorem claim_C2_idempotent_creation (hashFn : String → String) (t : String)
    (us : List Node) (nm : String) (kwargs : List (String × Val)) (v : Int)
    (hnm : nm ≠ "") (hstrip : pyStrip nm = nm)
    (hus : ∀ u ∈ us, u.tag = "user")
    (hscan : ∀ u ∈ us, ∃ du nv, elementToDict u = .dict du ∧
      dictFind du "name" = some nv ∧ pyEq nv (.str nm) = false)
    (ht : pyIntOfStr t = some v)
    (hkw : ∀ kv ∈ kwargs, kv.1 ≠ "gecos" ∧ kv.1 ≠ "expiredate" ∧
      kv.1 ≠ "groups" ∧ kv.1 ≠ "passwd") :
    ∃ d1, add_user hashFn (sysDoc t us) nm kwargs = .ok (d1, some true) ∧
      add_user hashFn d1 nm kwargs = .ok (d1, some false) ∧
      ((xpathAbs d1 user_node).filter (userNamed nm)).length = 1 := by
  have h1 := add_user_canonical hashFn t us nm kwargs v hnm hus hscan ht hkw
  have hgood : goodDict [("name", Val.str nm), ("uid", Val.str t),
      ("scope", Val.str "user")] = true := by
    simp [goodDict, keysDistinct, goodEntries, goodEntry]
  have hrecNew : elementToDict (userElem [("name", Val.str nm),
      ("uid", Val.str t), ("scope", Val.str "user")]) =
      .dict (("name", Val.str nm) ::
        normEntries [("uid", Val.str t), ("scope", Val.str "user")]) := by
    rw [show userElem [("name", Val.str nm), ("uid", Val.str t),
        ("scope", Val.str "user")] = dictToElement "user"
        (.dict [("name", Val.str nm), ("uid", Val.str t),
          ("scope", Val.str "user")]) from rfl,
      elementToDict_userElem "user" _ hgood, normEntries_cons, normVal_str,
      hstrip, if_neg hnm]
  have husNew : ∀ u ∈ us ++ [userElem [("name", Val.str nm),
      ("uid", Val.str t), ("scope", Val.str "user")]], u.tag = "user" := by
    intro u hu
    rcases List.mem_append.1 hu with h | h
    · exact hus u h
    · simp only [List.mem_singleton] at h
      subst h
      simp [userElem, dictToElement_tag]
  obtain ⟨nvs, hn, hmiss⟩ := recNames_miss us nm hscan
  have hnew1 : recNames ([userElem [("name", Val.str nm), ("uid", Val.str t),
      ("scope", Val.str "user")]].map elementToDict) = .ok [Val.str nm] := by
    rw [List.map_cons, List.map_nil, recNames, hrecNew, pyGetItem]
    simp [dictFind, recNames, exceptBind_ok]
  have hn2 : recNames ((us ++ [userElem [("name", Val.str nm),
      ("uid", Val.str t), ("scope", Val.str "user")]]).map elementToDict) =
      .ok (nvs ++ [Val.str nm]) := by
    rw [List.map_append, recNames_append _ _ nvs hn, hnew1]
    rfl
  have hany2 : ((nvs ++ [Val.str nm]).any (fun w => pyEq w (.str nm))) = true := by
    simp [List.any_append, pyEq]
  refine ⟨_, h1, ?_, ?_⟩
  · simp only [add_user, if_neg hnm,
      sysDoc_users (pyStrOfInt (v + 1)) _ husNew, hn2, exceptBind_ok, hany2,
      if_true, exceptPure]
  · rw [sysDoc_user_xpath (pyStrOfInt (v + 1)) _ husNew, List.filter_append,
      List.filter_cons, List.filter_nil]
    have hold : us.filter (userNamed nm) = [] := by
      rw [List.filter_eq_nil_iff]
      intro u hu
      simp [userNamed_false_of_scan nm u (hscan u hu)]
    rw [hold, if_pos ?_]
    · rfl
    · rw [userNamed, hrecNew]
      simp [dictFind]

theorem claim_C2_idempotent_creation_witness :
    ∃ d1, add_user (fun s0 => s0) (sysDoc "2000" []) "alice" [] =
        .ok (d1, some true) ∧
      add_user (fun s0 => s0) d1 "alice" [] = .ok (d1, some false) ∧
      ((xpathAbs d1 user_node).filter (userNamed "alice")).length = 1 :=
  claim_C2_idempotent_creation (fun s0 => s0) "2000" [] "alice" [] 2000
    (by decide) rfl
    (fun u hu => absurd hu (List.not_mem_nil u))
    (fun u hu => absurd hu (List.not_mem_nil u))
    rfl
    (fun kv hkv => absurd hkv (List.not_mem_nil kv))

/-! ## Claim C1 — monotonic identifier counters -/

/-- An administrative run against the store: user creations (via `add_user`)
interleaved with removals of the whole user collection (via the working,
unkeyed form of `remove_config_element` — the only removal the store
offers). -/
inductive AdminOp where
  | addU (name : String)
  | removeUsers

/-- The names of the attempted creations, in order. -/
def opNames : List AdminOp → List String
  | [] => []
  | .addU nm :: rest => nm :: opNames rest
  | .removeUsers :: rest => opNames rest

/-- Run the operations, recording for each creation the uid text the counter
held when the user was created (the uid stored in the new record). -/
def runOps (hashFn : String → String) : Node → List AdminOp →
    Except PyErr (Node × List String)
  | d, [] => .ok (d, [])
  | d, .addU nm :: rest =>
    (match (get_config_values d next_uid_node).head? with
     | some (some t) => do
       let r ← add_user hashFn d nm []
       let pr ← runOps hashFn r.1 rest
       Except.ok (pr.1, t :: pr.2)
     | _ => .error .indexError)
  | d, .removeUsers :: rest => do
    let d1 ← remove_config_element d user_node Option.none Option.none
    runOps hashFn d1 rest

/-- A user element whose record reads back with the given name. -/
def namedUser (nm : String) (u : Node) : Prop :=
  u.tag = "user" ∧ ∃ du, elementToDict u = .dict du ∧
    dictFind du "name" = some (.str nm)

theorem forall2_mem_right {α β : Type} {R : α → β → Prop} :
    ∀ {l1 : List α} {l2 : List β}, List.Forall₂ R l1 l2 →
      ∀ b ∈ l2, ∃ a ∈ l1, R a b := by
  intro l1 l2 h
  induction h with
  | nil => intro b hb; exact absurd hb (List.not_mem_nil b)
  | cons hR hrest ih =>
    intro b hb
    rcases List.mem_cons.1 hb with h | h
    · subst h
      exact ⟨_, by simp, hR⟩
    · obtain ⟨a, ha, hab⟩ := ih b h
      exact ⟨a, by simp [ha], hab⟩

theorem forall2_append_own {α β : Type} {R : α → β → Prop} :
    ∀ {a : List α} {b : List β} {c : List α} {d : List β},
      List.Forall₂ R a b → List.Forall₂ R c d →
      List.Forall₂ R (a ++ c) (b ++ d) := by
  intro a b c d h1 h2
  induction h1 with
  | nil => simpa using h2
  | cons hR hrest ih => exact List.Forall₂.cons hR ih

/-- The run invariant: starting from a canonical document whose user records
carry names distinct from every attempted creation, the whole run succeeds,
the counter advances by exactly the number of creations, and the recorded
uids are the consecutive counter values from `v`. -/
theorem runOps_canonical (hashFn : String → String) :
    ∀ (ops : List AdminOp) (us : List Node) (names : List String) (v : Int),
      List.Forall₂ namedUser names us →
      (∀ nm ∈ opNames ops, nm ∉ names ∧ nm ≠ "" ∧ pyStrip nm = nm) →
      (opNames ops).Nodup →
      ∃ us' names',
        runOps hashFn (sysDoc (pyStrOfInt v) us) ops =
          .ok (sysDoc (pyStrOfInt (v + (opNames ops).length)) us',
            (List.range (opNames ops).length).map
              (fun i : Nat => pyStrOfInt (v + (i : Int)))) ∧
        List.Forall₂ namedUser names' us' := by
  intro ops
  induction ops with
  | nil =>
    intro us names v husr _ _
    refine ⟨us, names, ?_, husr⟩
    simp [runOps, opNames]
  | cons op rest ih =>
    intro us names v husr hfresh hnodup
    have hus : ∀ u ∈ us, u.tag = "user" := by
      intro u hu
      obtain ⟨nm', _, h⟩ := forall2_mem_right husr u hu
      exact h.1
    cases op with
    | removeUsers =>
      obtain ⟨us', names', hrun, hf2⟩ := ih [] [] v List.Forall₂.nil
        (fun nm h => ⟨List.not_mem_nil nm, (hfresh nm h).2⟩) hnodup
      refine ⟨us', names', ?_, hf2⟩
      simp only [runOps]
      rw [remove_users_canonical _ _ hus, exceptBind_ok, hrun]
      rfl
    | addU nm =>
      obtain ⟨hnotin, hnm, hstrip⟩ := hfresh nm (by simp [opNames])
      have hscan : ∀ u ∈ us, ∃ du nv, elementToDict u = .dict du ∧
          dictFind du "name" = some nv ∧ pyEq nv (.str nm) = false := by
        intro u hu
        obtain ⟨nm', hnm', hn⟩ := forall2_mem_right husr u hu
        obtain ⟨du, h1, h2⟩ := hn.2
        refine ⟨du, .str nm', h1, h2, ?_⟩
        have hne : nm' ≠ nm := fun he => hnotin (he ▸ hnm')
        simp [pyEq, hne]
      have hadd := add_user_canonical hashFn (pyStrOfInt v) us nm [] v hnm hus
        hscan (pyIntOfStr_pyStrOfInt v)
        (fun kv hkv => absurd hkv (List.not_mem_nil kv))
      have hgood : goodDict [("name", Val.str nm),
          ("uid", Val.str (pyStrOfInt v)), ("scope", Val.str "user")] = true := by
        simp [goodDict, keysDistinct, goodEntries, goodEntry]
      have hrecNew : elementToDict (userElem [("name", Val.str nm),
          ("uid", Val.str (pyStrOfInt v)), ("scope", Val.str "user")]) =
          .dict (("name", Val.str nm) ::
            normEntries [("uid", Val.str (pyStrOfInt v)),
              ("scope", Val.str "user")]) := by
        rw [show userElem [("name", Val.str nm),
            ("uid", Val.str (pyStrOfInt v)), ("scope", Val.str "user")] =
            dictToElement "user" (.dict [("name", Val.str nm),
              ("uid", Val.str (pyStrOfInt v)), ("scope", Val.str "user")])
            from rfl,
          elementToDict_userElem "user" _ hgood, normEntries_cons, normVal_str,
          hstrip, if_neg hnm]
      have husrNew : List.Forall₂ namedUser (names ++ [nm])
          (us ++ [userElem [("name", Val.str nm),
            ("uid", Val.str (pyStrOfInt v)), ("scope", Val.str "user")]]) := by
        refine forall2_append_own husr (List.Forall₂.cons ?_ List.Forall₂.nil)
        refine ⟨by simp [userElem, dictToElement_tag], _, hrecNew, ?_⟩
        simp [dictFind]
      have hnm_not_rest : nm ∉ opNames rest := by
        have := (List.nodup_cons.1 (by simpa [opNames] using hnodup)).1
        exact this
      have hfresh2 : ∀ nm2 ∈ opNames rest, nm2 ∉ names ++ [nm] ∧ nm2 ≠ "" ∧
          pyStrip nm2 = nm2 := by
        intro nm2 h2
        obtain ⟨ha, hb, hc⟩ := hfresh nm2 (by simp [opNames, h2])
        refine ⟨?_, hb, hc⟩
        intro hmem
        rcases List.mem_append.1 hmem with h | h
        · exact ha h
        · simp only [List.mem_singleton] at h
          subst h
          exact hnm_not_rest h2
      have hnodup2 : (opNames rest).Nodup :=
        (List.nodup_cons.1 (by simpa [opNames] using hnodup)).2
      obtain ⟨us', names', hrun, hf2⟩ := ih
        (us ++ [userElem [("name", Val.str nm),
          ("uid", Val.str (pyStrOfInt v)), ("scope", Val.str "user")]])
        (names ++ [nm]) (v + 1) husrNew hfresh2 hnodup2
      refine ⟨us', names', ?_, hf2⟩
      simp only [runOps]
      rw [sysDoc_next_uid (pyStrOfInt v) us hus]
      simp only [List.head?]
      rw [hadd, exceptBind_ok, hrun, exceptBind_ok]
      have hcounter : (v + 1) + ((opNames rest).length : Int) =
          v + ((opNames (.addU nm :: rest)).length : Int) := by
        simp only [opNames, List.length_cons]
        push_cast
        ring
      have huids : pyStrOfInt v ::
          (List.range (opNames rest).length).map
            (fun i : Nat => pyStrOfInt ((v + 1) + (i : Int))) =
          (List.range (opNames (.addU nm :: rest)).length).map
            (fun i : Nat => pyStrOfInt (v + (i : Int))) := by
        simp only [opNames, List.length_cons]
        rw [List.range_succ_eq_map, List.map_cons, List.map_map]
        congr 1
        · simp
        · apply List.map_congr_left
          intro i hi
          show pyStrOfInt ((v + 1) + i) = pyStrOfInt (v + (Nat.succ i))
          congr 1
          push_cast
          ring
      rw [hcounter, huids]

/-- **C1.**  Monotonic identifier counters: starting from a canonical
document whose counter reads `v` and whose user records bear names distinct
from the (pairwise-distinct, well-formed) names in the run, every creation
in the run succeeds, and after the run — creations interleaved with
wholesale user removals — the stored next-uid equals `v` plus the number of
creations (the counter is bumped exactly once per successful create and is
never decremented by a removal), and the uids consumed by the creations are
the consecutive values from `v`: pairwise distinct, strictly increasing in
creation order, and never reused even when previously created users are
removed mid-run. -/
theorem claim_C1_monotonic_counters (hashFn : String → String)
    (ops : List AdminOp) (us : List Node) (names : List String) (v : Int)
    (husr : List.Forall₂ namedUser names us)
    (hfresh : ∀ nm ∈ opNames ops, nm ∉ names ∧ nm ≠ "" ∧ pyStrip nm = nm)
    (hnodup : (opNames ops).Nodup) :
    ∃ us' uids,
      runOps hashFn (sysDoc (pyStrOfInt v) us) ops =
        .ok (sysDoc (pyStrOfInt (v + (opNames ops).length)) us', uids) ∧
      uids = (List.range (opNames ops).length).map
        (fun i : Nat => pyStrOfInt (v + (i : Int))) ∧
      get_config_values (sysDoc (pyStrOfInt (v + (opNames ops).length)) us')
        next_uid_node = [some (pyStrOfInt (v + (opNames ops).length))] ∧
      uids.Nodup ∧
      uids.Pairwise (fun a b => ∀ x y, pyIntOfStr a = some x →
        pyIntOfStr b = some y → x < y) := by
  obtain ⟨us', names', hrun, hf2⟩ :=
    runOps_canonical hashFn ops us names v husr hfresh hnodup
  have hus' : ∀ u ∈ us', u.tag = "user" := by
    intro u hu
    obtain ⟨nm', _, h⟩ := forall2_mem_right hf2 u hu
    exact h.1
  have hinj : Function.Injective (fun i : Nat => pyStrOfInt (v + (i : Int))) := by
    intro a b hab
    have := pyStrOfInt_injective hab
    omega
  refine ⟨us', _, hrun, rfl, sysDoc_next_uid _ _ hus', ?_, ?_⟩
  · exact List.Nodup.map hinj (List.nodup_range _)
  · rw [List.pairwise_map]
    refine (List.pairwise_lt_range _).imp ?_
    intro a b hab x y hx hy
    rw [pyIntOfStr_pyStrOfInt] at hx hy
    cases hx
    cases hy
    omega

theorem claim_C1_monotonic_counters_witness :
    ∃ us' uids,
      runOps (fun s0 => s0) (sysDoc (pyStrOfInt 2000) [])
        [AdminOp.addU "a", AdminOp.removeUsers, AdminOp.addU "b"] =
        .ok (sysDoc (pyStrOfInt ((2000 : Int) +
          (opNames [AdminOp.addU "a", AdminOp.removeUsers,
            AdminOp.addU "b"]).length)) us', uids) ∧
      uids = (List.range (opNames [AdminOp.addU "a", AdminOp.removeUsers,
          AdminOp.addU "b"]).length).map
        (fun i : Nat => pyStrOfInt ((2000 : Int) + (i : Int))) ∧
      get_config_values (sysDoc (pyStrOfInt ((2000 : Int) +
          (opNames [AdminOp.addU "a", AdminOp.removeUsers,
            AdminOp.addU "b"]).length)) us') next_uid_node =
        [some (pyStrOfInt ((2000 : Int) +
          (opNames [AdminOp.addU "a", AdminOp.removeUsers,
            AdminOp.addU "b"]).length))] ∧
      uids.Nodup ∧
      uids.Pairwise (fun a b => ∀ x y, pyIntOfStr a = some x →
        pyIntOfStr b = some y → x < y) :=
  claim_C1_monotonic_counters (fun s0 => s0)
    [AdminOp.addU "a", AdminOp.removeUsers, AdminOp.addU "b"] [] [] 2000
    List.Forall₂.nil
    (by
      intro nm h
      simp only [opNames, List.mem_cons, List.not_mem_nil, or_false] at h
      rcases h with h | h <;>
        (subst h; exact ⟨List.not_mem_nil _, by decide, rfl⟩))
    (by simp [opNames])

end PfSense
